import Mathlib

/-!
# stc: strkey codec, asset codes, text scanner and base64 transport

A shallow embedding of `stx/strkey.go`, `main.go`, `xdr.go` and `detail/base64.go`, with the
library codecs they call (`encoding/base32`, `encoding/base64`, `fmt.Fscanf`), and proofs of the
properties the specification states about them. Bytes and characters are natural numbers below
256; Go strings and byte slices are lists of them.
-/

namespace Stc

/-! ## CRC-16 (strkey.go) -/

/-- One round of the inner loop of `init`, on a `uint16`:
`if crc&0x8000 != 0 { crc = crc<<1 ^ poly } else { crc <<= 1 }` with `poly = 0x1021`. -/
def crcShift (crc : Nat) : Nat :=
  if crc &&& 0x8000 ≠ 0 then ((crc <<< 1) ^^^ 0x1021) % 65536 else (crc <<< 1) % 65536

/-- The value `init` stores in `crc16table[i]`: eight rounds from `uint16(i) << 8`. -/
def crc16entry (i : Nat) : Nat := crcShift^[8] ((i <<< 8) % 65536)

/-- The table `crc16table` after `init`. -/
def crc16table : List Nat := (List.range 256).map crc16entry

/-- The body of the loop of `crc16`:
`temp := b ^ byte(crc>>8); crc = crc16table[temp] ^ (crc << 8)`. -/
def crc16step (crc b : Nat) : Nat :=
  let temp := (b ^^^ ((crc >>> 8) % 256)) % 256
  (crc16table.getD temp 0) ^^^ ((crc <<< 8) % 65536)

/-- The function `crc16`. -/
def crc16 (data : List Nat) : Nat := data.foldl crc16step 0

/-- CRC-16/XMODEM as the specification names it, one message bit at a time: the register is
shifted left by one, and the polynomial 0x1021 is added when the bit shifted out differs from
the message bit. -/
def xmodemBit (crc : Nat) (bit : Bool) : Nat :=
  let fb := xor (crc.testBit 15) bit
  let sh := (crc <<< 1) % 65536
  if fb then sh ^^^ 0x1021 else sh

/-- The bits of a byte, most significant first. -/
def byteBits (b : Nat) : List Bool := (List.range 8).map (fun k => b.testBit (7 - k))

/-- CRC-16/XMODEM as the specification names it: polynomial 0x1021, initial value 0, bits taken
most significant first, no reflection, no final XOR. -/
def crc16XmodemRef (data : List Nat) : Nat :=
  data.foldl (fun crc b => (byteBits b).foldl xmodemBit crc) 0
/-! ## encoding/base32 (Go standard library), as used through
`b32 = base32.StdEncoding.WithPadding(base32.NoPadding)` -/

/-- The alphabet `encodeStd = "ABCDEFGHIJKLMNOPQRSTUVWXYZ234567"` as bytes. -/
def encodeStd : List Nat :=
  [65, 66, 67, 68, 69, 70, 71, 72, 73, 74, 75, 76, 77, 78, 79, 80, 81, 82, 83, 84, 85, 86, 87,
   88, 89, 90, 50, 51, 52, 53, 54, 55]

/-- The lookup `enc.encode[v&31]`. -/
def encodeChar (v : Nat) : Nat := encodeStd.getD (v &&& 31) 0

/-- The lookup `enc.decodeMap[c]`: the index of `c` in the alphabet, `0xFF` for every other byte. -/
def decodeMap (c : Nat) : Nat :=
  if encodeStd.indexOf c < 32 then encodeStd.indexOf c else 0xFF

/-- The eight 5-bit blocks that `Encoding.Encode` unpacks from one quantum of up to five source
bytes (`b[0..7]`; the cases of its `switch len(src)` fall through, so a missing byte reads as 0). -/
def encodeBlocks (src : List Nat) : List Nat :=
  let s := fun i => src.getD i 0
  [ s 0 >>> 3,
    ((s 0 <<< 2) &&& 0x1F) ||| ((s 1 >>> 6) &&& 0x1F),
    (s 1 >>> 1) &&& 0x1F,
    ((s 1 <<< 4) &&& 0x1F) ||| ((s 2 >>> 4) &&& 0x1F),
    ((s 2 <<< 1) &&& 0x1F) ||| (s 3 >>> 7),
    (s 3 >>> 2) &&& 0x1F,
    ((s 3 <<< 3) &&& 0x1F) ||| (s 4 >>> 5),
    s 4 &&& 0x1F ]

/-- The function `Encoding.EncodedLen` without padding. -/
def EncodedLen (n : Nat) : Nat := (n * 8 + 4) / 5

/-- The function `Encoding.DecodedLen` without padding. -/
def DecodedLen (n : Nat) : Nat := n * 5 / 8

/-- The function `Encoding.EncodeToString` without padding: full quanta of five bytes give eight
characters; the final short quantum gives only the `EncodedLen` characters that carry data. -/
def b32Encode : List Nat → List Nat
  | s0 :: s1 :: s2 :: s3 :: s4 :: rest =>
      (encodeBlocks [s0, s1, s2, s3, s4]).map encodeChar ++ b32Encode rest
  | src => ((encodeBlocks src).map encodeChar).take (EncodedLen src.length)

/-- The helper `stripNewlines`: `Decode` drops every CR and LF before decoding. -/
def stripNewlines (src : List Nat) : List Nat :=
  src.filter (fun b => !(b == 13 || b == 10))

/-- The inner loop of `Encoding.decode` for one quantum: reads up to eight characters into `dbuf`.
Returns `(dbuf, remaining input, end)`, `none` for a `CorruptInputError`. The pad character of a
no-padding encoding is `rune(-1)`, which compares with an input byte as `0xFF`. -/
def readQuantum : Nat → List Nat → List Nat → Option (List Nat × List Nat × Bool)
  | 0, src, dbuf => some (dbuf, src, false)
  | _ + 1, [], dbuf => some (dbuf, [], true)
  | fuel + 1, c :: src, dbuf =>
      let j := dbuf.length
      if c = 0xFF ∧ j ≥ 2 ∧ src.length < 8 then
        if src.length + j < 8 - 1 then none
        else if (List.range (8 - 1 - j)).any (fun k => decide (k < src.length) && src.getD k 0 != 0xFF)
          then none
        else if j = 1 ∨ j = 3 ∨ j = 6 then none
        else some (dbuf, src, true)
      else if decodeMap c = 0xFF then none
      else readQuantum fuel src (dbuf ++ [decodeMap c])

/-- The `switch dlen` of `Encoding.decode`: packs the 5-bit blocks of one quantum into bytes
(byte arithmetic, cases 8, 7, 5, 4, 2 falling through; any other `dlen` yields no byte). -/
def quantumBytes (dbuf : List Nat) : List Nat :=
  let d := fun i => dbuf.getD i 0
  let b0 := ((d 0 <<< 3) % 256) ||| (d 1 >>> 2)
  let b1 := ((d 1 <<< 6) % 256) ||| ((d 2 <<< 1) % 256) ||| (d 3 >>> 4)
  let b2 := ((d 3 <<< 4) % 256) ||| (d 4 >>> 1)
  let b3 := ((d 4 <<< 7) % 256) ||| ((d 5 <<< 2) % 256) ||| (d 6 >>> 3)
  let b4 := ((d 6 <<< 5) % 256) ||| d 7
  if dbuf.length = 8 then [b0, b1, b2, b3, b4]
  else if dbuf.length = 7 then [b0, b1, b2, b3]
  else if dbuf.length = 5 then [b0, b1, b2]
  else if dbuf.length = 4 then [b0, b1]
  else if dbuf.length = 2 then [b0]
  else []

/-- The outer loop `for len(src) > 0 && !end` of `Encoding.decode`; the result is the list of the
`n` bytes written to `dst`. Each round consumes at least one character, so `src.length` rounds of
fuel always suffice. -/
def decodeLoop : Nat → List Nat → Option (List Nat)
  | 0, src => if src = [] then some [] else none
  | fuel + 1, src =>
      if src = [] then some []
      else
        match readQuantum 8 src [] with
        | none => none
        | some (dbuf, rest, fin) =>
            if fin then some (quantumBytes dbuf)
            else (decodeLoop fuel rest).map (fun tl => quantumBytes dbuf ++ tl)

/-- The function `Encoding.Decode`: `some` of the decoded bytes, `none` when it returns an error. -/
def b32Decode (src : List Nat) : Option (List Nat) :=
  decodeLoop (stripNewlines src).length (stripNewlines src)

/-! ## strkey.go -/

def STRKEY_ALG_ED25519 : Nat := 0
def STRKEY_PUBKEY : Nat := 6 <<< 3
def STRKEY_MUXED : Nat := 12 <<< 3
def STRKEY_PRIVKEY : Nat := 18 <<< 3
def STRKEY_PRE_AUTH_TX : Nat := 19 <<< 3
def STRKEY_HASH_X : Nat := 23 <<< 3
def STRKEY_SIGNED_PAYLOAD : Nat := 15 <<< 3
def STRKEY_ERROR : Nat := 255

/-- The map `payloadLen`; `none` when the version byte is not a key of the map. -/
def payloadLen (v : Nat) : Option Int :=
  if v = STRKEY_PUBKEY ||| STRKEY_ALG_ED25519 then some 32
  else if v = STRKEY_MUXED ||| STRKEY_ALG_ED25519 then some 40
  else if v = STRKEY_PRIVKEY ||| STRKEY_ALG_ED25519 then some 32
  else if v = STRKEY_PRE_AUTH_TX then some 32
  else if v = STRKEY_HASH_X then some 32
  else if v = STRKEY_SIGNED_PAYLOAD then some (-1)
  else none

/-- ToStrKey converts the raw bytes of a key to ASCII strkey format. -/
def ToStrKey (ver : Nat) (bin : List Nat) : List Nat :=
  let out := ver :: bin
  let sum := crc16 out
  b32Encode (out ++ [sum % 256, (sum >>> 8) % 256])

/-- FromStrKey decodes a strkey-format string into the raw bytes of the key and the type of key;
`([], STRKEY_ERROR)` stands for the Go result `(nil, STRKEY_ERROR)`. After the test
`n != len(bin)` the buffer `bin` holds exactly the decoded bytes. -/
def FromStrKey (inp : List Nat) : List Nat × Nat :=
  let rem := inp.length % 8
  if rem = 1 ∨ rem = 3 ∨ rem = 6 then ([], STRKEY_ERROR)
  else
    match b32Decode inp with
    | none => ([], STRKEY_ERROR)
    | some bin =>
        let n := bin.length
        if n ≠ DecodedLen inp.length ∨ n < 3 then ([], STRKEY_ERROR)
        else
          match payloadLen (bin.getD 0 0) with
          | none => ([], STRKEY_ERROR)
          | some targetlen =>
              if targetlen ≠ -1 ∧ targetlen ≠ (n : Int) - 3 then ([], STRKEY_ERROR)
              else
                let want := bin.getD (n - 2) 0 ||| (bin.getD (n - 1) 0 <<< 8)
                if want ≠ crc16 (bin.take (n - 2)) then ([], STRKEY_ERROR)
                else if n % 5 ≠ 0 ∧
                    inp.getD (inp.length - 1) 0 ≠ (b32Encode bin).getD (inp.length - 1) 0 then
                  ([], STRKEY_ERROR)
                else ((bin.take (n - 2)).drop 1, bin.getD 0 0)

/-! ## Base 32 as the specification words it: RFC 4648, upper-case alphabet, no padding -/

/-- The value of a group of bits read as a binary numeral, most significant bit first. -/
def bitsValue (bs : List Bool) : Nat := bs.foldl (fun acc b => 2 * acc + b.toNat) 0

/-- Cuts a bit string into groups of five; a short last group is filled up with zero bits. -/
def groups5 : List Bool → List (List Bool)
  | a :: b :: c :: d :: e :: rest => [a, b, c, d, e] :: groups5 rest
  | [] => []
  | l => [l ++ List.replicate (5 - l.length) false]

/-- The upper-case standard alphabet: `A`..`Z` for 0..25 and `2`..`7` for 26..31. -/
def base32Letter (v : Nat) : Nat := if v < 26 then 65 + v else 50 + (v - 26)

/-- Unpadded upper-case standard base 32 of a byte string: its bits, most significant first, in
groups of five, each group written as one letter. -/
def base32Std (data : List Nat) : List Nat :=
  (groups5 (data.map byteBits).flatten).map (fun g => base32Letter (bitsValue g))

/-! ## Asset codes (strkey.go) -/

/-- One lower-case hexadecimal digit, as `%02x` prints it. -/
def hexDigit (n : Nat) : Nat := if n < 10 then 48 + n else 87 + n

/-- The function `renderByte`; `fmt.Sprintf("\\x%02x", b)` is a backslash, `x` and two
lower-case hexadecimal digits. -/
def renderByte (b : Nat) : List Nat :=
  if b ≤ 32 ∨ b ≥ 0x7f then [92, 120, hexDigit (b / 16), hexDigit (b % 16)]
  else if b = 92 ∨ b = 58 then [92, b]
  else [b]

/-- The loop `for n = len(bs); n > 0 && bs[n-1] == 0; n--` of `RenderAssetCode`, started at `n`. -/
def trimLen (bs : List Nat) : Nat → Nat
  | 0 => 0
  | n + 1 => if bs.getD n 0 = 0 then trimLen bs n else n + 1

/-- The function `RenderAssetCode`. -/
def RenderAssetCode (bs : List Nat) : List Nat :=
  let n := trimLen bs bs.length
  let n := if bs.length > 4 ∧ n ≤ 4 then 5 else n
  ((bs.take n).map renderByte).flatten

/-- The errors `ScanAssetCode` returns. -/
inductive AssetCodeError where
  /-- `io.EOF` from the `ReadByte` after a backslash -/
  | eof
  /-- `StrKeyError("Invalid character in AssetCode")` -/
  | invalidCharacter
  /-- an error of `fmt.Fscanf` -/
  | scanf
  /-- `StrKeyError("AssetCode too long")` -/
  | tooLong
  deriving DecidableEq, Repr

/-- Number of bytes of the white-space rune at the head of the input, 0 when the input does not
start with one (`isSpace` of package fmt, runes in UTF-8; line feed is handled by the caller). -/
def spaceLen : List Nat → Nat
  | 0xC2 :: 0x85 :: _ => 2
  | 0xC2 :: 0xA0 :: _ => 2
  | 0xE1 :: 0x9A :: 0x80 :: _ => 3
  | 0xE2 :: 0x80 :: c :: _ =>
      if (0x80 ≤ c ∧ c ≤ 0x8A) ∨ c = 0xA8 ∨ c = 0xA9 ∨ c = 0xAF then 3 else 0
  | 0xE2 :: 0x81 :: 0x9F :: _ => 3
  | 0xE3 :: 0x80 :: 0x80 :: _ => 3
  | c :: _ => if (9 ≤ c ∧ c ≤ 13) ∨ c = 32 then 1 else 0
  | [] => 0

/-- The method `SkipSpace` of the scan state of `fmt.Fscanf` (newlines are not space there):
`none` is the error "unexpected newline". -/
def skipSpace : Nat → List Nat → Option (List Nat)
  | 0, inp => some inp
  | _ + 1, [] => some []
  | fuel + 1, c :: rest =>
      if c = 13 ∧ rest.head? = some 10 then skipSpace fuel rest
      else if c = 10 then none
      else if spaceLen (c :: rest) = 0 then some (c :: rest)
      else skipSpace fuel ((c :: rest).drop (spaceLen (c :: rest)))

/-- Hexadecimal digits accepted by the verb `%x`. -/
def isHexDigit (c : Nat) : Bool :=
  (48 ≤ c && c ≤ 57) || (97 ≤ c && c ≤ 102) || (65 ≤ c && c ≤ 70)

/-- Value of a hexadecimal digit. -/
def hexVal (c : Nat) : Nat := if c ≤ 57 then c - 48 else if c ≥ 97 then c - 87 else c - 55

/-- The call `fmt.Fscanf(ss, "%02x", &out[i])` on the rest of the reader: skips white space,
then reads one or two hexadecimal digits. Returns the byte and the unread input, `none` for an
error. -/
def fscanfHex2 (inp : List Nat) : Option (Nat × List Nat) :=
  match skipSpace inp.length inp with
  | none => none
  | some [] => none
  | some (d1 :: rest) =>
      if isHexDigit d1 then
        match rest with
        | d2 :: rest2 =>
            if isHexDigit d2 then some (16 * hexVal d1 + hexVal d2, rest2)
            else some (hexVal d1, rest)
        | [] => some (hexVal d1, [])
      else none

/-- The loop `for i = 0; i < len(out); i++` of `ScanAssetCode`, with `fuel = len(out) - i`
rounds left; returns the final `i`, the unread input and `out`. -/
def scanLoop : Nat → Nat → List Nat → List Nat → Except AssetCodeError (Nat × List Nat × List Nat)
  | 0, i, ss, out => .ok (i, ss, out)
  | _ + 1, i, [], out => .ok (i, [], out)
  | fuel + 1, i, r :: ss, out =>
      if r ≤ 32 ∨ r ≥ 127 then .error .invalidCharacter
      else if r ≠ 92 then scanLoop fuel (i + 1) ss (out.set i r)
      else
        match ss with
        | [] => .error .eof
        | r2 :: ss2 =>
            if r2 ≠ 120 then scanLoop fuel (i + 1) ss2 (out.set i r2)
            else
              match fscanfHex2 ss2 with
              | none => .error .scanf
              | some (v, ss3) => scanLoop fuel (i + 1) ss3 (out.set i v)

/-- The function `ScanAssetCode`. -/
def ScanAssetCode (input : List Nat) : Except AssetCodeError (List Nat) :=
  match scanLoop 12 0 input (List.replicate 12 0) with
  | .error e => .error e
  | .ok (i, ss, out) =>
      if ss.length > 0 then .error .tooLong
      else if i ≤ 4 then .ok (out.take 4)
      else .ok out

deriving instance DecidableEq for Except

/-! ## The text scanner `XdrScan` (main.go) -/

/-- The map `kvs map[string]string`, as an association list. -/
abbrev Kvs := List (String × String)

/-- The lookup `val, ok := kvs[k]`: `none` when `k` is not a key. -/
def kvGet (kvs : Kvs) (k : String) : Option String :=
  (kvs.find? (fun e => e.1 == k)).map (fun e => e.2)

/-- The lookup `kvs[k]`, the empty string when `k` is not a key. -/
def kvVal (kvs : Kvs) (k : String) : String := (kvGet kvs k).getD ""

/-- The statement `delete(kvs, k)`. -/
def kvDelete (kvs : Kvs) (k : String) : Kvs := kvs.filter (fun e => e.1 != k)

/-- Modelled from the spec: the values a visitor is asked to marshal. The generated XDR types are
not part of the sources; section 3 of the specification gives their four shapes (scalar,
optional, array, aggregate). Each constructor stands for the first case of the type switch of
`XdrScan.Marshal` that the value matches. -/
inductive XdrVal where
  /-- a scalar implementing `fmt.Scanner`, with its current value -/
  | scanner (val : Nat)
  /-- a scalar offering only `XdrPointer()`, with its current value -/
  | pointer (val : Nat)
  /-- a `*XdrSize`: the element count of a variable array and its bound -/
  | size (size bound : Nat)
  /-- an `XdrPtr`: an optional value, and the zero value `SetPresent(true)` allocates -/
  | ptr (val : Option XdrVal) (zero : XdrVal)
  /-- an `XdrAggregate` with named fields, in declaration order -/
  | struct (fields : List (String × XdrVal))
  /-- an `XdrAggregate` holding a variable array: bound, elements, zero value of an element -/
  | vec (bound : Nat) (elems : List XdrVal) (zero : XdrVal)
  /-- any other value: the `default` case -/
  | other
  deriving Repr

/-- The loop `for len(val) > 0 && val[0] == ' ' { val = val[1:] }`. -/
def trimLeadingSpaces (val : String) : String := String.mk (val.data.dropWhile (fun c => c == ' '))

/-- Modelled from the spec: a struct marshals its fields in declared order under dot-joined
paths, calling the visitor on each. -/
def marshalFields (visit : Kvs → String → XdrVal → Except String (Kvs × XdrVal)) (pre : String) :
    Kvs → List (String × XdrVal) → Except String (Kvs × List (String × XdrVal))
  | kvs, [] => .ok (kvs, [])
  | kvs, (fname, fv) :: rest =>
      match visit kvs (pre ++ fname) fv with
      | .error e => .error e
      | .ok (kvs1, fv1) =>
          match marshalFields visit pre kvs1 rest with
          | .error e => .error e
          | .ok (kvs2, rest1) => .ok (kvs2, (fname, fv1) :: rest1)

/-- Modelled from the spec: a variable array marshals `n` elements under the indexed paths
`name[i]`, from index `i` on; elements beyond the current length start from the zero value. -/
def marshalElems (visit : Kvs → String → XdrVal → Except String (Kvs × XdrVal)) (name : String)
    (zero : XdrVal) : Nat → Nat → Kvs → List XdrVal → Except String (Kvs × List XdrVal)
  | 0, _, kvs, _ => .ok (kvs, [])
  | n + 1, i, kvs, elems =>
      match visit kvs (name ++ "[" ++ toString i ++ "]") (elems.headD zero) with
      | .error e => .error e
      | .ok (kvs1, e1) =>
          match marshalElems visit name zero n (i + 1) kvs1 elems.tail with
          | .error e => .error e
          | .ok (kvs2, rest1) => .ok (kvs2, e1 :: rest1)

/-- The method `XdrScan.Marshal`. The map `xs.kvs` and the value behind `i` are passed in and
returned; `.error` is a call of `xdrPanic`. `scan` is the `Scan` method of a `fmt.Scanner` scalar
and `sscan` is `fmt.Sscan` into the pointer of a scalar or of a size (`none`: it returns an
error). The nesting depth of the value bounds the recursion, `fuel` counts it.
Modelled from the spec: the methods `XdrMarshal` of aggregates and `XdrMarshalValue` of optionals
(generated code), reached through `marshalFields`, `marshalElems` and the `ptr` case. -/
def XdrScan.Marshal (scan sscan : String → Option Nat) :
    Nat → Kvs → String → XdrVal → Except String (Kvs × XdrVal)
  | 0, _, _, _ => .error "out of fuel"
  | fuel + 1, kvs, name, i =>
      match i with
      | .scanner v =>
          match kvGet kvs name with
          | none => .ok (kvs, .scanner v)
          | some val =>
              match scan val with
              | none => .error "scan error"
              | some w => .ok (kvDelete kvs name, .scanner w)
      | .ptr val zero =>
          let s := trimLeadingSpaces (kvVal kvs (name ++ ".present"))
          if s = "false" ∨ s = "" then
            .ok (kvDelete kvs name, .ptr none zero)
          else if s = "true" then
            match XdrScan.Marshal scan sscan fuel kvs name (val.getD zero) with
            | .error e => .error e
            | .ok (kvs1, w) => .ok (kvDelete kvs1 name, .ptr (some w) zero)
          else .error (name ++ ".present (" ++ kvVal kvs (name ++ ".present")
            ++ ") must be true or false")
      | .size sz bound =>
          match sscan (kvVal kvs (name ++ ".len")) with
          | none => .ok (kvDelete kvs name, .size sz bound)
          | some n => .ok (kvDelete kvs name, .size n bound)
      | .struct fields =>
          match marshalFields (XdrScan.Marshal scan sscan fuel)
              (if name = "" then "" else name ++ ".") kvs fields with
          | .error e => .error e
          | .ok (kvs1, fields1) => .ok (kvDelete kvs1 name, .struct fields1)
      | .vec bound elems zero =>
          match XdrScan.Marshal scan sscan fuel kvs name (.size elems.length bound) with
          | .ok (kvs1, .size n _) =>
              if n > bound then .error "array length exceeds bound"
              else
                match marshalElems (XdrScan.Marshal scan sscan fuel) name zero n 0 kvs1 elems with
                | .error e => .error e
                | .ok (kvs2, elems1) => .ok (kvDelete kvs2 name, .vec bound elems1 zero)
          | .ok _ => .error "size expected"
          | .error e => .error e
      | .pointer v =>
          match kvGet kvs name with
          | none => .ok (kvs, .pointer v)
          | some val =>
              match sscan val with
              | none => .ok (kvDelete kvs name, .pointer v)
              | some w => .ok (kvDelete kvs name, .pointer w)
      | .other => .error ("XdrScan: Don't know how to parse " ++ name)

/-- A decimal grammar for scalars, to run the scanner on examples: an optional run of spaces,
then digits up to the end of the text. -/
def scanDecimal (s : String) : Option Nat :=
  let ds := s.data.dropWhile (fun c => c == ' ')
  if ds ≠ [] ∧ ds.all (fun c => decide ('0'.toNat ≤ c.toNat ∧ c.toNat ≤ '9'.toNat)) then
    some (ds.foldl (fun acc c => 10 * acc + (c.toNat - '0'.toNat)) 0)
  else none

/-- The scenario of the specification: a transaction with a fee and a variable array of
operations, each with an amount (a `fmt.Scanner` scalar) and a destination. -/
def scenarioTx : XdrVal :=
  .struct [("tx", .struct [("fee", .scanner 0),
    ("operations", .vec 100 [] (.struct [("amount", .scanner 0), ("dest", .pointer 0)]))])]

/-- The scenario of the specification: `tx.operations.len` is 2, only `tx.operations[0]` has
entries. -/
def scenarioKvs : Kvs :=
  [("tx.fee", " 100"), ("tx.operations.len", " 2"), ("tx.operations[0].amount", " 5"),
   ("tx.operations[0].dest", " 9")]

/-! ## encoding/base64 (Go standard library), `base64.StdEncoding` -/

/-- The alphabet `A`..`Z`, `a`..`z`, `0`..`9`, `+`, `/` of the standard encoding, as bytes. -/
def encodeStd64 : List Nat :=
  [65, 66, 67, 68, 69, 70, 71, 72, 73, 74, 75, 76, 77, 78, 79, 80, 81, 82, 83, 84, 85, 86, 87,
   88, 89, 90, 97, 98, 99, 100, 101, 102, 103, 104, 105, 106, 107, 108, 109, 110, 111, 112, 113,
   114, 115, 116, 117, 118, 119, 120, 121, 122, 48, 49, 50, 51, 52, 53, 54, 55, 56, 57, 43, 47]

/-- The lookup `enc.encode[v&0x3F]`. -/
def b64Char (v : Nat) : Nat := encodeStd64.getD (v &&& 0x3F) 0

/-- The lookup `enc.decodeMap[c]`, `0xFF` for a byte outside the alphabet. -/
def b64DecodeMap (c : Nat) : Nat :=
  if encodeStd64.indexOf c < 64 then encodeStd64.indexOf c else 0xFF

/-- The three bytes of a quantum packed into one number:
`uint(src[0])<<16 | uint(src[1])<<8 | uint(src[2])`. -/
def b64Val (s0 s1 s2 : Nat) : Nat := (s0 <<< 16) ||| (s1 <<< 8) ||| s2

/-- What the encoder writes (`NewEncoder`, writes, `Close`): four characters for three bytes, the
last quantum padded with `=`. -/
def b64Encode : List Nat → List Nat
  | s0 :: s1 :: s2 :: rest =>
      [b64Char (b64Val s0 s1 s2 >>> 18), b64Char (b64Val s0 s1 s2 >>> 12),
       b64Char (b64Val s0 s1 s2 >>> 6), b64Char (b64Val s0 s1 s2)] ++ b64Encode rest
  | [s0, s1] =>
      [b64Char (b64Val s0 s1 0 >>> 18), b64Char (b64Val s0 s1 0 >>> 12),
       b64Char (b64Val s0 s1 0 >>> 6), 61]
  | [s0] => [b64Char (b64Val s0 0 0 >>> 18), b64Char (b64Val s0 0 0 >>> 12), 61, 61]
  | [] => []

/-- The bytes of one quantum of four 6-bit values:
`val = d0<<18 | d1<<12 | d2<<6 | d3`, then `byte(val>>16)`, `byte(val>>8)`, `byte(val)`. -/
def b64Bytes (d0 d1 d2 d3 : Nat) : List Nat :=
  let val := (d0 <<< 18) ||| (d1 <<< 12) ||| (d2 <<< 6) ||| d3
  [(val >>> 16) % 256, (val >>> 8) % 256, val % 256]

/-- The bytes that the streaming decoder (`base64.NewDecoder`) hands to a reader that asks only
for the bytes it uses, on a text without line breaks. The decoder reads the text piece by piece
as the reader asks and decodes whole quanta of four characters: the stream holds the bytes of the
leading quanta, a quantum that ends in `=` being the last one (the encoder pads its last quantum
only), and it ends before the first quantum that is corrupt or incomplete. Text behind the bytes
that the reader asks for is never decoded. -/
def b64Stream : List Nat → List Nat
  | c0 :: c1 :: c2 :: c3 :: rest =>
      if b64DecodeMap c0 ≠ 0xFF ∧ b64DecodeMap c1 ≠ 0xFF then
        if b64DecodeMap c2 ≠ 0xFF ∧ b64DecodeMap c3 ≠ 0xFF then
          b64Bytes (b64DecodeMap c0) (b64DecodeMap c1) (b64DecodeMap c2) (b64DecodeMap c3)
            ++ b64Stream rest
        else if b64DecodeMap c2 ≠ 0xFF ∧ c3 = 61 then
          (b64Bytes (b64DecodeMap c0) (b64DecodeMap c1) (b64DecodeMap c2) 0).take 2
        else if c2 = 61 ∧ c3 = 61 then
          (b64Bytes (b64DecodeMap c0) (b64DecodeMap c1) 0 0).take 1
        else []
      else []
  | _ => []

/-! ## The binary codec -/

/-- Modelled from the spec: the shapes of the XDR type system (sections 3, 4.1 and 6): scalars,
optionals, arrays, aggregates and unions. The generated types are not part of the sources. A
struct is the chain of its fields ended by `void`; a union is the chain of its arms ended by
`noArm`. -/
inductive XdrType where
  /-- a fixed-width integer of `width` bytes (4 or 8 in the wire format) -/
  | uint (width : Nat)
  /-- a 32-bit value restricted to the declared values (enumerations, booleans) -/
  | enum (allowed : List Nat)
  /-- a byte array of fixed length -/
  | fixedBytes (n : Nat)
  /-- a byte string of variable length with its declared maximum -/
  | varBytes (bound : Nat)
  /-- an optional value -/
  | optional (t : XdrType)
  /-- an array of fixed length -/
  | array (n : Nat) (t : XdrType)
  /-- an array of variable length with its declared maximum -/
  | varArray (bound : Nat) (t : XdrType)
  /-- the struct without fields; the arm without value -/
  | void
  /-- a struct: its first field and the struct of the remaining fields -/
  | field (t : XdrType) (rest : XdrType)
  /-- a union: the arm selected by the discriminant `tag`, and the other arms -/
  | arm (tag : Nat) (t : XdrType) (others : XdrType)
  /-- the union without arms: every discriminant is invalid -/
  | noArm
  deriving DecidableEq, Repr

/-- Modelled from the spec: the values of the XDR type system. The fields of a struct and the
elements of an array are chained by `cons` and ended by `nil`. -/
inductive XdrData where
  | uint (v : Nat)
  | bytes (bs : List Nat)
  | absent
  | present (d : XdrData)
  | nil
  | cons (d : XdrData) (rest : XdrData)
  | union (tag : Nat) (d : XdrData)
  deriving DecidableEq, Repr

/-- Fixed-width big-endian bytes of a number, most significant byte first. -/
def beBytes : Nat → Nat → List Nat
  | 0, _ => []
  | w + 1, v => (v / 256 ^ w) % 256 :: beBytes w v

/-- The number that big-endian bytes denote. -/
def beValue (bs : List Nat) : Nat := bs.foldl (fun acc b => acc * 256 + b) 0

/-- Zero bytes that fill a byte string of length `n` up to a 4-byte boundary. -/
def padding (n : Nat) : List Nat := List.replicate ((4 - n % 4) % 4) 0

/-- Number of elements of a chain. -/
def XdrData.length : XdrData → Nat
  | .cons _ rest => rest.length + 1
  | _ => 0

/-- Applies a check to every element of a chain. -/
def XdrData.all (p : XdrData → Bool) : XdrData → Bool
  | .nil => true
  | .cons d rest => p d && rest.all p
  | _ => false

/-- Modelled from the spec: "fields respect their declared bounds and discriminants". Lengths
and discriminants are 32-bit values, bytes are bytes. -/
def wellTyped : XdrType → XdrData → Bool
  | .uint w, .uint v => decide (v < 256 ^ w)
  | .enum allowed, .uint v => allowed.contains v && decide (v < 256 ^ 4)
  | .fixedBytes n, .bytes bs => decide (bs.length = n) && bs.all (fun b => decide (b < 256))
  | .varBytes bound, .bytes bs =>
      decide (bs.length ≤ bound) && decide (bs.length < 256 ^ 4) && bs.all (fun b => decide (b < 256))
  | .optional _, .absent => true
  | .optional t, .present d => wellTyped t d
  | .array n t, d => decide (d.length = n) && d.all (wellTyped t)
  | .varArray bound t, d =>
      decide (d.length ≤ bound) && decide (d.length < 256 ^ 4) && d.all (wellTyped t)
  | .void, .nil => true
  | .field t rest, .cons d ds => wellTyped t d && wellTyped rest ds
  | .arm tag t others, .union tg d =>
      if tg = tag then decide (tg < 256 ^ 4) && wellTyped t d else wellTyped others (.union tg d)
  | _, _ => false

/-- Writes the elements of a chain one after the other. -/
def encodeChain (enc : XdrData → Option (List Nat)) : XdrData → Option (List Nat)
  | .nil => some []
  | .cons d rest =>
      match enc d, encodeChain enc rest with
      | some a, some b => some (a ++ b)
      | _, _ => none
  | _ => none

/-- Modelled from the spec: the binary Writer (section 4.2). Scalars as fixed-width big-endian
bytes, byte strings padded to a 4-byte boundary, variable arrays and strings behind a 32-bit
count, optionals behind a 32-bit boolean, unions as 32-bit discriminant and active arm. `none`
is the panic with an `XdrError` on an exceeded bound or an invalid discriminant. -/
def xdrEncode : XdrType → XdrData → Option (List Nat)
  | .uint w, .uint v => if v < 256 ^ w then some (beBytes w v) else none
  | .enum allowed, .uint v =>
      if allowed.contains v ∧ v < 256 ^ 4 then some (beBytes 4 v) else none
  | .fixedBytes n, .bytes bs => if bs.length = n then some (bs ++ padding n) else none
  | .varBytes bound, .bytes bs =>
      if bs.length ≤ bound ∧ bs.length < 256 ^ 4 then
        some (beBytes 4 bs.length ++ bs ++ padding bs.length)
      else none
  | .optional _, .absent => some (beBytes 4 0)
  | .optional t, .present d => (xdrEncode t d).map (fun bs => beBytes 4 1 ++ bs)
  | .array n t, d => if d.length = n then encodeChain (xdrEncode t) d else none
  | .varArray bound t, d =>
      if d.length ≤ bound ∧ d.length < 256 ^ 4 then
        (encodeChain (xdrEncode t) d).map (fun bs => beBytes 4 d.length ++ bs)
      else none
  | .void, .nil => some []
  | .field t rest, .cons d ds =>
      match xdrEncode t d, xdrEncode rest ds with
      | some a, some b => some (a ++ b)
      | _, _ => none
  | .arm tag t others, .union tg d =>
      if tg = tag then
        if tg < 256 ^ 4 then (xdrEncode t d).map (fun bs => beBytes 4 tg ++ bs) else none
      else xdrEncode others (.union tg d)
  | _, _ => none

/-- Reads a big-endian integer of `w` bytes. -/
def readUint (w : Nat) (inp : List Nat) : Option (Nat × List Nat) :=
  if w ≤ inp.length then some (beValue (inp.take w), inp.drop w) else none

/-- Reads `n` bytes and their padding; the padding bytes must be zero. -/
def readBytes (n : Nat) (inp : List Nat) : Option (List Nat × List Nat) :=
  if n + (padding n).length ≤ inp.length ∧ (inp.drop n).take (padding n).length = padding n then
    some (inp.take n, inp.drop (n + (padding n).length))
  else none

/-- Reads `n` elements one after the other into a chain. -/
def decodeChain (dec : List Nat → Option (XdrData × List Nat)) :
    Nat → List Nat → Option (XdrData × List Nat)
  | 0, inp => some (.nil, inp)
  | n + 1, inp =>
      match dec inp with
      | none => none
      | some (d, r) =>
          match decodeChain dec n r with
          | none => none
          | some (ds, r2) => some (.cons d ds, r2)

/-- Modelled from the spec: the binary Reader (section 4.2), the inverse of the Writer, which
validates declared maximum lengths, zero padding, booleans and discriminants. `pending` holds a
discriminant that was read and whose arm is still searched among the remaining arms. Returns the
value and the unread input, `none` for a decode error. -/
def xdrDecode : XdrType → Option Nat → List Nat → Option (XdrData × List Nat)
  | .uint w, none, inp => (readUint w inp).map (fun r => (.uint r.1, r.2))
  | .enum allowed, none, inp =>
      match readUint 4 inp with
      | none => none
      | some (v, r) => if allowed.contains v then some (.uint v, r) else none
  | .fixedBytes n, none, inp => (readBytes n inp).map (fun r => (.bytes r.1, r.2))
  | .varBytes bound, none, inp =>
      match readUint 4 inp with
      | none => none
      | some (n, r) =>
          if n ≤ bound then (readBytes n r).map (fun x => (.bytes x.1, x.2)) else none
  | .optional t, none, inp =>
      match readUint 4 inp with
      | none => none
      | some (v, r) =>
          if v = 0 then some (.absent, r)
          else if v = 1 then (xdrDecode t none r).map (fun x => (.present x.1, x.2))
          else none
  | .array n t, none, inp => decodeChain (xdrDecode t none) n inp
  | .varArray bound t, none, inp =>
      match readUint 4 inp with
      | none => none
      | some (n, r) => if n ≤ bound then decodeChain (xdrDecode t none) n r else none
  | .void, none, inp => some (.nil, inp)
  | .field t rest, none, inp =>
      match xdrDecode t none inp with
      | none => none
      | some (d, r) =>
          match xdrDecode rest none r with
          | none => none
          | some (ds, r2) => some (.cons d ds, r2)
  | .arm tag t others, none, inp =>
      match readUint 4 inp with
      | none => none
      | some (tg, r) =>
          if tg = tag then (xdrDecode t none r).map (fun x => (.union tg x.1, x.2))
          else xdrDecode others (some tg) r
  | .arm tag t others, some tg, inp =>
      if tg = tag then (xdrDecode t none inp).map (fun x => (.union tg x.1, x.2))
      else xdrDecode others (some tg) inp
  | _, _, _ => none

/-! ## base64.go and xdr.go -/

/-- The function `XdrToBase64`: the Writer's output through the base64 encoder; `none` is its
panic with an `XdrError`. The type `t` stands for the generated `XdrMarshal` of the value. -/
def XdrToBase64 (t : XdrType) (e : XdrData) : Option (List Nat) :=
  (xdrEncode t e).map b64Encode

/-- The function `XdrFromBase64`: the Reader `XdrIn` reads the value from the streaming base64
decoder over the input, which drops CR and LF; `none` is the returned error. The Reader stops at
the end of the value, so input left over after the value is not looked at, and corrupt text is an
error only where the Reader needs its bytes. -/
def XdrFromBase64 (t : XdrType) (input : List Nat) : Option XdrData :=
  (xdrDecode t none (b64Stream (stripNewlines input))).map (fun r => r.1)

/-- The type `TransactionEnvelope` of xdr.go: the embedded `*stx.TransactionEnvelope` and the
set `Help` (`none` is the nil map). -/
structure TransactionEnvelope where
  envelope : XdrData
  Help : Option (List String)
  deriving DecidableEq, Repr

/-- The function `TxToBase64`; only the embedded envelope is marshalled. -/
def TxToBase64 (t : XdrType) (tx : TransactionEnvelope) : Option (List Nat) :=
  XdrToBase64 t tx.envelope

/-- The function `TxFromBase64`: a new envelope (`Help` nil) filled by `XdrFromBase64`; `none`
is the returned error. -/
def TxFromBase64 (t : XdrType) (input : List Nat) : Option TransactionEnvelope :=
  match XdrFromBase64 t input with
  | none => none
  | some d => some { envelope := d, Help := none }

/-! ## Run-time checks of index and slice expressions -/

/-- The index expression `xs[i]` with an index of type `int`: `none` is the run-time panic
"index out of range". -/
def indexAt (xs : List Nat) (i : Int) : Option Nat :=
  if 0 ≤ i then xs[i.toNat]? else none

/-- The slice expression `xs[lo:hi]`: `none` is the run-time panic "slice bounds out of range". -/
def sliceAt (xs : List Nat) (lo hi : Int) : Option (List Nat) :=
  if 0 ≤ lo ∧ lo ≤ hi ∧ hi ≤ (xs.length : Int) then some ((xs.take hi.toNat).drop lo.toNat)
  else none

/-- The buffer `check` of `FromStrKey` after `b32.Encode(check, bin)`: `len(in)` bytes, of which
the encoding of `bin` fills the first. -/
def checkBuffer (inp bin : List Nat) : List Nat :=
  b32Encode bin ++ List.replicate (inp.length - EncodedLen bin.length) 0

/-- The function `FromStrKey` with every index and slice expression of its body checked as the Go
run time checks it; `none` is a panic. `b32.Decode` and `b32.Encode` index their destination
buffer, so a result longer than the buffer (`bin` of `DecodedLen(len(in))` bytes, `check` of
`len(in)` bytes) is a panic as well. -/
def FromStrKeyChecked (inp : List Nat) : Option (List Nat × Nat) :=
  if inp.length % 8 = 1 ∨ inp.length % 8 = 3 ∨ inp.length % 8 = 6 then some ([], STRKEY_ERROR)
  else
    match b32Decode inp with
    | none => some ([], STRKEY_ERROR)
    | some bin =>
        if bin.length > DecodedLen inp.length then none
        else if bin.length ≠ DecodedLen inp.length ∨ bin.length < 3 then some ([], STRKEY_ERROR)
        else
          (indexAt bin 0).bind fun ver =>
          match payloadLen ver with
          | none => some ([], STRKEY_ERROR)
          | some targetlen =>
              if targetlen ≠ -1 ∧ targetlen ≠ (bin.length : Int) - 3 then some ([], STRKEY_ERROR)
              else
                (indexAt bin ((bin.length : Int) - 2)).bind fun lo =>
                (indexAt bin ((bin.length : Int) - 1)).bind fun hi =>
                (sliceAt bin 0 ((bin.length : Int) - 2)).bind fun body =>
                if (lo ||| (hi <<< 8)) ≠ crc16 body then some ([], STRKEY_ERROR)
                else if bin.length % 5 ≠ 0 then
                  if EncodedLen bin.length > inp.length then none
                  else
                    (indexAt inp ((inp.length : Int) - 1)).bind fun last =>
                    (indexAt (checkBuffer inp bin) (((checkBuffer inp bin).length : Int) - 1)).bind
                      fun lastCheck =>
                    if last ≠ lastCheck then some ([], STRKEY_ERROR)
                    else
                      (sliceAt bin 1 ((bin.length : Int) - 2)).bind fun key =>
                      (indexAt bin 0).map fun v => (key, v)
                else
                  (sliceAt bin 1 ((bin.length : Int) - 2)).bind fun key =>
                  (indexAt bin 0).map fun v => (key, v)

/-! ## Keys and signature hints (strkey.go) -/

/-- The XDR union `PublicKey`: its discriminant `Type` is `PUBLIC_KEY_TYPE_ED25519` with the 32
bytes of the key, or some other number. -/
inductive PublicKey where
  | ed25519 (key : List Nat)
  | other (type : Int)
  deriving DecidableEq, Repr

/-- The XDR union `SignerKey`, by its discriminant `Type`. -/
inductive SignerKey where
  /-- `SIGNER_KEY_TYPE_ED25519` -/
  | ed25519 (key : List Nat)
  /-- `SIGNER_KEY_TYPE_PRE_AUTH_TX` -/
  | preAuthTx (hash : List Nat)
  /-- `SIGNER_KEY_TYPE_HASH_X` -/
  | hashX (hash : List Nat)
  /-- `SIGNER_KEY_TYPE_ED25519_SIGNED_PAYLOAD` -/
  | ed25519SignedPayload (key : List Nat) (payload : List Nat)
  | other (type : Int)
  deriving DecidableEq, Repr

/-- The function `signerHint`: `none` is its panic "signerHint insufficient signer length". -/
def signerHint (bs : List Nat) : Option (List Nat) :=
  if bs.length < 4 then none else some (bs.drop (bs.length - 4))

/-- The loop `for i, b := range pl { hint[i] ^= b }`, from index `i` on. -/
def xorLoop (hint : List Nat) : Nat → List Nat → List Nat
  | _, [] => hint
  | i, b :: pl => xorLoop (hint.set i (hint.getD i 0 ^^^ b)) (i + 1) pl

/-- The method `PublicKey.Hint`: `none` is the panic "Invalid public key type". -/
def PublicKey.Hint : PublicKey → Option (List Nat)
  | .ed25519 key => signerHint key
  | .other _ => none

/-- The method `SignerKey.Hint`: `none` is a panic. -/
def SignerKey.Hint : SignerKey → Option (List Nat)
  | .ed25519 key => signerHint key
  | .preAuthTx hash => signerHint hash
  | .hashX hash => signerHint hash
  | .ed25519SignedPayload key payload =>
      (signerHint key).map fun hint =>
        let pl := if payload.length > 4 then payload.drop (payload.length - 4) else payload
        xorLoop hint 0 pl
  | .other _ => none

/-! ## Scanning keys and assets (strkey.go) -/

/-- Returns true if c is a valid character in a strkey formatted key. -/
def IsStrKeyChar (c : Nat) : Bool := (65 ≤ c && c ≤ 90) || (48 ≤ c && c ≤ 57)

/-- The built-in `copy(dst, src)`. -/
def copyBytes (dst src : List Nat) : List Nat := src.take dst.length ++ dst.drop src.length

/-- The method `PublicKey.UnmarshalText` on a zero `PublicKey`: `none` is
`StrKeyError("Invalid public key type")`. -/
def PublicKey.UnmarshalText (bs : List Nat) : Option PublicKey :=
  if (FromStrKey bs).2 = STRKEY_PUBKEY ||| STRKEY_ALG_ED25519 then
    some (.ed25519 (copyBytes (List.replicate 32 0) (FromStrKey bs).1))
  else none

/-- The method `SkipSpace` of the scan state of `fmt.Fscan`, where newlines count as space. -/
def skipAllSpace : Nat → List Nat → List Nat
  | 0, inp => inp
  | fuel + 1, inp =>
      if spaceLen inp = 0 then inp else skipAllSpace fuel (inp.drop (spaceLen inp))

/-- The method `PublicKey.Scan` on a zero `PublicKey`, reading from the bytes `inp`:
`ss.Token(true, IsStrKeyChar)` skips white space and takes the run of strkey characters. -/
def PublicKey.Scan (inp : List Nat) : Option PublicKey :=
  PublicKey.UnmarshalText ((skipAllSpace inp.length inp).takeWhile IsStrKeyChar)

/-- The call `bytes.LastIndexByte(bs, c)`; `none` is the result `-1`. -/
def lastIndexByte (bs : List Nat) (c : Nat) : Option Nat :=
  if bs.reverse.indexOf c < bs.length then some (bs.length - 1 - bs.reverse.indexOf c) else none

/-- The XDR union `Asset`, by its discriminant `Type`. -/
inductive Asset where
  /-- `ASSET_TYPE_NATIVE` -/
  | native
  /-- `ASSET_TYPE_CREDIT_ALPHANUM4` -/
  | creditAlphanum4 (assetCode : List Nat) (issuer : PublicKey)
  /-- `ASSET_TYPE_CREDIT_ALPHANUM12` -/
  | creditAlphanum12 (assetCode : List Nat) (issuer : PublicKey)
  deriving DecidableEq, Repr

/-- The errors `Asset.Scan` returns. -/
inductive AssetScanError where
  /-- `StrKeyError("Asset should be Code:AccountID or native")` -/
  | notAnAsset
  /-- the value `unexpectedLiquidityPoolId` with the pool id -/
  | unexpectedLiquidityPoolId (id : List Nat)
  /-- the error of `fmt.Fscan` on the issuer -/
  | issuer
  /-- the error of `ScanAssetCode` -/
  | code (e : AssetCodeError)
  deriving DecidableEq, Repr

/-- The method `Asset.Scan` on the token `bs` that `ss.Token(true, nil)` returned. `scanPoolID` is
`fmt.Sscan` into an `XDR_PoolID` (generated code, `none`: it returns an error). -/
def Asset.Scan (scanPoolID : List Nat → Option (List Nat)) (bs : List Nat) :
    Except AssetScanError Asset :=
  match lastIndexByte bs 58 with
  | none => if bs.length > 12 then .error .notAnAsset else .ok .native
  | some colon =>
      match (if bs.drop (colon + 1) = [108, 112] then scanPoolID (bs.take colon) else none) with
      | some id => .error (.unexpectedLiquidityPoolId id)
      | none =>
          match PublicKey.Scan (bs.drop (colon + 1)) with
          | none => .error .issuer
          | some issuer =>
              match ScanAssetCode (bs.take colon) with
              | .error e => .error (.code e)
              | .ok code =>
                  if code.length ≤ 4 then .ok (.creditAlphanum4 code issuer)
                  else .ok (.creditAlphanum12 code issuer)

/-- The rendering of an asset of type `ASSET_TYPE_NATIVE`: the text `native`. -/
def nativeText : List Nat := [110, 97, 116, 105, 118, 101]

/-! ## Building the key/value map (main.go) -/

/-- The call `strings.Split(in, "\n")`, on the characters of `in`. -/
def splitLines : List Char → List (List Char)
  | [] => [[]]
  | c :: cs =>
      if c = '\n' then [] :: splitLines cs
      else
        match splitLines cs with
        | [] => [[c]]
        | l :: ls => (c :: l) :: ls

/-- The call `strings.SplitN(line, ":", 2)`: the text before the first colon and the text after
it; `none` when the result has one element only. -/
def splitColon : List Char → Option (List Char × List Char)
  | [] => none
  | c :: cs => if c = ':' then some ([], cs) else (splitColon cs).map fun p => (c :: p.1, p.2)

/-- The statement `kvs[k] = v`. -/
def kvSet (kvs : Kvs) (k v : String) : Kvs := (k, v) :: kvDelete kvs k

/-- One round of the loop of `txScan`. -/
def txScanLine (kvs : Kvs) (line : List Char) : Kvs :=
  match splitColon line with
  | none => kvs
  | some (k, v) => kvSet kvs (String.mk k) (String.mk v)

/-- The map `kvs` that `txScan` builds from the text `in` before it marshals the value. -/
def txScanKvs (input : String) : Kvs :=
  (splitLines input.data).foldl txScanLine []

/-! ## The recursive walker (xdr.go) -/

/-- Modelled from the spec: a value as a visitor meets it. The generated XDR types are not part of
the sources; a value either implements `XdrAggregate`, and then its `XdrMarshal` hands its
children to the visitor in declaration order, or it does not. The number tells values apart. -/
inductive XdrNode where
  | scalar (id : Nat)
  | aggregate (id : Nat) (children : List XdrNode)
  deriving Repr

/-- The number that tells a value apart. -/
def XdrNode.number : XdrNode → Nat
  | .scalar id => id
  | .aggregate id _ => id

/-- The method `forEachXdr.Marshal`, with `fn` a function that may keep state of type `σ`
(`forEachXdr.Marshal.children` is `xa.XdrMarshal(fex, "")`, modelled from the spec). -/
def forEachXdr.Marshal {σ : Type} (fn : XdrNode → σ → Bool × σ) : XdrNode → σ → σ
  | .scalar v, s => (fn (.scalar v) s).2
  | .aggregate v cs, s =>
      if !(fn (.aggregate v cs) s).1 then children cs (fn (.aggregate v cs) s).2
      else (fn (.aggregate v cs) s).2
where
  /-- Modelled from the spec: the method `XdrMarshal` of an aggregate calls the visitor on each
  child in declaration order. -/
  children : List XdrNode → σ → σ
  | [], s => s
  | c :: cs, s => children cs (forEachXdr.Marshal fn c s)

/-- Calls fn, recursively, on every value inside an XdrAggregate. Prunes the recursion if fn
returns true. -/
def ForEachXdr {σ : Type} (t : XdrNode) (fn : XdrNode → σ → Bool × σ) (s : σ) : σ :=
  match t with
  | .aggregate _ cs => forEachXdr.Marshal.children fn cs s
  | .scalar _ => s

/-- The function `fn` that records the value it is called on and answers `p`. -/
def recordCall (p : XdrNode → Bool) (val : XdrNode) (log : List XdrNode) : Bool × List XdrNode :=
  (p val, log ++ [val])

/-- Every value nested inside `val`, `val` first, in depth-first pre-order with children in
declaration order; each comes with the nested aggregates that contain it, outermost first,
starting from `anc`. -/
def preorder (anc : List XdrNode) : XdrNode → List (List XdrNode × XdrNode)
  | .scalar v => [(anc, .scalar v)]
  | .aggregate v cs => (anc, .aggregate v cs) :: children (anc ++ [.aggregate v cs]) cs
where
  /-- The same for a list of siblings. -/
  children (anc : List XdrNode) : List XdrNode → List (List XdrNode × XdrNode)
  | [] => []
  | c :: cs => preorder anc c ++ children anc cs

/-- The values nested inside `t`, without `t` itself, in depth-first pre-order. -/
def nestedValues : XdrNode → List (List XdrNode × XdrNode)
  | .aggregate _ cs => preorder.children [] cs
  | .scalar _ => []

/-- The walk that the documentation of `ForEachXdr` describes, told over the pre-order listing
from left to right, for a function `fn` that may keep state. `skip = some d` says that the last
call of `fn` was on a value with `d` aggregates around it and returned true: the entries that
follow with more than `d` aggregates around them are the values inside that value, and they are
passed over. On every other entry `fn` is called, and its answer decides about the values inside
that entry. -/
def flatWalk {σ : Type} (fn : XdrNode → σ → Bool × σ) :
    List (List XdrNode × XdrNode) → Option Nat → σ → σ
  | [], _, s => s
  | (anc, val) :: rest, skip, s =>
      if skip.any (fun d => d < anc.length) then flatWalk fn rest skip s
      else flatWalk fn rest (if (fn val s).1 then some anc.length else none) (fn val s).2

/-- A function `fn` with state: it counts its calls, records the values it is called on, and
answers true on its second call only. -/
def pruneSecond (val : XdrNode) (s : Nat × List XdrNode) : Bool × (Nat × List XdrNode) :=
  (s.1 == 1, (s.1 + 1, s.2 ++ [val]))

/-- An aggregate to run the walker on: the values 1, 2 and 6, with 3 and 4 inside 2 and 5
inside 4. -/
def walkTree : XdrNode :=
  .aggregate 0 [.scalar 1, .aggregate 2 [.scalar 3, .aggregate 4 [.scalar 5]], .scalar 6]

/-- A pruning answer to run the walker with: true on the value 4 only. -/
def pruneFour (val : XdrNode) : Bool := val.number == 4

/-! ## The escapes of asset codes, token by token -/

/-- The sixteen lower-case hexadecimal digits. -/
def lowerHex : List Nat := "0123456789abcdef".data.map Char.toNat

/-- The escaping of one byte as the amended statement has it: a backslash, `x` and two
lower-case hexadecimal digits for a byte up to the space, for `0x7f` and for a byte with the high
bit set; a backslash and the byte for a backslash or a colon; the byte itself otherwise. -/
def escapeByte (b : Nat) : List Nat :=
  if b ≤ 0x20 ∨ b = 0x7f ∨ b ≥ 0x80 then
    ['\\'.toNat, 'x'.toNat, lowerHex.getD (b / 16) 0, lowerHex.getD (b % 16) 0]
  else if b = '\\'.toNat ∨ b = ':'.toNat then ['\\'.toNat, b]
  else [b]

/-- One round of the loop of `ScanAssetCode` after `ss.ReadByte()` returned `r` and left `ss`
unread: the byte the round stores in `out[i]` and the input it leaves unread. -/
def scanRound (r : Nat) (ss : List Nat) : Except AssetCodeError (Nat × List Nat) :=
  if r ≤ 32 ∨ r ≥ 127 then .error .invalidCharacter
  else if r ≠ 92 then .ok (r, ss)
  else
    match ss with
    | [] => .error .eof
    | r2 :: ss2 =>
        if r2 ≠ 120 then .ok (r2, ss2)
        else
          match fscanfHex2 ss2 with
          | none => .error .scanf
          | some (v, ss3) => .ok (v, ss3)

/-- The bytes that up to `n` rounds of the loop of `ScanAssetCode` store, one for each token of
the input (a plain byte, a backslash with a byte, or a hexadecimal escape), and the input left
unread after them. -/
def scanTokens : Nat → List Nat → Except AssetCodeError (List Nat × List Nat)
  | 0, ss => .ok ([], ss)
  | _ + 1, [] => .ok ([], [])
  | n + 1, r :: ss =>
      match scanRound r ss with
      | .error e => .error e
      | .ok (v, rest) =>
          match scanTokens n rest with
          | .error e => .error e
          | .ok (vs, rest2) => .ok (v :: vs, rest2)

/-! ## Rendering and scanning the text of an asset (strkey.go) -/

/-- The size that `utf8.DecodeRune` reports for the rune at the head of the input: the length of
a well-formed UTF-8 sequence, 1 for an ASCII byte and for a byte that starts no well-formed
sequence (the rune is then `RuneError`), 0 for no input. -/
def runeLen : List Nat → Nat
  | [] => 0
  | b0 :: rest =>
      let cont := fun (b : Nat) => 0x80 ≤ b ∧ b ≤ 0xBF
      let lo := if b0 = 0xE0 then 0xA0 else if b0 = 0xF0 then 0x90 else 0x80
      let hi := if b0 = 0xED then 0x9F else if b0 = 0xF4 then 0x8F else 0xBF
      let second := lo ≤ rest.getD 0 0 ∧ rest.getD 0 0 ≤ hi
      if 0xC2 ≤ b0 ∧ b0 ≤ 0xDF then
        if 1 ≤ rest.length ∧ second then 2 else 1
      else if 0xE0 ≤ b0 ∧ b0 ≤ 0xEF then
        if 2 ≤ rest.length ∧ second ∧ cont (rest.getD 1 0) then 3 else 1
      else if 0xF0 ≤ b0 ∧ b0 ≤ 0xF4 then
        if 3 ≤ rest.length ∧ second ∧ cont (rest.getD 1 0) ∧ cont (rest.getD 2 0) then 4 else 1
      else 1

/-- The loop of the method `token` of the scan state with `f = notSpace`: reads runes up to the
first white space and writes each to the buffer with `writeRune`, so a byte that is no
well-formed UTF-8 comes out as the encoding `EF BF BD` of `RuneError`. -/
def tokenLoop : Nat → List Nat → List Nat
  | 0, _ => []
  | _ + 1, [] => []
  | fuel + 1, b0 :: rest =>
      if spaceLen (b0 :: rest) ≠ 0 then []
      else if 0x80 ≤ b0 ∧ runeLen (b0 :: rest) = 1 then
        [0xEF, 0xBF, 0xBD] ++ tokenLoop fuel rest
      else (b0 :: rest).take (runeLen (b0 :: rest))
        ++ tokenLoop fuel ((b0 :: rest).drop (runeLen (b0 :: rest)))

/-- The call `ss.Token(true, nil)` on a scan state of `fmt.Sscan` over the text `inp`: skips
white space, then reads the token up to the next white space. -/
def readToken (inp : List Nat) : List Nat :=
  tokenLoop inp.length (skipAllSpace inp.length inp)

/-- The bytes of a text. -/
def textBytes (s : String) : List Nat := s.data.map Char.toNat

/-- The method `PublicKey.String`: renders a PublicKey in strkey format. -/
def PublicKey.String : PublicKey → List Nat
  | .ed25519 key => ToStrKey (STRKEY_PUBKEY ||| STRKEY_ALG_ED25519) key
  | .other t => textBytes ("PublicKey.Type#" ++ toString t)

/-- The method `Asset.String`: renders an Asset as `Code:AccountID`, the native one as `native`
(`fmt.Sprintf("%s:%s", ...)` joins code and issuer with a colon). -/
def Asset.String : Asset → List Nat
  | .native => nativeText
  | .creditAlphanum4 code issuer => RenderAssetCode code ++ [58] ++ issuer.String
  | .creditAlphanum12 code issuer => RenderAssetCode code ++ [58] ++ issuer.String

/-- The method `Asset.Scan` on a scan state of `fmt.Sscan` over the text `inp`. -/
def Asset.ScanText (scanPoolID : List Nat → Option (List Nat)) (inp : List Nat) :
    Except AssetScanError Asset :=
  Asset.Scan scanPoolID (readToken inp)

/-- The values of the Go type `Asset` that the claim speaks of: native, or a credit asset whose
code array has 4 (resp. 12) bytes and whose issuer is an ed25519 key of 32 bytes. -/
def Asset.wellFormed : Asset → Prop
  | .native => True
  | .creditAlphanum4 code (.ed25519 key) =>
      code.length = 4 ∧ (∀ b ∈ code, b < 256) ∧ key.length = 32 ∧ ∀ b ∈ key, b < 256
  | .creditAlphanum12 code (.ed25519 key) =>
      code.length = 12 ∧ (∀ b ∈ code, b < 256) ∧ key.length = 32 ∧ ∀ b ∈ key, b < 256
  | _ => False

/-! ## Parsing a signer key (strkey.go) -/

/-- How a call of `UnmarshalText` ends. -/
inductive Outcome (α : Type) where
  /-- it returns `nil`, and the receiver holds `val` -/
  | ok (val : α)
  /-- it returns the error `StrKeyError(msg)` -/
  | error (msg : String)
  /-- a panic leaves the function: nothing is returned -/
  | panic
  deriving DecidableEq, Repr

/-- Modelled from the spec: the XDR struct of a signed-payload signer, the 32-byte ed25519 key
followed by the payload, a byte string of variable length (at most 64 bytes). -/
def signedPayloadType : XdrType := .field (.fixedBytes 32) (.field (.varBytes 64) .void)

/-- The deferred function of `SignerKey.UnmarshalText`. `recovered` is what `recover()` returns:
`none` for `nil`, `some true` for an `xdr.XdrError` and `some false` for any other value. The
result is the named result `err` and whether the function ends in `panic(i)`, which stands after
the inner `if` and so runs for every recovered value. -/
def deferredRecover (recovered : Option Bool) (err : Option String) : Option String × Bool :=
  match recovered with
  | none => (err, false)
  | some isXdrError => (if isXdrError then some "Invalid signer key string" else err, true)

/-- The signer that the fields decoded from the payload make up. -/
def signedPayloadOf : XdrData → SignerKey
  | .cons (.bytes key) (.cons (.bytes payload) _) => .ed25519SignedPayload key payload
  | _ => .ed25519SignedPayload [] []

/-- The method `SignerKey.UnmarshalText` on a zero `SignerKey`. Modelled from the spec: the
binary Reader `xdr.XdrIn` (`xdrDecode`), whose decode error is a panic with an `xdr.XdrError`. -/
def SignerKey.UnmarshalText (bs : List Nat) : Outcome SignerKey :=
  if (FromStrKey bs).2 = STRKEY_PUBKEY ||| STRKEY_ALG_ED25519 then
    .ok (.ed25519 (copyBytes (List.replicate 32 0) (FromStrKey bs).1))
  else if (FromStrKey bs).2 = STRKEY_PRE_AUTH_TX then
    .ok (.preAuthTx (copyBytes (List.replicate 32 0) (FromStrKey bs).1))
  else if (FromStrKey bs).2 = STRKEY_HASH_X then
    .ok (.hashX (copyBytes (List.replicate 32 0) (FromStrKey bs).1))
  else if (FromStrKey bs).2 = STRKEY_SIGNED_PAYLOAD then
    match xdrDecode signedPayloadType none (FromStrKey bs).1 with
    | some (d, _) =>
        match deferredRecover none none with
        | (_, true) => .panic
        | (some msg, false) => .error msg
        | (none, false) => .ok (signedPayloadOf d)
    | none =>
        match deferredRecover (some true) none with
        | (_, true) => .panic
        | (some msg, false) => .error msg
        | (none, false) => .ok (.ed25519SignedPayload [] [])
  else .error "Invalid signer key string"

/-! ### CRC-16: the table against the bit-serial reference -/

theorem and_8000_ne_zero (x : Nat) : (x &&& 0x8000 ≠ 0) ↔ x.testBit 15 = true := by
  have h := Nat.and_two_pow x 15
  have e : (0x8000 : Nat) = 2 ^ 15 := by norm_num
  rw [e, h]
  cases x.testBit 15 <;> simp

theorem crcShift_eq (x : Nat) :
    crcShift x = if x.testBit 15 then ((x <<< 1) ^^^ 0x1021) % 65536 else (x <<< 1) % 65536 := by
  unfold crcShift
  by_cases h : x.testBit 15 = true
  · rw [if_pos ((and_8000_ne_zero x).2 h), if_pos h]
  · rw [if_neg (fun c => h ((and_8000_ne_zero x).1 c)), if_neg h]

theorem crcShift_lt (x : Nat) : crcShift x < 65536 := by
  rw [crcShift_eq]; split <;> exact Nat.mod_lt _ (by norm_num)

theorem crcShift_xor (s l : Nat) (hl : l < 2 ^ 15) :
    crcShift (s ^^^ l) = crcShift s ^^^ (l <<< 1) := by
  have hb : l.testBit 15 = false := Nat.testBit_lt_two_pow hl
  have e : (65536 : Nat) = 2 ^ 16 := by norm_num
  rw [crcShift_eq, crcShift_eq, Nat.testBit_xor, hb, Bool.xor_false]
  have hhi : ∀ i, 16 ≤ i → (l <<< 1).testBit i = false := by
    intro i hi
    apply Nat.testBit_lt_two_pow
    rw [Nat.shiftLeft_eq]
    calc l * 2 ^ 1 < 2 ^ 15 * 2 ^ 1 := by omega
      _ ≤ 2 ^ i := by rw [← pow_add]; exact Nat.pow_le_pow_right (by norm_num) (by omega)
  split
  · apply Nat.eq_of_testBit_eq; intro i
    rw [e]
    simp only [Nat.testBit_xor, Nat.testBit_mod_two_pow, Nat.testBit_shiftLeft]
    by_cases hi : i < 16
    · simp only [hi, decide_True, Bool.true_and]
      cases decide (i ≥ 1) <;> cases s.testBit (i - 1) <;> cases l.testBit (i - 1) <;>
        cases Nat.testBit 4129 i <;> rfl
    · have := hhi i (by omega)
      simp only [Nat.testBit_shiftLeft] at this
      simp [hi, this]
  · apply Nat.eq_of_testBit_eq; intro i
    rw [e]
    simp only [Nat.testBit_xor, Nat.testBit_mod_two_pow, Nat.testBit_shiftLeft]
    by_cases hi : i < 16
    · simp only [hi, decide_True, Bool.true_and]
      cases decide (i ≥ 1) <;> cases s.testBit (i - 1) <;> cases l.testBit (i - 1) <;>
        cases Nat.testBit 4129 i <;> rfl
    · have := hhi i (by omega)
      simp only [Nat.testBit_shiftLeft] at this
      simp [hi, this]

theorem crcShift_iter_xor (k : Nat) : ∀ (s l : Nat), l < 2 ^ (16 - k) → k ≤ 15 →
    crcShift^[k] (s ^^^ l) = crcShift^[k] s ^^^ (l <<< k) := by
  induction k with
  | zero => intro s l _ _; simp
  | succ k ih =>
    intro s l hl hk
    rw [Function.iterate_succ_apply, Function.iterate_succ_apply, crcShift_xor s l, ih]
    · rw [← Nat.shiftLeft_add]; congr 2; omega
    · rw [Nat.shiftLeft_eq]
      have : 2 ^ (16 - k) = 2 ^ (16 - (k+1)) * 2 ^ 1 := by rw [← pow_add]; congr 1; omega
      rw [this]; omega
    · omega
    · exact lt_of_lt_of_le hl (Nat.pow_le_pow_right (by norm_num) (by omega))

theorem testBit_toNat_shiftLeft (bit : Bool) (s i : Nat) :
    (bit.toNat <<< s).testBit i = (decide (s = i) && bit) := by
  cases bit
  · simp
  · simp [Nat.one_shiftLeft, Nat.testBit_two_pow]

theorem testBit_toNat (bit : Bool) (j : Nat) :
    bit.toNat.testBit j = (decide (j = 0) && bit) := by
  have := testBit_toNat_shiftLeft bit 0 j
  simp only [Nat.shiftLeft_zero] at this
  rw [this]; congr 1; simp [eq_comm]

theorem crc16table_getD (t : Nat) (ht : t < 256) : crc16table.getD t 0 = crc16entry t := by
  unfold crc16table
  rw [List.getD_eq_getElem?_getD, List.getElem?_map, List.getElem?_range ht]
  rfl

theorem crcShift_iter_lt (k : Nat) (x : Nat) (hx : x < 65536) : crcShift^[k] x < 65536 := by
  cases k with
  | zero => simpa using hx
  | succ k => rw [Function.iterate_succ_apply']; exact crcShift_lt _

theorem crc16step_eq (crc b : Nat) (hc : crc < 65536) :
    crc16step crc b = crcShift^[8] (crc ^^^ ((b % 256) <<< 8)) := by
  unfold crc16step
  simp only
  have ht : (b ^^^ ((crc >>> 8) % 256)) % 256 < 256 := Nat.mod_lt _ (by norm_num)
  rw [crc16table_getD _ ht]
  unfold crc16entry
  have e1 : crc ^^^ ((b % 256) <<< 8)
      = ((((b ^^^ ((crc >>> 8) % 256)) % 256) <<< 8) % 65536) ^^^ (crc % 256) := by
    apply Nat.eq_of_testBit_eq; intro i
    have e : (65536 : Nat) = 2 ^ 16 := by norm_num
    have e' : (256 : Nat) = 2 ^ 8 := by norm_num
    have hch : 16 ≤ i → crc.testBit i = false := fun hi =>
      Nat.testBit_lt_two_pow (lt_of_lt_of_le hc (by rw [e]; exact Nat.pow_le_pow_right (by norm_num) hi))
    rw [e, e']
    simp only [Nat.testBit_xor, Nat.testBit_mod_two_pow, Nat.testBit_shiftLeft, Nat.testBit_shiftRight]
    by_cases h8 : i < 8
    · have : ¬ (i ≥ 8) := by omega
      simp [h8, this]
    · have h8' : i ≥ 8 := by omega
      by_cases h16 : i < 16
      · have h1 : i - 8 < 8 := by omega
        have h2 : 8 + (i - 8) = i := by omega
        simp only [h8, h8', h16, h1, h2, decide_True, decide_False, Bool.true_and, Bool.false_and,
          Bool.xor_false]
        cases crc.testBit i <;> cases b.testBit (i - 8) <;> rfl
      · have h1 : ¬ (i - 8 < 8) := by omega
        simp [h8, h8', h16, h1, hch (by omega)]
  have e2 : (crc <<< 8) % 65536 = (crc % 256) <<< 8 := by
    rw [Nat.shiftLeft_eq, Nat.shiftLeft_eq]; omega
  rw [e1, crcShift_iter_xor 8 ((((b ^^^ ((crc >>> 8) % 256)) % 256) <<< 8) % 65536) (crc % 256)
    (by norm_num; omega) (by norm_num), e2]

theorem xmodemBit_eq (crc : Nat) (bit : Bool) :
    xmodemBit crc bit = crcShift (crc ^^^ (bit.toNat <<< 15)) := by
  have e : (65536 : Nat) = 2 ^ 16 := by norm_num
  have hb : (bit.toNat <<< 15).testBit 15 = bit := by
    rw [testBit_toNat_shiftLeft]; simp
  have hs : ((crc ^^^ (bit.toNat <<< 15)) <<< 1) % 65536 = (crc <<< 1) % 65536 := by
    apply Nat.eq_of_testBit_eq; intro i
    rw [e]
    simp only [Nat.testBit_mod_two_pow, Nat.testBit_shiftLeft, Nat.testBit_xor,
      testBit_toNat]
    by_cases hi : i < 16
    · have : ¬ (i - 1 ≥ 15 ∧ i - 1 - 15 = 0) ∨ i = 0 := by omega
      rcases this with h | h
      · by_cases h15 : i - 1 ≥ 15
        · have : ¬ (i - 1 - 15 = 0) := fun c => h ⟨h15, c⟩
          simp [hi, h15, this]
        · simp [hi, h15]
      · subst h; simp
    · simp [hi]
  rw [crcShift_eq, Nat.testBit_xor, hb]
  unfold xmodemBit
  simp only
  by_cases hf : (crc.testBit 15 ^^ bit) = true
  · rw [if_pos hf, if_pos hf]
    apply Nat.eq_of_testBit_eq; intro i
    have := congrArg (fun z => Nat.testBit z i) hs
    rw [e] at this ⊢
    simp only [Nat.testBit_xor, Nat.testBit_mod_two_pow] at this ⊢
    by_cases hi : i < 16
    · simp only [hi, decide_True, Bool.true_and] at this ⊢
      rw [this]
    · have h4 : Nat.testBit 4129 i = false :=
        Nat.testBit_lt_two_pow (lt_of_lt_of_le (by norm_num : 4129 < 2 ^ 16)
          (Nat.pow_le_pow_right (by norm_num) (by omega)))
      simp [hi, h4]
  · rw [if_neg hf, if_neg hf, hs]

theorem byteBits_fold_prefix (b crc : Nat) (k : Nat) (hk : k ≤ 8) :
    ((List.range k).map (fun j => b.testBit (7 - j))).foldl xmodemBit crc
      = crcShift^[k] (crc ^^^ (((b % 256) >>> (8 - k)) <<< (16 - k))) := by
  induction k with
  | zero =>
    have : (b % 256) >>> 8 = 0 := by rw [Nat.shiftRight_eq_div_pow]; omega
    simp [this]
  | succ k ih =>
    rw [List.range_succ, List.map_append, List.foldl_append, ih (by omega)]
    simp only [List.map_cons, List.map_nil, List.foldl_cons, List.foldl_nil]
    rw [xmodemBit_eq, Function.iterate_succ_apply']
    refine congrArg crcShift ?_
    have hlt : (b.testBit (7 - k)).toNat <<< (15 - k) < 2 ^ (16 - k) := by
      rw [Nat.shiftLeft_eq]
      have h1 : (b.testBit (7 - k)).toNat ≤ 1 := Bool.toNat_le _
      have h2 : 2 ^ (16 - k) = 2 * 2 ^ (15 - k) := by rw [← pow_succ']; congr 1; omega
      have h3 : 0 < 2 ^ (15 - k) := pow_pos (by norm_num) _
      rw [h2]; nlinarith
    have hsh : (b.testBit (7 - k)).toNat <<< 15 = ((b.testBit (7 - k)).toNat <<< (15 - k)) <<< k := by
      rw [← Nat.shiftLeft_add]; congr 1; omega
    rw [hsh, ← crcShift_iter_xor k _ _ hlt (by omega)]
    refine congrArg (crcShift^[k]) ?_
    apply Nat.eq_of_testBit_eq; intro i
    have e' : (256 : Nat) = 2 ^ 8 := by norm_num
    rw [e']
    simp only [Nat.testBit_xor, Nat.testBit_mod_two_pow, Nat.testBit_shiftLeft,
      Nat.testBit_shiftRight, testBit_toNat]
    rw [Bool.xor_assoc]; congr 1
    have hk7 : 8 - (k + 1) = 7 - k := by omega
    have hk15 : 16 - (k + 1) = 15 - k := by omega
    rw [hk7, hk15]
    by_cases h1 : i ≥ 16 - k
    · have h2 : i ≥ 15 - k := by omega
      have h4 : 8 - k + (i - (16 - k)) = i - 8 := by omega
      have h5 : 7 - k + (i - (15 - k)) = i - 8 := by omega
      have h6 : ¬ (i - (15 - k) = 0) := by omega
      simp [h1, h2, h4, h5, h6]
    · by_cases h2 : i ≥ 15 - k
      · have h5 : 7 - k + (i - (15 - k)) = 7 - k := by omega
        have h6 : i - (15 - k) = 0 := by omega
        have h7 : 7 - k < 8 := by omega
        simp [h1, h2, h5, h6, h7]
      · simp [h1, h2]

theorem byteBits_fold (b crc : Nat) :
    (byteBits b).foldl xmodemBit crc = crcShift^[8] (crc ^^^ ((b % 256) <<< 8)) := by
  have := byteBits_fold_prefix b crc 8 (le_refl 8)
  simpa [byteBits] using this

theorem crc16_fold_eq (data : List Nat) : ∀ crc, crc < 65536 →
    data.foldl crc16step crc = data.foldl (fun c b => (byteBits b).foldl xmodemBit c) crc := by
  induction data with
  | nil => intro crc _; rfl
  | cons b rest ih =>
    intro crc hc
    simp only [List.foldl_cons]
    rw [byteBits_fold, crc16step_eq crc b hc]
    exact ih _ (crcShift_iter_lt 8 _ (by
      have e : (65536 : Nat) = 2 ^ 16 := by norm_num
      rw [e]; apply Nat.xor_lt_two_pow
      · rw [← e]; exact hc
      · rw [Nat.shiftLeft_eq]; omega))

/-- C3: crc16 is CRC-16/XMODEM: on every byte sequence the table-driven crc16 equals the
bit-by-bit reference with polynomial 0x1021, initial value 0, most significant bit first, no
reflection and no final XOR; crc16 of the ASCII text 123456789 is 0x31C3. -/
theorem crc16_is_xmodem :
    (∀ data : List Nat, crc16 data = crc16XmodemRef data)
      ∧ crc16 [49, 50, 51, 52, 53, 54, 55, 56, 57] = 0x31C3 := by
  refine ⟨fun data => crc16_fold_eq data 0 (by norm_num), by decide⟩


/-! ### Base-32 blocks in arithmetic form -/

theorem and_31 (x : Nat) : x &&& 0x1F = x % 32 := by
  have := Nat.and_pow_two_sub_one_eq_mod x 5
  simpa using this

theorem or_eq_add_of_shape (k a b x : Nat) (hx : x = 2 ^ k * a) (hb : b < 2 ^ k) :
    x ||| b = x + b := by
  subst hx; exact (Nat.mul_add_lt_is_or hb a).symm

theorem getD_lt_of_forall (src : List Nat) (m : Nat) (h : ∀ b ∈ src, b < m) (hm : 0 < m) (i : Nat) :
    src.getD i 0 < m := by
  rw [List.getD_eq_getElem?_getD]
  cases hi : src[i]? with
  | none => simpa using hm
  | some x =>
    obtain ⟨hlt, hx⟩ := List.getElem?_eq_some.1 hi
    simpa using h x (hx ▸ List.getElem_mem hlt)

/-- The 5-bit blocks of one quantum, written with division and remainder. -/
def blocksArith (s0 s1 s2 s3 s4 : Nat) : List Nat :=
  [s0 / 8, (s0 % 8) * 4 + s1 / 64, (s1 / 2) % 32, (s1 % 2) * 16 + s2 / 16,
   (s2 % 16) * 2 + s3 / 128, (s3 / 4) % 32, (s3 % 4) * 8 + s4 / 32, s4 % 32]

/-- The bytes of one quantum, written with division and remainder. -/
def bytesArith (d0 d1 d2 d3 d4 d5 d6 d7 : Nat) : List Nat :=
  [d0 * 8 + d1 / 4, (d1 % 4) * 64 + d2 * 2 + d3 / 16, (d3 % 16) * 16 + d4 / 2,
   (d4 % 2) * 128 + d5 * 4 + d6 / 8, (d6 % 8) * 32 + d7]

theorem encodeBlocks_eq (src : List Nat) (h : ∀ b ∈ src, b < 256) :
    encodeBlocks src = blocksArith (src.getD 0 0) (src.getD 1 0) (src.getD 2 0) (src.getD 3 0)
      (src.getD 4 0) := by
  have g := getD_lt_of_forall src 256 h (by norm_num)
  have g0 := g 0; have g1 := g 1; have g2 := g 2; have g3 := g 3; have g4 := g 4
  simp only [encodeBlocks, blocksArith, and_31, Nat.shiftLeft_eq, Nat.shiftRight_eq_div_pow]
  clear g
  generalize src.getD 0 0 = s0 at *
  generalize src.getD 1 0 = s1 at *
  generalize src.getD 2 0 = s2 at *
  generalize src.getD 3 0 = s3 at *
  generalize src.getD 4 0 = s4 at *
  have e1 : (s0 * 2 ^ 2) % 32 ||| (s1 / 2 ^ 6) % 32 = (s0 % 8) * 4 + s1 / 64 := by
    rw [or_eq_add_of_shape 2 (s0 % 8) _ _ (by omega) (by omega)]; omega
  have e3 : (s1 * 2 ^ 4) % 32 ||| (s2 / 2 ^ 4) % 32 = (s1 % 2) * 16 + s2 / 16 := by
    rw [or_eq_add_of_shape 4 (s1 % 2) _ _ (by omega) (by omega)]; omega
  have e4 : (s2 * 2 ^ 1) % 32 ||| s3 / 2 ^ 7 = (s2 % 16) * 2 + s3 / 128 := by
    rw [or_eq_add_of_shape 1 (s2 % 16) _ _ (by omega) (by omega)]; omega
  have e6 : (s3 * 2 ^ 3) % 32 ||| s4 / 2 ^ 5 = (s3 % 4) * 8 + s4 / 32 := by
    rw [or_eq_add_of_shape 3 (s3 % 4) _ _ (by omega) (by omega)]; omega
  rw [e1, e3, e4, e6]

theorem quantum_bytes_arith (d0 d1 d2 d3 d4 d5 d6 d7 : Nat) (h0 : d0 < 32) (h1 : d1 < 32)
    (h2 : d2 < 32) (h3 : d3 < 32) (h4 : d4 < 32) (h5 : d5 < 32) (h6 : d6 < 32) (h7 : d7 < 32) :
    [((d0 <<< 3) % 256) ||| (d1 >>> 2),
     ((d1 <<< 6) % 256) ||| ((d2 <<< 1) % 256) ||| (d3 >>> 4),
     ((d3 <<< 4) % 256) ||| (d4 >>> 1),
     ((d4 <<< 7) % 256) ||| ((d5 <<< 2) % 256) ||| (d6 >>> 3),
     ((d6 <<< 5) % 256) ||| d7] = bytesArith d0 d1 d2 d3 d4 d5 d6 d7 := by
  simp only [bytesArith, Nat.shiftLeft_eq, Nat.shiftRight_eq_div_pow]
  have e0 : (d0 * 2 ^ 3) % 256 ||| d1 / 2 ^ 2 = d0 * 8 + d1 / 4 := by
    rw [or_eq_add_of_shape 3 d0 _ _ (by omega) (by omega)]; omega
  have e1 : (d1 * 2 ^ 6) % 256 ||| (d2 * 2 ^ 1) % 256 ||| d3 / 2 ^ 4
      = (d1 % 4) * 64 + d2 * 2 + d3 / 16 := by
    rw [or_eq_add_of_shape 6 (d1 % 4) ((d2 * 2 ^ 1) % 256) ((d1 * 2 ^ 6) % 256) (by omega) (by omega),
      or_eq_add_of_shape 1 ((d1 % 4) * 32 + d2) _ _ (by omega) (by omega)]; omega
  have e2 : (d3 * 2 ^ 4) % 256 ||| d4 / 2 ^ 1 = (d3 % 16) * 16 + d4 / 2 := by
    rw [or_eq_add_of_shape 4 (d3 % 16) _ _ (by omega) (by omega)]; omega
  have e3 : (d4 * 2 ^ 7) % 256 ||| (d5 * 2 ^ 2) % 256 ||| d6 / 2 ^ 3
      = (d4 % 2) * 128 + d5 * 4 + d6 / 8 := by
    rw [or_eq_add_of_shape 7 (d4 % 2) ((d5 * 2 ^ 2) % 256) ((d4 * 2 ^ 7) % 256) (by omega) (by omega),
      or_eq_add_of_shape 2 ((d4 % 2) * 32 + d5) _ _ (by omega) (by omega)]; omega
  have e4 : (d6 * 2 ^ 5) % 256 ||| d7 = (d6 % 8) * 32 + d7 := by
    rw [or_eq_add_of_shape 5 (d6 % 8) _ _ (by omega) (by omega)]; omega
  rw [e0, e1, e2, e3, e4]

theorem encodeChar_lt (v : Nat) (hv : v < 32) :
    encodeChar v = if v < 26 then v + 65 else v + 24 := by
  have : ∀ w, w < 32 → encodeChar w = if w < 26 then w + 65 else w + 24 := by decide
  exact this v hv

theorem decodeMap_encodeChar (v : Nat) (hv : v < 32) : decodeMap (encodeChar v) = v := by
  have : ∀ w, w < 32 → decodeMap (encodeChar w) = w := by decide
  exact this v hv

theorem decodeMap_valid (c : Nat) (h : decodeMap c ≠ 0xFF) :
    decodeMap c < 32 ∧ encodeChar (decodeMap c) = c := by
  by_cases hm : c ∈ encodeStd
  · have : ∀ x ∈ encodeStd, decodeMap x < 32 ∧ encodeChar (decodeMap x) = x := by decide
    exact this c hm
  · exfalso; apply h
    unfold decodeMap
    have : encodeStd.indexOf c = encodeStd.length := List.indexOf_eq_length.2 hm
    rw [this]; rfl

/-! ### The decoder, one quantum at a time -/

/-- Number of bytes that a quantum of `dlen` characters yields. -/
def quantumCount (dlen : Nat) : Nat :=
  if dlen = 8 then 5 else if dlen = 7 then 4 else if dlen = 5 then 3
  else if dlen = 4 then 2 else if dlen = 2 then 1 else 0

theorem quantumBytes_eq (dbuf : List Nat) (h : ∀ d ∈ dbuf, d < 32) :
    quantumBytes dbuf = (bytesArith (dbuf.getD 0 0) (dbuf.getD 1 0) (dbuf.getD 2 0) (dbuf.getD 3 0)
      (dbuf.getD 4 0) (dbuf.getD 5 0) (dbuf.getD 6 0) (dbuf.getD 7 0)).take
        (quantumCount dbuf.length) := by
  have g := getD_lt_of_forall dbuf 32 h (by norm_num)
  have q := quantum_bytes_arith _ _ _ _ _ _ _ _ (g 0) (g 1) (g 2) (g 3) (g 4) (g 5) (g 6) (g 7)
  unfold quantumBytes quantumCount
  simp only
  rw [← q]
  split
  · rfl
  · split
    · rfl
    · split
      · rfl
      · split
        · rfl
        · split <;> rfl

theorem decodeMap_255 : decodeMap 255 = 255 := by decide

theorem readQuantum_valid (fuel c : Nat) (src dbuf : List Nat) (hc : decodeMap c ≠ 0xFF) :
    readQuantum (fuel + 1) (c :: src) dbuf = readQuantum fuel src (dbuf ++ [decodeMap c]) := by
  have hne : c ≠ 255 := fun e => hc (by rw [e]; exact decodeMap_255)
  simp [readQuantum, hne, hc]

theorem readQuantum_spec : ∀ (fuel : Nat) (src dbuf out rest : List Nat) (fin : Bool),
    readQuantum fuel src dbuf = some (out, rest, fin) →
    ∃ cs, out = dbuf ++ cs.map decodeMap ∧ (∀ c ∈ cs, decodeMap c ≠ 0xFF) ∧
      ((fin = false ∧ cs.length = fuel ∧ src = cs ++ rest) ∨
       (fin = true ∧ cs.length < fuel ∧ src = cs ∧ rest = []) ∨
       (fin = true ∧ cs.length < fuel ∧ src = cs ++ 0xFF :: rest ∧
          7 ≤ rest.length + (dbuf.length + cs.length))) := by
  intro fuel
  induction fuel with
  | zero =>
    intro src dbuf out rest fin h
    simp only [readQuantum, Option.some.injEq, Prod.mk.injEq] at h
    obtain ⟨rfl, rfl, rfl⟩ := h
    exact ⟨[], by simp, by simp, Or.inl ⟨rfl, rfl, rfl⟩⟩
  | succ fuel ih =>
    intro src dbuf out rest fin h
    cases src with
    | nil =>
      simp only [readQuantum, Option.some.injEq, Prod.mk.injEq] at h
      obtain ⟨rfl, rfl, rfl⟩ := h
      exact ⟨[], by simp, by simp, Or.inr (Or.inl ⟨rfl, by simp, rfl, rfl⟩)⟩
    | cons c src =>
      unfold readQuantum at h
      simp only at h
      split at h
      · rename_i hpad
        split at h
        · exact absurd h (by simp)
        · rename_i hlen
          split at h
          · exact absurd h (by simp)
          · split at h
            · exact absurd h (by simp)
            · simp only [Option.some.injEq, Prod.mk.injEq] at h
              obtain ⟨rfl, rfl, rfl⟩ := h
              refine ⟨[], by simp, by simp, Or.inr (Or.inr ⟨rfl, by simp, ?_, ?_⟩)⟩
              · simp [hpad.1]
              · simp only [List.length_nil, Nat.add_zero]; omega
      · split at h
        · exact absurd h (by simp)
        · rename_i hvalid
          obtain ⟨cs, hout, hcs, hcase⟩ := ih src (dbuf ++ [decodeMap c]) out rest fin h
          refine ⟨c :: cs, ?_, ?_, ?_⟩
          · simp [hout]
          · intro x hx
            rcases List.mem_cons.1 hx with rfl | hx
            · exact hvalid
            · exact hcs x hx
          · rcases hcase with ⟨h1, h2, h3⟩ | ⟨h1, h2, h3, h4⟩ | ⟨h1, h2, h3, h4⟩
            · exact Or.inl ⟨h1, by simp [h2], by simp [h3]⟩
            · exact Or.inr (Or.inl ⟨h1, by simp [h2], by simp [h3], h4⟩)
            · refine Or.inr (Or.inr ⟨h1, by simp [h2], by simp [h3], ?_⟩)
              simp only [List.length_append, List.length_cons, List.length_nil] at h4 ⊢
              omega

theorem b32Encode_cons5 (s0 s1 s2 s3 s4 : Nat) (rest : List Nat) :
    b32Encode (s0 :: s1 :: s2 :: s3 :: s4 :: rest)
      = (encodeBlocks [s0, s1, s2, s3, s4]).map encodeChar ++ b32Encode rest := by
  simp [b32Encode]

theorem b32Encode_short (src : List Nat) (h : src.length < 5) :
    b32Encode src = ((encodeBlocks src).map encodeChar).take (EncodedLen src.length) := by
  rcases src with _ | ⟨s0, _ | ⟨s1, _ | ⟨s2, _ | ⟨s3, _ | ⟨s4, t⟩⟩⟩⟩⟩
  · rfl
  · rfl
  · rfl
  · rfl
  · rfl
  · simp at h; omega

theorem bytesArith_lt (d0 d1 d2 d3 d4 d5 d6 d7 : Nat) (h0 : d0 < 32) (h1 : d1 < 32)
    (h2 : d2 < 32) (h3 : d3 < 32) (h4 : d4 < 32) (h5 : d5 < 32) (h6 : d6 < 32) (h7 : d7 < 32) :
    ∀ b ∈ bytesArith d0 d1 d2 d3 d4 d5 d6 d7, b < 256 := by
  intro b hb
  simp only [bytesArith, List.mem_cons, List.mem_singleton, List.not_mem_nil, or_false] at hb
  rcases hb with rfl | rfl | rfl | rfl | rfl <;> omega

theorem quantumBytes_lt (dbuf : List Nat) (h : ∀ d ∈ dbuf, d < 32) :
    ∀ b ∈ quantumBytes dbuf, b < 256 := by
  have g := getD_lt_of_forall dbuf 32 h (by norm_num)
  rw [quantumBytes_eq dbuf h]
  intro b hb
  exact bytesArith_lt _ _ _ _ _ _ _ _ (g 0) (g 1) (g 2) (g 3) (g 4) (g 5) (g 6) (g 7) b
    (List.mem_of_mem_take hb)

theorem quantumBytes_length (dbuf : List Nat) :
    (quantumBytes dbuf).length = quantumCount dbuf.length := by
  unfold quantumBytes quantumCount
  simp only
  split
  · rfl
  · split
    · rfl
    · split
      · rfl
      · split
        · rfl
        · split <;> rfl

theorem map_decodeMap_lt (cs : List Nat) (h : ∀ c ∈ cs, decodeMap c ≠ 0xFF) :
    ∀ d ∈ cs.map decodeMap, d < 32 := by
  intro d hd
  obtain ⟨c, hc, rfl⟩ := List.mem_map.1 hd
  exact (decodeMap_valid c (h c hc)).1

/-- Re-encoding the bytes of a full quantum of valid characters gives the characters back. -/
theorem quantum_full (c0 c1 c2 c3 c4 c5 c6 c7 : Nat)
    (h : ∀ c ∈ [c0, c1, c2, c3, c4, c5, c6, c7], decodeMap c ≠ 0xFF) :
    ∃ b0 b1 b2 b3 b4, quantumBytes ([c0, c1, c2, c3, c4, c5, c6, c7].map decodeMap)
        = [b0, b1, b2, b3, b4] ∧
      (encodeBlocks [b0, b1, b2, b3, b4]).map encodeChar = [c0, c1, c2, c3, c4, c5, c6, c7] := by
  have v0 := decodeMap_valid c0 (h c0 (by simp))
  have v1 := decodeMap_valid c1 (h c1 (by simp))
  have v2 := decodeMap_valid c2 (h c2 (by simp))
  have v3 := decodeMap_valid c3 (h c3 (by simp))
  have v4 := decodeMap_valid c4 (h c4 (by simp))
  have v5 := decodeMap_valid c5 (h c5 (by simp))
  have v6 := decodeMap_valid c6 (h c6 (by simp))
  have v7 := decodeMap_valid c7 (h c7 (by simp))
  have hlt := map_decodeMap_lt _ h
  have hb := quantumBytes_lt _ hlt
  have hq : quantumBytes ([c0, c1, c2, c3, c4, c5, c6, c7].map decodeMap)
      = bytesArith (decodeMap c0) (decodeMap c1) (decodeMap c2) (decodeMap c3) (decodeMap c4)
          (decodeMap c5) (decodeMap c6) (decodeMap c7) := by
    rw [quantumBytes_eq _ hlt]
    simp [quantumCount, bytesArith]
  rw [hq] at hb
  refine ⟨_, _, _, _, _, hq, ?_⟩
  unfold bytesArith at hb
  rw [encodeBlocks_eq _ hb]
  simp only [List.getD_cons_zero, List.getD_cons_succ, blocksArith, List.map_cons, List.map_nil]
  clear hq hb hlt h
  generalize decodeMap c0 = d0 at *
  generalize decodeMap c1 = d1 at *
  generalize decodeMap c2 = d2 at *
  generalize decodeMap c3 = d3 at *
  generalize decodeMap c4 = d4 at *
  generalize decodeMap c5 = d5 at *
  generalize decodeMap c6 = d6 at *
  generalize decodeMap c7 = d7 at *
  have e0 : (d0 * 8 + d1 / 4) / 8 = d0 := by omega
  have e1 : (d0 * 8 + d1 / 4) % 8 * 4 + (d1 % 4 * 64 + d2 * 2 + d3 / 16) / 64 = d1 := by omega
  have e2 : (d1 % 4 * 64 + d2 * 2 + d3 / 16) / 2 % 32 = d2 := by omega
  have e3 : (d1 % 4 * 64 + d2 * 2 + d3 / 16) % 2 * 16 + (d3 % 16 * 16 + d4 / 2) / 16 = d3 := by
    omega
  have e4 : (d3 % 16 * 16 + d4 / 2) % 16 * 2 + (d4 % 2 * 128 + d5 * 4 + d6 / 8) / 128 = d4 := by
    omega
  have e5 : (d4 % 2 * 128 + d5 * 4 + d6 / 8) / 4 % 32 = d5 := by omega
  have e6 : (d4 % 2 * 128 + d5 * 4 + d6 / 8) % 4 * 8 + (d6 % 8 * 32 + d7) / 32 = d6 := by omega
  have e7 : (d6 % 8 * 32 + d7) % 32 = d7 := by omega
  rw [e0, e1, e2, e3, e4, e5, e6, e7, v0.2, v1.2, v2.2, v3.2, v4.2, v5.2, v6.2, v7.2]

/-- Re-encoding a final quantum of two valid characters changes at most the last character. -/
theorem quantum_short2 (c0 c1 : Nat) (h : ∀ c ∈ [c0, c1], decodeMap c ≠ 0xFF)
    (hl : c1 = (b32Encode (quantumBytes ([c0, c1].map decodeMap))).getD 1 0) :
    b32Encode (quantumBytes ([c0, c1].map decodeMap)) = [c0, c1] := by
  have v0 := decodeMap_valid c0 (h c0 (by simp))
  have v1 := decodeMap_valid c1 (h c1 (by simp))
  have hlt := map_decodeMap_lt _ h
  have hb := quantumBytes_lt _ hlt
  have hq : quantumBytes ([c0, c1].map decodeMap) = [decodeMap c0 * 8 + decodeMap c1 / 4] := by
    rw [quantumBytes_eq _ hlt]
    simp [quantumCount, bytesArith]
  rw [hq] at hb hl ⊢
  rw [b32Encode_short _ (by simp), encodeBlocks_eq _ hb] at hl ⊢
  simp only [List.getD_cons_zero, List.getD_cons_succ, List.getD_nil, blocksArith, List.map_cons,
    List.map_nil, List.length_cons, List.length_nil, EncodedLen, Nat.reduceAdd, Nat.reduceMul,
    Nat.reduceDiv, List.take_succ_cons, List.take_zero] at hl ⊢
  have e0 : (decodeMap c0 * 8 + decodeMap c1 / 4) / 8 = decodeMap c0 := by omega
  rw [← hl, e0, v0.2]

/-- Re-encoding a final quantum of four valid characters changes at most the last character. -/
theorem quantum_short4 (c0 c1 c2 c3 : Nat) (h : ∀ c ∈ [c0, c1, c2, c3], decodeMap c ≠ 0xFF)
    (hl : c3 = (b32Encode (quantumBytes ([c0, c1, c2, c3].map decodeMap))).getD 3 0) :
    b32Encode (quantumBytes ([c0, c1, c2, c3].map decodeMap)) = [c0, c1, c2, c3] := by
  have v0 := decodeMap_valid c0 (h c0 (by simp))
  have v1 := decodeMap_valid c1 (h c1 (by simp))
  have v2 := decodeMap_valid c2 (h c2 (by simp))
  have v3 := decodeMap_valid c3 (h c3 (by simp))
  have hlt := map_decodeMap_lt _ h
  have hb := quantumBytes_lt _ hlt
  have hq : quantumBytes ([c0, c1, c2, c3].map decodeMap)
      = [decodeMap c0 * 8 + decodeMap c1 / 4,
         decodeMap c1 % 4 * 64 + decodeMap c2 * 2 + decodeMap c3 / 16] := by
    rw [quantumBytes_eq _ hlt]
    simp [quantumCount, bytesArith]
  rw [hq] at hb hl ⊢
  rw [b32Encode_short _ (by simp), encodeBlocks_eq _ hb] at hl ⊢
  simp only [List.getD_cons_zero, List.getD_cons_succ, List.getD_nil, blocksArith, List.map_cons,
    List.map_nil, List.length_cons, List.length_nil, EncodedLen, Nat.reduceAdd, Nat.reduceMul,
    Nat.reduceDiv, List.take_succ_cons, List.take_zero] at hl ⊢
  generalize decodeMap c0 = d0 at *
  generalize decodeMap c1 = d1 at *
  generalize decodeMap c2 = d2 at *
  generalize decodeMap c3 = d3 at *
  have e0 : (d0 * 8 + d1 / 4) / 8 = d0 := by omega
  have e1 : (d0 * 8 + d1 / 4) % 8 * 4 + (d1 % 4 * 64 + d2 * 2 + d3 / 16) / 64 = d1 := by omega
  have e2 : (d1 % 4 * 64 + d2 * 2 + d3 / 16) / 2 % 32 = d2 := by omega
  rw [← hl, e0, e1, e2, v0.2, v1.2, v2.2]

/-- Re-encoding a final quantum of five valid characters changes at most the last character. -/
theorem quantum_short5 (c0 c1 c2 c3 c4 : Nat)
    (h : ∀ c ∈ [c0, c1, c2, c3, c4], decodeMap c ≠ 0xFF)
    (hl : c4 = (b32Encode (quantumBytes ([c0, c1, c2, c3, c4].map decodeMap))).getD 4 0) :
    b32Encode (quantumBytes ([c0, c1, c2, c3, c4].map decodeMap)) = [c0, c1, c2, c3, c4] := by
  have v0 := decodeMap_valid c0 (h c0 (by simp))
  have v1 := decodeMap_valid c1 (h c1 (by simp))
  have v2 := decodeMap_valid c2 (h c2 (by simp))
  have v3 := decodeMap_valid c3 (h c3 (by simp))
  have v4 := decodeMap_valid c4 (h c4 (by simp))
  have hlt := map_decodeMap_lt _ h
  have hb := quantumBytes_lt _ hlt
  have hq : quantumBytes ([c0, c1, c2, c3, c4].map decodeMap)
      = [decodeMap c0 * 8 + decodeMap c1 / 4,
         decodeMap c1 % 4 * 64 + decodeMap c2 * 2 + decodeMap c3 / 16,
         decodeMap c3 % 16 * 16 + decodeMap c4 / 2] := by
    rw [quantumBytes_eq _ hlt]
    simp [quantumCount, bytesArith]
  rw [hq] at hb hl ⊢
  rw [b32Encode_short _ (by simp), encodeBlocks_eq _ hb] at hl ⊢
  simp only [List.getD_cons_zero, List.getD_cons_succ, List.getD_nil, blocksArith, List.map_cons,
    List.map_nil, List.length_cons, List.length_nil, EncodedLen, Nat.reduceAdd, Nat.reduceMul,
    Nat.reduceDiv, List.take_succ_cons, List.take_zero] at hl ⊢
  generalize decodeMap c0 = d0 at *
  generalize decodeMap c1 = d1 at *
  generalize decodeMap c2 = d2 at *
  generalize decodeMap c3 = d3 at *
  generalize decodeMap c4 = d4 at *
  have e0 : (d0 * 8 + d1 / 4) / 8 = d0 := by omega
  have e1 : (d0 * 8 + d1 / 4) % 8 * 4 + (d1 % 4 * 64 + d2 * 2 + d3 / 16) / 64 = d1 := by omega
  have e2 : (d1 % 4 * 64 + d2 * 2 + d3 / 16) / 2 % 32 = d2 := by omega
  have e3 : (d1 % 4 * 64 + d2 * 2 + d3 / 16) % 2 * 16 + (d3 % 16 * 16 + d4 / 2) / 16 = d3 := by
    omega
  rw [← hl, e0, e1, e2, e3, v0.2, v1.2, v2.2, v3.2]

/-- Re-encoding a final quantum of seven valid characters changes at most the last character. -/
theorem quantum_short7 (c0 c1 c2 c3 c4 c5 c6 : Nat)
    (h : ∀ c ∈ [c0, c1, c2, c3, c4, c5, c6], decodeMap c ≠ 0xFF)
    (hl : c6 = (b32Encode (quantumBytes ([c0, c1, c2, c3, c4, c5, c6].map decodeMap))).getD 6 0) :
    b32Encode (quantumBytes ([c0, c1, c2, c3, c4, c5, c6].map decodeMap))
      = [c0, c1, c2, c3, c4, c5, c6] := by
  have v0 := decodeMap_valid c0 (h c0 (by simp))
  have v1 := decodeMap_valid c1 (h c1 (by simp))
  have v2 := decodeMap_valid c2 (h c2 (by simp))
  have v3 := decodeMap_valid c3 (h c3 (by simp))
  have v4 := decodeMap_valid c4 (h c4 (by simp))
  have v5 := decodeMap_valid c5 (h c5 (by simp))
  have v6 := decodeMap_valid c6 (h c6 (by simp))
  have hlt := map_decodeMap_lt _ h
  have hb := quantumBytes_lt _ hlt
  have hq : quantumBytes ([c0, c1, c2, c3, c4, c5, c6].map decodeMap)
      = [decodeMap c0 * 8 + decodeMap c1 / 4,
         decodeMap c1 % 4 * 64 + decodeMap c2 * 2 + decodeMap c3 / 16,
         decodeMap c3 % 16 * 16 + decodeMap c4 / 2,
         decodeMap c4 % 2 * 128 + decodeMap c5 * 4 + decodeMap c6 / 8] := by
    rw [quantumBytes_eq _ hlt]
    simp [quantumCount, bytesArith]
  rw [hq] at hb hl ⊢
  rw [b32Encode_short _ (by simp), encodeBlocks_eq _ hb] at hl ⊢
  simp only [List.getD_cons_zero, List.getD_cons_succ, List.getD_nil, blocksArith, List.map_cons,
    List.map_nil, List.length_cons, List.length_nil, EncodedLen, Nat.reduceAdd, Nat.reduceMul,
    Nat.reduceDiv, List.take_succ_cons, List.take_zero] at hl ⊢
  generalize decodeMap c0 = d0 at *
  generalize decodeMap c1 = d1 at *
  generalize decodeMap c2 = d2 at *
  generalize decodeMap c3 = d3 at *
  generalize decodeMap c4 = d4 at *
  generalize decodeMap c5 = d5 at *
  generalize decodeMap c6 = d6 at *
  have e0 : (d0 * 8 + d1 / 4) / 8 = d0 := by omega
  have e1 : (d0 * 8 + d1 / 4) % 8 * 4 + (d1 % 4 * 64 + d2 * 2 + d3 / 16) / 64 = d1 := by omega
  have e2 : (d1 % 4 * 64 + d2 * 2 + d3 / 16) / 2 % 32 = d2 := by omega
  have e3 : (d1 % 4 * 64 + d2 * 2 + d3 / 16) % 2 * 16 + (d3 % 16 * 16 + d4 / 2) / 16 = d3 := by
    omega
  have e4 : (d3 % 16 * 16 + d4 / 2) % 16 * 2 + (d4 % 2 * 128 + d5 * 4 + d6 / 8) / 128 = d4 := by
    omega
  have e5 : (d4 % 2 * 128 + d5 * 4 + d6 / 8) / 4 % 32 = d5 := by omega
  rw [← hl, e0, e1, e2, e3, e4, e5, v0.2, v1.2, v2.2, v3.2, v4.2, v5.2]

theorem list_length_eight (cs : List Nat) (h : cs.length = 8) :
    ∃ c0 c1 c2 c3 c4 c5 c6 c7, cs = [c0, c1, c2, c3, c4, c5, c6, c7] := by
  rcases cs with _ | ⟨c0, _ | ⟨c1, _ | ⟨c2, _ | ⟨c3, _ | ⟨c4, _ | ⟨c5, _ | ⟨c6, _ | ⟨c7, _ | ⟨c8, t⟩⟩⟩⟩⟩⟩⟩⟩⟩
  all_goals first
    | exact ⟨_, _, _, _, _, _, _, _, rfl⟩
    | (simp at h)

theorem getD_cons_eight (c0 c1 c2 c3 c4 c5 c6 c7 : Nat) (l : List Nat) (k : Nat) :
    (c0 :: c1 :: c2 :: c3 :: c4 :: c5 :: c6 :: c7 :: l).getD (k + 8) 0 = l.getD k 0 := rfl

theorem decodeLoop_nil (fuel : Nat) : decodeLoop fuel [] = some [] := by
  cases fuel <;> simp [decodeLoop]

/-- What `Encoding.decode` returns: never more than `DecodedLen` bytes, only bytes, and when it
fills the whole `DecodedLen` buffer the input is, up to its last character, the encoding of the
result. -/
theorem decodeLoop_spec : ∀ (fuel : Nat) (s bin : List Nat), decodeLoop fuel s = some bin →
    bin.length ≤ DecodedLen s.length ∧ (∀ b ∈ bin, b < 256) ∧
    (bin.length = DecodedLen s.length → s.length % 8 ≠ 1 →
      (bin.length % 5 ≠ 0 → s.getD (s.length - 1) 0 = (b32Encode bin).getD (s.length - 1) 0) →
      b32Encode bin = s) := by
  intro fuel
  induction fuel with
  | zero =>
    intro s bin h
    unfold decodeLoop at h
    split at h
    · rename_i hs
      simp only [Option.some.injEq] at h
      subst hs; subst h
      exact ⟨by simp, by simp, fun _ _ _ => rfl⟩
    · exact absurd h (by simp)
  | succ fuel ih =>
    intro s bin h
    unfold decodeLoop at h
    split at h
    · rename_i hs
      simp only [Option.some.injEq] at h
      subst hs; subst h
      exact ⟨by simp, by simp, fun _ _ _ => rfl⟩
    · rename_i hs
      split at h
      · exact absurd h (by simp)
      · rename_i dbuf rest fin hq
        obtain ⟨cs, hout, hcs, hcase⟩ := readQuantum_spec 8 s [] dbuf rest fin hq
        simp only [List.nil_append, List.length_nil, Nat.zero_add] at hout hcase
        have hd32 := map_decodeMap_lt cs hcs
        rcases hcase with ⟨hf, hlen, hsrc⟩ | ⟨hf, hlen, hsrc, hrest⟩ | ⟨hf, hlen, hsrc, hpad⟩
        · -- a full quantum, more input may follow
          subst hf
          simp only [Bool.false_eq_true, if_false] at h
          cases htl : decodeLoop fuel rest with
          | none => rw [htl] at h; exact absurd h (by simp)
          | some tl =>
            rw [htl] at h
            simp only [Option.map_some', Option.some.injEq] at h
            obtain ⟨i1, i2, i3⟩ := ih rest tl htl
            obtain ⟨c0, c1, c2, c3, c4, c5, c6, c7, rfl⟩ := list_length_eight cs hlen
            obtain ⟨b0, b1, b2, b3, b4, hb, henc⟩ := quantum_full c0 c1 c2 c3 c4 c5 c6 c7 hcs
            have hb256 := quantumBytes_lt _ hd32
            rw [hout, hb] at h
            rw [hb] at hb256
            subst h; subst hsrc
            refine ⟨?_, ?_, ?_⟩
            · simp only [List.length_append, List.length_cons, List.length_nil, DecodedLen] at i1 ⊢
              omega
            · intro b hbm
              rcases List.mem_append.1 hbm with hbm | hbm
              · exact hb256 b hbm
              · exact i2 b hbm
            · intro hlenEq hrem hlast
              simp only [List.cons_append, List.nil_append] at hlenEq hrem hlast ⊢
              rw [b32Encode_cons5, henc] at hlast ⊢
              simp only [List.cons_append, List.nil_append] at hlast ⊢
              simp only [List.length_append, List.length_cons, List.length_nil,
                DecodedLen] at hlenEq hrem i1
              have hr : b32Encode tl = rest := by
                apply i3
                · simp only [DecodedLen]; omega
                · omega
                · intro h5
                  have hne : rest ≠ [] := by
                    intro e
                    subst e
                    rw [decodeLoop_nil] at htl
                    simp only [Option.some.injEq] at htl
                    subst htl
                    simp at h5
                  have hpos : 0 < rest.length := List.length_pos.2 hne
                  have hl := hlast (by
                    simp only [List.length_append, List.length_cons, List.length_nil]; omega)
                  have e1 : (c0 :: c1 :: c2 :: c3 :: c4 :: c5 :: c6 :: c7 :: rest).length - 1
                      = (rest.length - 1) + 8 := by
                    simp only [List.length_cons]; omega
                  rw [e1, getD_cons_eight, getD_cons_eight] at hl
                  exact hl
              rw [hr]
        · -- the input ends inside the quantum
          subst hf; subst hrest; subst hsrc
          simp only [if_true, Option.some.injEq] at h
          subst h
          rw [hout]
          have hcnt := quantumBytes_length (List.map decodeMap s)
          have hb256 := quantumBytes_lt _ hd32
          rw [List.length_map] at hcnt
          refine ⟨?_, hb256, ?_⟩
          · rw [hcnt]; unfold quantumCount DecodedLen
            split_ifs <;> omega
          · intro hlenEq hrem hlast
            rw [hcnt] at hlenEq hlast
            rcases s with _ | ⟨c0, _ | ⟨c1, _ | ⟨c2, _ | ⟨c3, _ | ⟨c4, _ | ⟨c5, _ | ⟨c6, _ | ⟨c7, t⟩⟩⟩⟩⟩⟩⟩⟩
            · exact absurd rfl hs
            · simp at hrem
            · exact quantum_short2 c0 c1 hcs (by simpa [quantumCount] using hlast)
            · exact absurd hlenEq (show ¬ (quantumCount 3 = DecodedLen 3) by decide)
            · exact quantum_short4 c0 c1 c2 c3 hcs (by simpa [quantumCount] using hlast)
            · exact quantum_short5 c0 c1 c2 c3 c4 hcs (by simpa [quantumCount] using hlast)
            · exact absurd hlenEq (show ¬ (quantumCount 6 = DecodedLen 6) by decide)
            · exact quantum_short7 c0 c1 c2 c3 c4 c5 c6 hcs (by simpa [quantumCount] using hlast)
            · simp only [List.length_cons] at hlen; omega
        · -- a 0xFF byte taken for padding ends the quantum
          subst hf
          simp only [if_true, Option.some.injEq] at h
          subst h
          rw [hout]
          have hcnt := quantumBytes_length (List.map decodeMap cs)
          have hb256 := quantumBytes_lt _ hd32
          rw [List.length_map] at hcnt
          have hlt : quantumCount cs.length < DecodedLen s.length := by
            rw [hsrc]
            simp only [List.length_append, List.length_cons, DecodedLen]
            unfold quantumCount
            split_ifs <;> omega
          refine ⟨?_, hb256, ?_⟩
          · rw [hcnt]; exact le_of_lt hlt
          · intro hlenEq
            rw [hcnt] at hlenEq
            omega

/-! ### Decoding an encoding -/

theorem blocksArith_lt (s0 s1 s2 s3 s4 : Nat) (h0 : s0 < 256) (h1 : s1 < 256) (h2 : s2 < 256)
    (h3 : s3 < 256) (h4 : s4 < 256) : ∀ d ∈ blocksArith s0 s1 s2 s3 s4, d < 32 := by
  intro d hd
  simp only [blocksArith, List.mem_cons, List.mem_singleton, List.not_mem_nil, or_false] at hd
  rcases hd with rfl | rfl | rfl | rfl | rfl | rfl | rfl | rfl <;> omega

theorem encodeBlocks_lt (src : List Nat) (h : ∀ b ∈ src, b < 256) :
    ∀ d ∈ encodeBlocks src, d < 32 := by
  have g := getD_lt_of_forall src 256 h (by norm_num)
  rw [encodeBlocks_eq src h]
  exact blocksArith_lt _ _ _ _ _ (g 0) (g 1) (g 2) (g 3) (g 4)

theorem decodeMap_map_encodeChar (ds : List Nat) (h : ∀ d ∈ ds, d < 32) :
    (ds.map encodeChar).map decodeMap = ds := by
  induction ds with
  | nil => rfl
  | cons d t ih =>
    simp only [List.map_cons]
    rw [decodeMap_encodeChar d (h d (by simp)), ih (fun x hx => h x (List.mem_cons_of_mem _ hx))]

theorem encodeChar_valid (d : Nat) (h : d < 32) : decodeMap (encodeChar d) ≠ 0xFF := by
  rw [decodeMap_encodeChar d h]; omega

theorem readQuantum_run : ∀ (ds : List Nat) (fuel : Nat) (rest dbuf : List Nat),
    (∀ d ∈ ds, d < 32) → ds.length = fuel →
    readQuantum fuel (ds.map encodeChar ++ rest) dbuf = some (dbuf ++ ds, rest, false) := by
  intro ds
  induction ds with
  | nil =>
    intro fuel rest dbuf _ hl
    simp only [List.length_nil] at hl
    subst hl
    simp [readQuantum]
  | cons d t ih =>
    intro fuel rest dbuf h hl
    simp only [List.length_cons] at hl
    subst hl
    simp only [List.map_cons, List.cons_append]
    rw [readQuantum_valid _ _ _ _ (encodeChar_valid d (h d (by simp))),
      decodeMap_encodeChar d (h d (by simp)),
      ih _ rest _ (fun x hx => h x (List.mem_cons_of_mem _ hx)) rfl]
    simp

theorem readQuantum_stop : ∀ (ds : List Nat) (fuel : Nat) (dbuf : List Nat),
    (∀ d ∈ ds, d < 32) → ds.length < fuel →
    readQuantum fuel (ds.map encodeChar) dbuf = some (dbuf ++ ds, [], true) := by
  intro ds
  induction ds with
  | nil =>
    intro fuel dbuf _ hl
    cases fuel with
    | zero => simp at hl
    | succ f => simp [readQuantum]
  | cons d t ih =>
    intro fuel dbuf h hl
    cases fuel with
    | zero => simp at hl
    | succ f =>
      simp only [List.length_cons, Nat.add_lt_add_iff_right] at hl
      simp only [List.map_cons]
      rw [readQuantum_valid _ _ _ _ (encodeChar_valid d (h d (by simp))),
        decodeMap_encodeChar d (h d (by simp)),
        ih _ _ (fun x hx => h x (List.mem_cons_of_mem _ hx)) hl]
      simp

theorem quantumBytes_encodeBlocks (s0 s1 s2 s3 s4 : Nat) (h0 : s0 < 256) (h1 : s1 < 256)
    (h2 : s2 < 256) (h3 : s3 < 256) (h4 : s4 < 256) :
    quantumBytes (encodeBlocks [s0, s1, s2, s3, s4]) = [s0, s1, s2, s3, s4] := by
  have hs : ∀ b ∈ [s0, s1, s2, s3, s4], b < 256 := by
    intro b hb
    simp only [List.mem_cons, List.mem_singleton, List.not_mem_nil, or_false] at hb
    rcases hb with rfl | rfl | rfl | rfl | rfl <;> assumption
  rw [quantumBytes_eq _ (encodeBlocks_lt _ hs), encodeBlocks_eq _ hs]
  simp only [blocksArith, bytesArith, quantumCount, List.getD_cons_zero, List.getD_cons_succ,
    List.length_cons, List.length_nil]
  have e0 : s0 / 8 * 8 + (s0 % 8 * 4 + s1 / 64) / 4 = s0 := by omega
  have e1 : (s0 % 8 * 4 + s1 / 64) % 4 * 64 + s1 / 2 % 32 * 2 + (s1 % 2 * 16 + s2 / 16) / 16
      = s1 := by omega
  have e2 : (s1 % 2 * 16 + s2 / 16) % 16 * 16 + (s2 % 16 * 2 + s3 / 128) / 2 = s2 := by omega
  have e3 : (s2 % 16 * 2 + s3 / 128) % 2 * 128 + s3 / 4 % 32 * 4 + (s3 % 4 * 8 + s4 / 32) / 8
      = s3 := by omega
  have e4 : (s3 % 4 * 8 + s4 / 32) % 8 * 32 + s4 % 32 = s4 := by omega
  rw [e0, e1, e2, e3, e4]
  rfl

theorem quantumBytes_encodeBlocks_short (src : List Nat) (h : ∀ b ∈ src, b < 256)
    (hl : src.length < 5) :
    quantumBytes ((encodeBlocks src).take (EncodedLen src.length)) = src := by
  have hlt32 : ∀ d ∈ (encodeBlocks src).take (EncodedLen src.length), d < 32 :=
    fun d hd => encodeBlocks_lt src h d (List.mem_of_mem_take hd)
  rw [quantumBytes_eq _ hlt32]
  rw [encodeBlocks_eq src h] at hlt32 ⊢
  rcases src with _ | ⟨s0, _ | ⟨s1, _ | ⟨s2, _ | ⟨s3, _ | ⟨s4, t⟩⟩⟩⟩⟩
  · rfl
  · have h0 : s0 < 256 := h s0 (by simp)
    simp only [blocksArith, bytesArith, quantumCount, EncodedLen, List.getD_cons_zero,
      List.getD_cons_succ, List.getD_nil, List.length_cons, List.length_nil, Nat.reduceAdd,
      Nat.reduceMul, Nat.reduceDiv, List.take_succ_cons, List.take_zero, Nat.reduceEqDiff,
      if_true, if_false, List.cons.injEq, and_true]
    omega
  · have h0 : s0 < 256 := h s0 (by simp)
    have h1 : s1 < 256 := h s1 (by simp)
    simp only [blocksArith, bytesArith, quantumCount, EncodedLen, List.getD_cons_zero,
      List.getD_cons_succ, List.getD_nil, List.length_cons, List.length_nil, Nat.reduceAdd,
      Nat.reduceMul, Nat.reduceDiv, List.take_succ_cons, List.take_zero, Nat.reduceEqDiff,
      if_true, if_false, List.cons.injEq, and_true]
    omega
  · have h0 : s0 < 256 := h s0 (by simp)
    have h1 : s1 < 256 := h s1 (by simp)
    have h2 : s2 < 256 := h s2 (by simp)
    simp only [blocksArith, bytesArith, quantumCount, EncodedLen, List.getD_cons_zero,
      List.getD_cons_succ, List.getD_nil, List.length_cons, List.length_nil, Nat.reduceAdd,
      Nat.reduceMul, Nat.reduceDiv, List.take_succ_cons, List.take_zero, Nat.reduceEqDiff,
      if_true, if_false, List.cons.injEq, and_true]
    omega
  · have h0 : s0 < 256 := h s0 (by simp)
    have h1 : s1 < 256 := h s1 (by simp)
    have h2 : s2 < 256 := h s2 (by simp)
    have h3 : s3 < 256 := h s3 (by simp)
    simp only [blocksArith, bytesArith, quantumCount, EncodedLen, List.getD_cons_zero,
      List.getD_cons_succ, List.getD_nil, List.length_cons, List.length_nil, Nat.reduceAdd,
      Nat.reduceMul, Nat.reduceDiv, List.take_succ_cons, List.take_zero, Nat.reduceEqDiff,
      if_true, if_false, List.cons.injEq, and_true]
    omega
  · simp only [List.length_cons] at hl; omega

theorem b32Encode_length : ∀ (n : Nat) (bin : List Nat), bin.length ≤ n →
    (b32Encode bin).length = EncodedLen bin.length := by
  intro n
  induction n with
  | zero =>
    intro bin h
    have : bin = [] := List.length_eq_zero.1 (by omega)
    subst this; rfl
  | succ n ih =>
    intro bin h
    by_cases h5 : bin.length < 5
    · rw [b32Encode_short bin h5, List.length_take, List.length_map]
      have h8 : (encodeBlocks bin).length = 8 := rfl
      rw [h8]; unfold EncodedLen; omega
    rcases bin with _ | ⟨s0, _ | ⟨s1, _ | ⟨s2, _ | ⟨s3, _ | ⟨s4, t⟩⟩⟩⟩⟩
    · simp at h5
    · simp at h5
    · simp at h5
    · simp at h5
    · simp at h5
    · rw [b32Encode_cons5]
      simp only [List.length_cons] at h
      have := ih t (by omega)
      simp only [List.length_append, List.length_map, this, encodeBlocks, List.length_cons,
        List.length_nil, EncodedLen]
      omega

theorem decodeLoop_encode : ∀ (n : Nat) (bin : List Nat), bin.length ≤ n →
    (∀ b ∈ bin, b < 256) → ∀ fuel, (b32Encode bin).length ≤ fuel →
    decodeLoop fuel (b32Encode bin) = some bin := by
  intro n
  induction n with
  | zero =>
    intro bin h _ fuel _
    have : bin = [] := List.length_eq_zero.1 (by omega)
    subst this
    exact decodeLoop_nil fuel
  | succ n ih =>
    intro bin h hb fuel hf
    by_cases h5 : bin.length < 5
    · by_cases h0 : bin = []
      · subst h0; exact decodeLoop_nil fuel
      · have hlen := b32Encode_length _ bin (le_refl _)
        have hpos : 0 < bin.length := List.length_pos.2 h0
        have hE : 0 < EncodedLen bin.length ∧ EncodedLen bin.length < 8 := by
          unfold EncodedLen; omega
        rw [b32Encode_short bin h5] at hf ⊢
        rw [← List.map_take] at hf ⊢
        have h8 : (encodeBlocks bin).length = 8 := rfl
        have hne : List.map encodeChar ((encodeBlocks bin).take (EncodedLen bin.length)) ≠ [] := by
          intro e
          have := congrArg List.length e
          rw [List.length_map, List.length_take, h8] at this
          simp only [List.length_nil] at this
          omega
        have hd : ∀ d ∈ (encodeBlocks bin).take (EncodedLen bin.length), d < 32 :=
          fun d hd => encodeBlocks_lt bin hb d (List.mem_of_mem_take hd)
        have hl8 : ((encodeBlocks bin).take (EncodedLen bin.length)).length < 8 := by
          rw [List.length_take]; omega
        cases fuel with
        | zero =>
          exact absurd (List.length_eq_zero.1 (by omega)) hne
        | succ f =>
          unfold decodeLoop
          rw [if_neg hne, readQuantum_stop _ 8 [] hd hl8]
          simp only [List.nil_append, if_true]
          rw [quantumBytes_encodeBlocks_short bin hb h5]
    · rcases bin with _ | ⟨s0, _ | ⟨s1, _ | ⟨s2, _ | ⟨s3, _ | ⟨s4, t⟩⟩⟩⟩⟩
      · simp at h5
      · simp at h5
      · simp at h5
      · simp at h5
      · simp at h5
      · have h0 : s0 < 256 := hb s0 (by simp)
        have h1 : s1 < 256 := hb s1 (by simp)
        have h2 : s2 < 256 := hb s2 (by simp)
        have h3 : s3 < 256 := hb s3 (by simp)
        have h4 : s4 < 256 := hb s4 (by simp)
        have hs : ∀ b ∈ [s0, s1, s2, s3, s4], b < 256 := by
          intro b hb
          simp only [List.mem_cons, List.mem_singleton, List.not_mem_nil, or_false] at hb
          rcases hb with rfl | rfl | rfl | rfl | rfl <;> assumption
        have ht : ∀ b ∈ t, b < 256 := fun b hbt => hb b (by simp [hbt])
        rw [b32Encode_cons5] at hf ⊢
        simp only [List.length_cons] at h
        have hlen8 : (encodeBlocks [s0, s1, s2, s3, s4]).length = 8 := rfl
        simp only [List.length_append, List.length_map, hlen8] at hf
        cases fuel with
        | zero => omega
        | succ f =>
          have hne : List.map encodeChar (encodeBlocks [s0, s1, s2, s3, s4]) ++ b32Encode t ≠ [] := by
            intro e
            have := congrArg List.length e
            simp only [List.length_append, List.length_map, hlen8, List.length_nil] at this
            omega
          unfold decodeLoop
          rw [if_neg hne, readQuantum_run _ 8 _ [] (encodeBlocks_lt _ hs) hlen8]
          simp only [List.nil_append, Bool.false_eq_true, if_false]
          rw [ih t (by omega) ht f (by omega), quantumBytes_encodeBlocks s0 s1 s2 s3 s4 h0 h1 h2 h3 h4]
          rfl

/-! ### Encode and Decode -/

theorem encodeChar_mem (v : Nat) : encodeChar v ∈ encodeStd := by
  have h : ∀ w, w < 32 → encodeStd.getD w 0 ∈ encodeStd := by decide
  unfold encodeChar
  rw [and_31]
  exact h _ (Nat.mod_lt _ (by norm_num))

theorem b32Encode_mem : ∀ (n : Nat) (bin : List Nat), bin.length ≤ n →
    ∀ c ∈ b32Encode bin, c ∈ encodeStd := by
  intro n
  induction n with
  | zero =>
    intro bin h c hc
    have : bin = [] := List.length_eq_zero.1 (by omega)
    subst this
    exact absurd hc (by rw [show b32Encode [] = [] from rfl]; simp)
  | succ n ih =>
    intro bin h c hc
    by_cases h5 : bin.length < 5
    · rw [b32Encode_short bin h5] at hc
      obtain ⟨v, _, rfl⟩ := List.mem_map.1 (List.mem_of_mem_take hc)
      exact encodeChar_mem v
    · rcases bin with _ | ⟨s0, _ | ⟨s1, _ | ⟨s2, _ | ⟨s3, _ | ⟨s4, t⟩⟩⟩⟩⟩
      · simp at h5
      · simp at h5
      · simp at h5
      · simp at h5
      · simp at h5
      · rw [b32Encode_cons5] at hc
        simp only [List.length_cons] at h
        rcases List.mem_append.1 hc with hc | hc
        · obtain ⟨v, _, rfl⟩ := List.mem_map.1 hc
          exact encodeChar_mem v
        · exact ih t (by omega) c hc

theorem stripNewlines_eq_self (s : List Nat) (h : ∀ c ∈ s, c ∈ encodeStd) :
    stripNewlines s = s := by
  unfold stripNewlines
  rw [List.filter_eq_self]
  intro c hc
  have : ∀ x ∈ encodeStd, (!(x == 13 || x == 10)) = true := by decide
  exact this c (h c hc)

theorem stripNewlines_length_le (s : List Nat) : (stripNewlines s).length ≤ s.length :=
  List.length_filter_le _ _

theorem stripNewlines_eq_of_length (s : List Nat) (h : (stripNewlines s).length = s.length) :
    stripNewlines s = s :=
  List.Sublist.eq_of_length (List.filter_sublist s) h

/-- Decode undoes EncodeToString on every byte string. -/
theorem b32Decode_encode (bin : List Nat) (hb : ∀ b ∈ bin, b < 256) :
    b32Decode (b32Encode bin) = some bin := by
  unfold b32Decode
  rw [stripNewlines_eq_self _ (b32Encode_mem _ bin (le_refl _))]
  exact decodeLoop_encode _ bin (le_refl _) hb _ (le_refl _)

theorem decodedLen_strict (n m b : Nat) (hm : m ≤ n) (h1 : b ≤ DecodedLen m)
    (h2 : b = DecodedLen n) (hrem : ¬ (n % 8 = 1 ∨ n % 8 = 3 ∨ n % 8 = 6)) : m = n := by
  unfold DecodedLen at h1 h2
  by_contra hne
  have hlt : m ≤ n - 1 := by omega
  have hmono : m * 5 / 8 ≤ (n - 1) * 5 / 8 := Nat.div_le_div_right (Nat.mul_le_mul_right 5 hlt)
  have hb : n * 5 / 8 ≤ (n - 1) * 5 / 8 := by omega
  have hpos : 0 < n := by omega
  clear h1 h2 hmono hlt hm
  have hr : n % 8 = 0 ∨ n % 8 = 2 ∨ n % 8 = 4 ∨ n % 8 = 5 ∨ n % 8 = 7 := by omega
  obtain ⟨q, hq⟩ : ∃ q, q = n / 8 := ⟨_, rfl⟩
  rcases hr with hr | hr | hr | hr | hr
  · have hn : n = 8 * q := by omega
    subst hn
    have e1 : 8 * q * 5 / 8 = 5 * q := by omega
    have e2 : (8 * q - 1) * 5 / 8 < 5 * q := by
      apply Nat.div_lt_of_lt_mul; omega
    omega
  · have hn : n = 8 * q + 2 := by omega
    subst hn
    have e1 : (8 * q + 2) * 5 / 8 = 5 * q + 1 := by omega
    have e2 : (8 * q + 2 - 1) * 5 / 8 < 5 * q + 1 := by
      apply Nat.div_lt_of_lt_mul; omega
    omega
  · have hn : n = 8 * q + 4 := by omega
    subst hn
    have e1 : (8 * q + 4) * 5 / 8 = 5 * q + 2 := by omega
    have e2 : (8 * q + 4 - 1) * 5 / 8 < 5 * q + 2 := by
      apply Nat.div_lt_of_lt_mul; omega
    omega
  · have hn : n = 8 * q + 5 := by omega
    subst hn
    have e1 : (8 * q + 5) * 5 / 8 = 5 * q + 3 := by omega
    have e2 : (8 * q + 5 - 1) * 5 / 8 < 5 * q + 3 := by
      apply Nat.div_lt_of_lt_mul; omega
    omega
  · have hn : n = 8 * q + 7 := by omega
    subst hn
    have e1 : (8 * q + 7) * 5 / 8 = 5 * q + 4 := by omega
    have e2 : (8 * q + 7 - 1) * 5 / 8 < 5 * q + 4 := by
      apply Nat.div_lt_of_lt_mul; omega
    omega

/-- An input that `Decode` turns into a full `DecodedLen` buffer, whose length is a possible
encoded length and whose last character survives re-encoding, is the encoding of its bytes. -/
theorem b32Decode_canonical (s bin : List Nat) (h : b32Decode s = some bin)
    (hlen : bin.length = DecodedLen s.length)
    (hrem : ¬ (s.length % 8 = 1 ∨ s.length % 8 = 3 ∨ s.length % 8 = 6))
    (hlast : bin.length % 5 ≠ 0 →
      s.getD (s.length - 1) 0 = (b32Encode bin).getD (s.length - 1) 0) :
    b32Encode bin = s ∧ ∀ b ∈ bin, b < 256 := by
  unfold b32Decode at h
  obtain ⟨i1, i2, i3⟩ := decodeLoop_spec _ _ _ h
  have hle := stripNewlines_length_le s
  have heq : (stripNewlines s).length = s.length :=
    decodedLen_strict _ _ _ hle i1 hlen hrem
  have hs := stripNewlines_eq_of_length s heq
  rw [hs] at i3
  exact ⟨i3 hlen (by omega) hlast, i2⟩

/-! ### ToStrKey and FromStrKey -/

theorem crc16step_lt (crc b : Nat) (hc : crc < 65536) : crc16step crc b < 65536 := by
  rw [crc16step_eq crc b hc]
  cases h : (8 : Nat) with
  | zero => omega
  | succ k => rw [Function.iterate_succ_apply']; exact crcShift_lt _

theorem crc16_lt (data : List Nat) : crc16 data < 65536 := by
  unfold crc16
  have : ∀ (l : List Nat) (c : Nat), c < 65536 → l.foldl crc16step c < 65536 := by
    intro l
    induction l with
    | nil => intro c hc; simpa using hc
    | cons b t ih => intro c hc; exact ih _ (crc16step_lt c b hc)
  exact this data 0 (by norm_num)

theorem or_shift8_mod (a b : Nat) (ha : a < 256) : (a ||| (b <<< 8)) % 256 = a := by
  rw [Nat.or_comm, Nat.shiftLeft_eq, or_eq_add_of_shape 8 b a _ (by ring) (by omega)]
  omega

theorem or_shift8_div (a b : Nat) (ha : a < 256) (hb : b < 256) :
    ((a ||| (b <<< 8)) >>> 8) % 256 = b := by
  rw [Nat.or_comm, Nat.shiftLeft_eq, or_eq_add_of_shape 8 b a _ (by ring) (by omega),
    Nat.shiftRight_eq_div_pow]
  omega

theorem or_shift8_eq (c : Nat) : (c % 256) ||| (((c >>> 8) % 256) <<< 8) = c % 65536 := by
  rw [Nat.or_comm, Nat.shiftLeft_eq, Nat.shiftRight_eq_div_pow,
    or_eq_add_of_shape 8 ((c / 2 ^ 8) % 256) (c % 256) _ (by ring) (by omega)]
  omega

theorem list_split_last_two (l : List Nat) (h : 2 ≤ l.length) :
    l.take (l.length - 2) ++ [l.getD (l.length - 2) 0, l.getD (l.length - 1) 0] = l := by
  have hd : l.drop (l.length - 2) = [l.getD (l.length - 2) 0, l.getD (l.length - 1) 0] := by
    apply List.ext_getElem
    · simp only [List.length_drop, List.length_cons, List.length_nil]; omega
    · intro i h1 h2
      simp only [List.length_cons, List.length_nil] at h2
      rw [List.getElem_drop]
      have hi : i = 0 ∨ i = 1 := by omega
      rcases hi with rfl | rfl
      · simp only [List.getElem_cons_zero, Nat.add_zero]
        rw [List.getD_eq_getElem _ _ (by omega)]
      · simp only [List.getElem_cons_succ, List.getElem_cons_zero]
        have e : l.length - 2 + 1 = l.length - 1 := by omega
        simp only [e]
        rw [List.getD_eq_getElem _ _ (by omega)]
  rw [← hd, List.take_append_drop]

theorem list_head_drop (l : List Nat) (h : 0 < l.length) : l.getD 0 0 :: l.drop 1 = l := by
  cases l with
  | nil => simp at h
  | cons a t => rfl

theorem encodedLen_facts (n : Nat) :
    DecodedLen (EncodedLen n) = n ∧
      ¬ (EncodedLen n % 8 = 1 ∨ EncodedLen n % 8 = 3 ∨ EncodedLen n % 8 = 6) := by
  unfold DecodedLen EncodedLen
  obtain ⟨q, hq⟩ : ∃ q, q = n / 5 := ⟨_, rfl⟩
  have hr : n % 5 = 0 ∨ n % 5 = 1 ∨ n % 5 = 2 ∨ n % 5 = 3 ∨ n % 5 = 4 := by omega
  rcases hr with hr | hr | hr | hr | hr
  · have hn : n = 5 * q := by omega
    subst hn
    have e1 : (5 * q * 8 + 4) / 5 = 8 * q := by omega
    rw [e1]; omega
  · have hn : n = 5 * q + 1 := by omega
    subst hn
    have e1 : ((5 * q + 1) * 8 + 4) / 5 = 8 * q + 2 := by omega
    rw [e1]; omega
  · have hn : n = 5 * q + 2 := by omega
    subst hn
    have e1 : ((5 * q + 2) * 8 + 4) / 5 = 8 * q + 4 := by omega
    rw [e1]; omega
  · have hn : n = 5 * q + 3 := by omega
    subst hn
    have e1 : ((5 * q + 3) * 8 + 4) / 5 = 8 * q + 5 := by omega
    rw [e1]; omega
  · have hn : n = 5 * q + 4 := by omega
    subst hn
    have e1 : ((5 * q + 4) * 8 + 4) / 5 = 8 * q + 7 := by omega
    rw [e1]; omega

/-- The successful path of `FromStrKey`, read off its code. -/
theorem FromStrKey_ok (s p : List Nat) (v : Nat) (h : FromStrKey s = (p, v))
    (hv : v ≠ STRKEY_ERROR) :
    ∃ (bin : List Nat) (targetlen : Int),
      ¬ (s.length % 8 = 1 ∨ s.length % 8 = 3 ∨ s.length % 8 = 6) ∧
      b32Decode s = some bin ∧ bin.length = DecodedLen s.length ∧ 3 ≤ bin.length ∧
      payloadLen (bin.getD 0 0) = some targetlen ∧
      (targetlen = -1 ∨ targetlen = (bin.length : Int) - 3) ∧
      (bin.getD (bin.length - 2) 0 ||| (bin.getD (bin.length - 1) 0 <<< 8))
        = crc16 (bin.take (bin.length - 2)) ∧
      (bin.length % 5 ≠ 0 →
        s.getD (s.length - 1) 0 = (b32Encode bin).getD (s.length - 1) 0) ∧
      p = (bin.take (bin.length - 2)).drop 1 ∧ v = bin.getD 0 0 := by
  have herr : ∀ {P : Prop}, (([] : List Nat), STRKEY_ERROR) = (p, v) → P := by
    intro P e
    exact absurd (congrArg Prod.snd e).symm hv
  unfold FromStrKey at h
  simp only at h
  split at h
  · exact herr h
  · rename_i hrem
    split at h
    · exact herr h
    · rename_i bin hdec
      split at h
      · exact herr h
      · rename_i hn
        split at h
        · exact herr h
        · rename_i targetlen hpl
          split at h
          · exact herr h
          · rename_i htl
            split at h
            · exact herr h
            · rename_i hcrc
              split at h
              · exact herr h
              · rename_i hlast
                simp only [Prod.mk.injEq] at h
                refine ⟨bin, targetlen, hrem, hdec, ?_, ?_, hpl, ?_, ?_, ?_, h.1.symm, h.2.symm⟩
                · by_contra c; exact hn (Or.inl c)
                · by_contra c; exact hn (Or.inr (by omega))
                · by_contra c
                  apply htl
                  exact ⟨fun e => c (Or.inl e), fun e => c (Or.inr e)⟩
                · by_contra c; exact hcrc c
                · intro h5
                  by_contra c
                  exact hlast ⟨h5, c⟩

/-- The value of `FromStrKey` on the encoding of a byte string that passes its checks. -/
theorem FromStrKey_encode (bin : List Nat) (targetlen : Int) (hb : ∀ b ∈ bin, b < 256)
    (h3 : 3 ≤ bin.length) (hpl : payloadLen (bin.getD 0 0) = some targetlen)
    (htl : targetlen = -1 ∨ targetlen = (bin.length : Int) - 3)
    (hcrc : (bin.getD (bin.length - 2) 0 ||| (bin.getD (bin.length - 1) 0 <<< 8))
        = crc16 (bin.take (bin.length - 2))) :
    FromStrKey (b32Encode bin) = ((bin.take (bin.length - 2)).drop 1, bin.getD 0 0) := by
  have hlen := b32Encode_length _ bin (le_refl _)
  obtain ⟨f1, f2⟩ := encodedLen_facts bin.length
  unfold FromStrKey
  simp only
  rw [hlen, if_neg f2, b32Decode_encode bin hb]
  simp only
  rw [f1, if_neg (by omega), hpl]
  simp only
  rw [if_neg (by
    intro c
    rcases htl with e | e
    · exact c.1 e
    · exact c.2 e), if_neg (by intro c; exact c hcrc), if_neg (by intro c; exact c.2 rfl)]

theorem payloadLen_lt (v : Nat) (t : Int) (h : payloadLen v = some t) : v < 256 := by
  unfold payloadLen at h
  split at h
  · rename_i e; rw [e]; decide
  · split at h
    · rename_i e; rw [e]; decide
    · split at h
      · rename_i e; rw [e]; decide
      · split at h
        · rename_i e; rw [e]; decide
        · split at h
          · rename_i e; rw [e]; decide
          · split at h
            · rename_i e; rw [e]; decide
            · exact absurd h (by simp)

theorem strkey_bytes (v : Nat) (p : List Nat) :
    let sum := crc16 (v :: p)
    let bin := (v :: p) ++ [sum % 256, (sum >>> 8) % 256]
    bin.length = p.length + 3 ∧ bin.getD 0 0 = v ∧ bin.take (bin.length - 2) = v :: p ∧
      bin.getD (bin.length - 2) 0 = sum % 256 ∧ bin.getD (bin.length - 1) 0 = (sum >>> 8) % 256 := by
  intro sum bin
  have hl : bin.length = p.length + 3 := by simp [bin]
  have hvp : (v :: p).length = p.length + 1 := by simp
  refine ⟨hl, rfl, ?_, ?_, ?_⟩
  · rw [hl]
    show List.take (p.length + 3 - 2) ((v :: p) ++ [sum % 256, (sum >>> 8) % 256]) = v :: p
    rw [List.take_append_of_le_length (by rw [hvp]; omega), List.take_of_length_le (by rw [hvp]; omega)]
  · rw [hl]
    show List.getD ((v :: p) ++ [sum % 256, (sum >>> 8) % 256]) (p.length + 3 - 2) 0 = _
    rw [List.getD_append_right _ _ _ _ (by rw [hvp]; omega)]
    have : p.length + 3 - 2 - (v :: p).length = 0 := by rw [hvp]; omega
    rw [this]; rfl
  · rw [hl]
    show List.getD ((v :: p) ++ [sum % 256, (sum >>> 8) % 256]) (p.length + 3 - 1) 0 = _
    rw [List.getD_append_right _ _ _ _ (by rw [hvp]; omega)]
    have : p.length + 3 - 1 - (v :: p).length = 1 := by rw [hvp]; omega
    rw [this]; rfl

theorem ToStrKey_eq_encode (v : Nat) (p : List Nat) :
    ToStrKey v p
      = b32Encode ((v :: p) ++ [crc16 (v :: p) % 256, (crc16 (v :: p) >>> 8) % 256]) := rfl

/-- The round trip through `ToStrKey` and `FromStrKey` for a version byte known to `payloadLen`
with a payload of an admitted length. -/
theorem FromStrKey_ToStrKey_of_payloadLen (v : Nat) (p : List Nat) (targetlen : Int)
    (hp : ∀ b ∈ p, b < 256) (hpl : payloadLen v = some targetlen)
    (htl : targetlen = -1 ∨ targetlen = (p.length : Int)) :
    FromStrKey (ToStrKey v p) = (p, v) := by
  obtain ⟨hl, h0, htake, hlo, hhi⟩ := strkey_bytes v p
  have hv : v < 256 := payloadLen_lt v targetlen hpl
  rw [ToStrKey_eq_encode, FromStrKey_encode _ targetlen ?_ (by omega) (by rw [h0]; exact hpl)
    (by rw [hl]; rcases htl with e | e
        · exact Or.inl e
        · right; rw [e]; push_cast; ring) ?_]
  · rw [htake, h0]; rfl
  · intro b hb
    rcases List.mem_append.1 hb with hb | hb
    · rcases List.mem_cons.1 hb with rfl | hb
      · exact hv
      · exact hp b hb
    · simp only [List.mem_cons, List.mem_singleton, List.not_mem_nil, or_false] at hb
      rcases hb with rfl | rfl <;> exact Nat.mod_lt _ (by norm_num)
  · rw [htake, hlo, hhi, or_shift8_eq]
    exact Nat.mod_eq_of_lt (crc16_lt _)

/-- C1: for every recognized version byte and every payload of the length declared for it (any
length for signed-payload), FromStrKey (ToStrKey v p) returns exactly (p, v). -/
theorem FromStrKey_ToStrKey (v : Nat) (p : List Nat) (hp : ∀ b ∈ p, b < 256)
    (hv : (v = STRKEY_PUBKEY ||| STRKEY_ALG_ED25519 ∧ p.length = 32) ∨
          (v = STRKEY_MUXED ||| STRKEY_ALG_ED25519 ∧ p.length = 40) ∨
          (v = STRKEY_PRIVKEY ||| STRKEY_ALG_ED25519 ∧ p.length = 32) ∨
          (v = STRKEY_PRE_AUTH_TX ∧ p.length = 32) ∨
          (v = STRKEY_HASH_X ∧ p.length = 32) ∨
          v = STRKEY_SIGNED_PAYLOAD) :
    FromStrKey (ToStrKey v p) = (p, v) := by
  rcases hv with ⟨rfl, hl⟩ | ⟨rfl, hl⟩ | ⟨rfl, hl⟩ | ⟨rfl, hl⟩ | ⟨rfl, hl⟩ | rfl
  · exact FromStrKey_ToStrKey_of_payloadLen _ p 32 hp rfl (Or.inr (by rw [hl]; rfl))
  · exact FromStrKey_ToStrKey_of_payloadLen _ p 40 hp rfl (Or.inr (by rw [hl]; rfl))
  · exact FromStrKey_ToStrKey_of_payloadLen _ p 32 hp rfl (Or.inr (by rw [hl]; rfl))
  · exact FromStrKey_ToStrKey_of_payloadLen _ p 32 hp rfl (Or.inr (by rw [hl]; rfl))
  · exact FromStrKey_ToStrKey_of_payloadLen _ p 32 hp rfl (Or.inr (by rw [hl]; rfl))
  · exact FromStrKey_ToStrKey_of_payloadLen _ p (-1) hp rfl (Or.inl rfl)

/-- Witness for C1: the public-key version byte over 32 zero bytes. -/
theorem FromStrKey_ToStrKey_witness :
    (∀ b ∈ List.replicate 32 0, b < 256) ∧ (List.replicate 32 0).length = 32 ∧
    FromStrKey (ToStrKey (STRKEY_PUBKEY ||| STRKEY_ALG_ED25519) (List.replicate 32 0))
      = (List.replicate 32 0, STRKEY_PUBKEY ||| STRKEY_ALG_ED25519) :=
  ⟨by decide, rfl, FromStrKey_ToStrKey (STRKEY_PUBKEY ||| STRKEY_ALG_ED25519) (List.replicate 32 0)
    (by decide) (Or.inl ⟨rfl, rfl⟩)⟩

/-- C2: FromStrKey accepts only canonical text: whenever it returns a payload p with a version
byte v other than STRKEY_ERROR, the input is byte for byte ToStrKey v p. -/
theorem FromStrKey_canonical (s p : List Nat) (v : Nat) (h : FromStrKey s = (p, v))
    (hv : v ≠ STRKEY_ERROR) : ToStrKey v p = s := by
  obtain ⟨bin, targetlen, hrem, hdec, hlen, h3, _, _, hcrc, hlast, rfl, rfl⟩ :=
    FromStrKey_ok s p v h hv
  obtain ⟨henc, hb⟩ := b32Decode_canonical s bin hdec hlen hrem hlast
  have hhead : bin.getD 0 0 :: (bin.take (bin.length - 2)).drop 1 = bin.take (bin.length - 2) := by
    have := list_head_drop (bin.take (bin.length - 2)) (by rw [List.length_take]; omega)
    rw [← this]
    congr 1
    rw [List.getD_eq_getElem?_getD, List.getD_eq_getElem?_getD, List.getElem?_take_of_lt (by omega)]
  have g := getD_lt_of_forall bin 256 hb (by norm_num)
  rw [ToStrKey_eq_encode, hhead, ← hcrc, or_shift8_mod _ _ (g _), or_shift8_div _ _ (g _) (g _),
    list_split_last_two bin (by omega), henc]

/-- Witness for C2: the signed-payload strkey `PAAQEA4HUY` of the payload 1, 2, 3. -/
theorem FromStrKey_canonical_witness :
    FromStrKey [80, 65, 65, 81, 69, 65, 52, 72, 85, 89] = ([1, 2, 3], 120) ∧ 120 ≠ STRKEY_ERROR ∧
    ToStrKey 120 [1, 2, 3] = [80, 65, 65, 81, 69, 65, 52, 72, 85, 89] :=
  ⟨by decide, by decide,
    FromStrKey_canonical [80, 65, 65, 81, 69, 65, 52, 72, 85, 89] [1, 2, 3] 120 (by decide)
      (by decide)⟩

/-- C5: a version byte other than STRKEY_ERROR returned by FromStrKey is one of the six
recognized ones, and the payload has the length declared for it: 32 bytes for public key (48),
private key (144), pre-auth-tx (152) and hash-x (184), 40 bytes for muxed (96); only
signed-payload (120) admits other lengths. -/
theorem FromStrKey_version_length (s p : List Nat) (v : Nat) (h : FromStrKey s = (p, v))
    (hv : v ≠ STRKEY_ERROR) :
    (v = STRKEY_PUBKEY ||| STRKEY_ALG_ED25519 ∧ v = 48 ∧ p.length = 32) ∨
    (v = STRKEY_MUXED ||| STRKEY_ALG_ED25519 ∧ v = 96 ∧ p.length = 40) ∨
    (v = STRKEY_PRIVKEY ||| STRKEY_ALG_ED25519 ∧ v = 144 ∧ p.length = 32) ∨
    (v = STRKEY_PRE_AUTH_TX ∧ v = 152 ∧ p.length = 32) ∨
    (v = STRKEY_HASH_X ∧ v = 184 ∧ p.length = 32) ∨
    (v = STRKEY_SIGNED_PAYLOAD ∧ v = 120) := by
  obtain ⟨bin, targetlen, _, _, _, h3, hpl, htl, _, _, rfl, rfl⟩ := FromStrKey_ok s p v h hv
  have hpl' : ((bin.take (bin.length - 2)).drop 1).length = bin.length - 3 := by
    rw [List.length_drop, List.length_take]; omega
  rw [hpl']
  unfold payloadLen at hpl
  split at hpl
  · rename_i e
    simp only [Option.some.injEq] at hpl
    subst hpl
    left; refine ⟨e, by rw [e]; rfl, ?_⟩
    rcases htl with c | c
    · exact absurd c (by decide)
    · omega
  · split at hpl
    · rename_i e
      simp only [Option.some.injEq] at hpl
      subst hpl
      right; left; refine ⟨e, by rw [e]; rfl, ?_⟩
      rcases htl with c | c
      · exact absurd c (by decide)
      · omega
    · split at hpl
      · rename_i e
        simp only [Option.some.injEq] at hpl
        subst hpl
        right; right; left; refine ⟨e, by rw [e]; rfl, ?_⟩
        rcases htl with c | c
        · exact absurd c (by decide)
        · omega
      · split at hpl
        · rename_i e
          simp only [Option.some.injEq] at hpl
          subst hpl
          right; right; right; left; refine ⟨e, by rw [e]; rfl, ?_⟩
          rcases htl with c | c
          · exact absurd c (by decide)
          · omega
        · split at hpl
          · rename_i e
            simp only [Option.some.injEq] at hpl
            subst hpl
            right; right; right; right; left; refine ⟨e, by rw [e]; rfl, ?_⟩
            rcases htl with c | c
            · exact absurd c (by decide)
            · omega
          · split at hpl
            · rename_i e
              right; right; right; right; right; exact ⟨e, by rw [e]; rfl⟩
            · exact absurd hpl (by simp)

/-- Witness for C5: the signed-payload strkey `PAAQEA4HUY`. -/
theorem FromStrKey_version_length_witness :
    FromStrKey [80, 65, 65, 81, 69, 65, 52, 72, 85, 89] = ([1, 2, 3], 120) ∧ 120 ≠ STRKEY_ERROR ∧
    ((120 = STRKEY_PUBKEY ||| STRKEY_ALG_ED25519 ∧ 120 = 48 ∧ [1, 2, 3].length = 32) ∨
    (120 = STRKEY_MUXED ||| STRKEY_ALG_ED25519 ∧ 120 = 96 ∧ [1, 2, 3].length = 40) ∨
    (120 = STRKEY_PRIVKEY ||| STRKEY_ALG_ED25519 ∧ 120 = 144 ∧ [1, 2, 3].length = 32) ∨
    (120 = STRKEY_PRE_AUTH_TX ∧ 120 = 152 ∧ [1, 2, 3].length = 32) ∨
    (120 = STRKEY_HASH_X ∧ 120 = 184 ∧ [1, 2, 3].length = 32) ∨
    (120 = STRKEY_SIGNED_PAYLOAD ∧ 120 = 120)) :=
  ⟨by decide, by decide,
    FromStrKey_version_length [80, 65, 65, 81, 69, 65, 52, 72, 85, 89] [1, 2, 3] 120 (by decide)
      (by decide)⟩

/-! ### `EncodeToString` is RFC 4648 base 32 -/

theorem byteBits_eq (b : Nat) :
    byteBits b = [b.testBit 7, b.testBit 6, b.testBit 5, b.testBit 4, b.testBit 3, b.testBit 2,
      b.testBit 1, b.testBit 0] := rfl

theorem base32Letter_eq (v : Nat) (h : v < 32) : base32Letter v = encodeChar v := by
  rw [encodeChar_lt v h]; unfold base32Letter; split <;> omega

theorem bitsValue5 (a b c d e : Bool) :
    bitsValue [a, b, c, d, e] = 16 * a.toNat + 8 * b.toNat + 4 * c.toNat + 2 * d.toNat + e.toNat := by
  simp only [bitsValue, List.foldl_cons, List.foldl_nil]; omega

theorem groups5_cons5 (a b c d e : Bool) (rest : List Bool) :
    groups5 (a :: b :: c :: d :: e :: rest) = [a, b, c, d, e] :: groups5 rest := by
  rw [groups5]

theorem bits_five_bytes (s0 s1 s2 s3 s4 : Nat) (X : List Bool) :
    groups5 (byteBits s0 ++ (byteBits s1 ++ (byteBits s2 ++ (byteBits s3 ++ (byteBits s4 ++ X)))))
      = [s0.testBit 7, s0.testBit 6, s0.testBit 5, s0.testBit 4, s0.testBit 3] ::
        [s0.testBit 2, s0.testBit 1, s0.testBit 0, s1.testBit 7, s1.testBit 6] ::
        [s1.testBit 5, s1.testBit 4, s1.testBit 3, s1.testBit 2, s1.testBit 1] ::
        [s1.testBit 0, s2.testBit 7, s2.testBit 6, s2.testBit 5, s2.testBit 4] ::
        [s2.testBit 3, s2.testBit 2, s2.testBit 1, s2.testBit 0, s3.testBit 7] ::
        [s3.testBit 6, s3.testBit 5, s3.testBit 4, s3.testBit 3, s3.testBit 2] ::
        [s3.testBit 1, s3.testBit 0, s4.testBit 7, s4.testBit 6, s4.testBit 5] ::
        [s4.testBit 4, s4.testBit 3, s4.testBit 2, s4.testBit 1, s4.testBit 0] :: groups5 X := by
  simp only [byteBits_eq, List.cons_append, List.nil_append, groups5_cons5]

theorem letter_of_bits (i4 i3 i2 i1 i0 : Nat) (a4 a3 a2 a1 a0 : Nat) (v : Nat)
    (x4 x3 x2 x1 x0 : Nat)
    (h4 : x4 = a4 / 2 ^ i4 % 2) (h3 : x3 = a3 / 2 ^ i3 % 2) (h2 : x2 = a2 / 2 ^ i2 % 2)
    (h1 : x1 = a1 / 2 ^ i1 % 2) (h0 : x0 = a0 / 2 ^ i0 % 2)
    (hv : 16 * x4 + 8 * x3 + 4 * x2 + 2 * x1 + x0 = v) :
    base32Letter (bitsValue [a4.testBit i4, a3.testBit i3, a2.testBit i2, a1.testBit i1,
      a0.testBit i0]) = encodeChar v := by
  have hlt : v < 32 := by omega
  rw [bitsValue5, Nat.toNat_testBit, Nat.toNat_testBit, Nat.toNat_testBit, Nat.toNat_testBit,
    Nat.toNat_testBit, ← h4, ← h3, ← h2, ← h1, ← h0, hv, base32Letter_eq v hlt]

theorem letter_of_bits_pad1 (i4 i3 i2 i1 : Nat) (a4 a3 a2 a1 : Nat) (v : Nat)
    (x4 x3 x2 x1 : Nat)
    (h4 : x4 = a4 / 2 ^ i4 % 2) (h3 : x3 = a3 / 2 ^ i3 % 2) (h2 : x2 = a2 / 2 ^ i2 % 2)
    (h1 : x1 = a1 / 2 ^ i1 % 2)
    (hv : 16 * x4 + 8 * x3 + 4 * x2 + 2 * x1 = v) :
    base32Letter (bitsValue [a4.testBit i4, a3.testBit i3, a2.testBit i2, a1.testBit i1,
      false]) = encodeChar v := by
  have hlt : v < 32 := by omega
  rw [bitsValue5, Nat.toNat_testBit, Nat.toNat_testBit, Nat.toNat_testBit, Nat.toNat_testBit,
    ← h4, ← h3, ← h2, ← h1]
  simp only [Bool.toNat_false, Nat.mul_zero, Nat.add_zero]
  rw [hv, base32Letter_eq v hlt]

theorem letter_of_bits_pad2 (i4 i3 i2 : Nat) (a4 a3 a2 : Nat) (v : Nat) (x4 x3 x2 : Nat)
    (h4 : x4 = a4 / 2 ^ i4 % 2) (h3 : x3 = a3 / 2 ^ i3 % 2) (h2 : x2 = a2 / 2 ^ i2 % 2)
    (hv : 16 * x4 + 8 * x3 + 4 * x2 = v) :
    base32Letter (bitsValue [a4.testBit i4, a3.testBit i3, a2.testBit i2, false, false])
      = encodeChar v := by
  have hlt : v < 32 := by omega
  rw [bitsValue5, Nat.toNat_testBit, Nat.toNat_testBit, Nat.toNat_testBit, ← h4, ← h3, ← h2]
  simp only [Bool.toNat_false, Nat.mul_zero, Nat.add_zero]
  rw [hv, base32Letter_eq v hlt]

theorem letter_of_bits_pad3 (i4 i3 : Nat) (a4 a3 : Nat) (v : Nat) (x4 x3 : Nat)
    (h4 : x4 = a4 / 2 ^ i4 % 2) (h3 : x3 = a3 / 2 ^ i3 % 2)
    (hv : 16 * x4 + 8 * x3 = v) :
    base32Letter (bitsValue [a4.testBit i4, a3.testBit i3, false, false, false])
      = encodeChar v := by
  have hlt : v < 32 := by omega
  rw [bitsValue5, Nat.toNat_testBit, Nat.toNat_testBit, ← h4, ← h3]
  simp only [Bool.toNat_false, Nat.mul_zero, Nat.add_zero]
  rw [hv, base32Letter_eq v hlt]

theorem letter_of_bits_pad4 (i4 : Nat) (a4 : Nat) (v : Nat) (x4 : Nat)
    (h4 : x4 = a4 / 2 ^ i4 % 2) (hv : 16 * x4 = v) :
    base32Letter (bitsValue [a4.testBit i4, false, false, false, false]) = encodeChar v := by
  have hlt : v < 32 := by omega
  rw [bitsValue5, Nat.toNat_testBit, ← h4]
  simp only [Bool.toNat_false, Nat.mul_zero, Nat.add_zero]
  rw [hv, base32Letter_eq v hlt]

theorem base32Std_cons5 (s0 s1 s2 s3 s4 : Nat) (rest : List Nat) (h0 : s0 < 256)
    (h1 : s1 < 256) (h2 : s2 < 256) (h3 : s3 < 256) (h4 : s4 < 256) :
    base32Std (s0 :: s1 :: s2 :: s3 :: s4 :: rest)
      = (blocksArith s0 s1 s2 s3 s4).map encodeChar ++ base32Std rest := by
  unfold base32Std
  simp only [List.map_cons, List.flatten_cons]
  rw [bits_five_bytes]
  simp only [List.map_cons, blocksArith, List.map_nil, List.cons_append, List.nil_append]
  rw [letter_of_bits 7 6 5 4 3 s0 s0 s0 s0 s0 (s0 / 8) _ _ _ _ _ rfl rfl rfl rfl rfl
      (by omega),
    letter_of_bits 2 1 0 7 6 s0 s0 s0 s1 s1 (s0 % 8 * 4 + s1 / 64) _ _ _ _ _ rfl rfl rfl
      rfl rfl (by omega),
    letter_of_bits 5 4 3 2 1 s1 s1 s1 s1 s1 (s1 / 2 % 32) _ _ _ _ _ rfl rfl rfl rfl rfl
      (by omega),
    letter_of_bits 0 7 6 5 4 s1 s2 s2 s2 s2 (s1 % 2 * 16 + s2 / 16) _ _ _ _ _ rfl rfl rfl
      rfl rfl (by omega),
    letter_of_bits 3 2 1 0 7 s2 s2 s2 s2 s3 (s2 % 16 * 2 + s3 / 128) _ _ _ _ _ rfl rfl rfl
      rfl rfl (by omega),
    letter_of_bits 6 5 4 3 2 s3 s3 s3 s3 s3 (s3 / 4 % 32) _ _ _ _ _ rfl rfl rfl rfl rfl
      (by omega),
    letter_of_bits 1 0 7 6 5 s3 s3 s4 s4 s4 (s3 % 4 * 8 + s4 / 32) _ _ _ _ _ rfl rfl rfl
      rfl rfl (by omega),
    letter_of_bits 4 3 2 1 0 s4 s4 s4 s4 s4 (s4 % 32) _ _ _ _ _ rfl rfl rfl rfl rfl
      (by omega)]

theorem groups5_one (a : Bool) : groups5 [a] = [[a, false, false, false, false]] := rfl

theorem groups5_two (a b : Bool) : groups5 [a, b] = [[a, b, false, false, false]] := rfl

theorem groups5_three (a b c : Bool) : groups5 [a, b, c] = [[a, b, c, false, false]] := rfl

theorem groups5_four (a b c d : Bool) : groups5 [a, b, c, d] = [[a, b, c, d, false]] := rfl

theorem base32Std_nil : base32Std [] = [] := rfl

theorem base32Std_one (s0 : Nat) (h0 : s0 < 256) :
    base32Std [s0] = [encodeChar (s0 / 8), encodeChar (s0 % 8 * 4)] := by
  unfold base32Std
  simp only [List.map_cons, List.map_nil, List.flatten_cons, List.flatten_nil, byteBits_eq,
    List.cons_append, List.nil_append, List.append_nil, groups5_cons5, groups5_three]
  rw [letter_of_bits 7 6 5 4 3 s0 s0 s0 s0 s0 (s0 / 8) _ _ _ _ _ rfl rfl rfl rfl rfl (by omega),
    letter_of_bits_pad2 2 1 0 s0 s0 s0 (s0 % 8 * 4) _ _ _ rfl rfl rfl (by omega)]

theorem base32Std_two (s0 s1 : Nat) (h0 : s0 < 256) (h1 : s1 < 256) :
    base32Std [s0, s1] = [encodeChar (s0 / 8), encodeChar (s0 % 8 * 4 + s1 / 64),
      encodeChar (s1 / 2 % 32), encodeChar (s1 % 2 * 16)] := by
  unfold base32Std
  simp only [List.map_cons, List.map_nil, List.flatten_cons, List.flatten_nil, byteBits_eq,
    List.cons_append, List.nil_append, List.append_nil, groups5_cons5, groups5_one]
  rw [letter_of_bits 7 6 5 4 3 s0 s0 s0 s0 s0 (s0 / 8) _ _ _ _ _ rfl rfl rfl rfl rfl (by omega),
    letter_of_bits 2 1 0 7 6 s0 s0 s0 s1 s1 (s0 % 8 * 4 + s1 / 64) _ _ _ _ _ rfl rfl rfl
      rfl rfl (by omega),
    letter_of_bits 5 4 3 2 1 s1 s1 s1 s1 s1 (s1 / 2 % 32) _ _ _ _ _ rfl rfl rfl rfl rfl
      (by omega),
    letter_of_bits_pad4 0 s1 (s1 % 2 * 16) _ rfl (by omega)]

theorem base32Std_three (s0 s1 s2 : Nat) (h0 : s0 < 256) (h1 : s1 < 256) (h2 : s2 < 256) :
    base32Std [s0, s1, s2] = [encodeChar (s0 / 8), encodeChar (s0 % 8 * 4 + s1 / 64),
      encodeChar (s1 / 2 % 32), encodeChar (s1 % 2 * 16 + s2 / 16),
      encodeChar (s2 % 16 * 2)] := by
  unfold base32Std
  simp only [List.map_cons, List.map_nil, List.flatten_cons, List.flatten_nil, byteBits_eq,
    List.cons_append, List.nil_append, List.append_nil, groups5_cons5, groups5_four]
  rw [letter_of_bits 7 6 5 4 3 s0 s0 s0 s0 s0 (s0 / 8) _ _ _ _ _ rfl rfl rfl rfl rfl (by omega),
    letter_of_bits 2 1 0 7 6 s0 s0 s0 s1 s1 (s0 % 8 * 4 + s1 / 64) _ _ _ _ _ rfl rfl rfl
      rfl rfl (by omega),
    letter_of_bits 5 4 3 2 1 s1 s1 s1 s1 s1 (s1 / 2 % 32) _ _ _ _ _ rfl rfl rfl rfl rfl
      (by omega),
    letter_of_bits 0 7 6 5 4 s1 s2 s2 s2 s2 (s1 % 2 * 16 + s2 / 16) _ _ _ _ _ rfl rfl rfl
      rfl rfl (by omega),
    letter_of_bits_pad1 3 2 1 0 s2 s2 s2 s2 (s2 % 16 * 2) _ _ _ _ rfl rfl rfl rfl (by omega)]

theorem base32Std_four (s0 s1 s2 s3 : Nat) (h0 : s0 < 256) (h1 : s1 < 256) (h2 : s2 < 256)
    (h3 : s3 < 256) :
    base32Std [s0, s1, s2, s3] = [encodeChar (s0 / 8), encodeChar (s0 % 8 * 4 + s1 / 64),
      encodeChar (s1 / 2 % 32), encodeChar (s1 % 2 * 16 + s2 / 16),
      encodeChar (s2 % 16 * 2 + s3 / 128), encodeChar (s3 / 4 % 32),
      encodeChar (s3 % 4 * 8)] := by
  unfold base32Std
  simp only [List.map_cons, List.map_nil, List.flatten_cons, List.flatten_nil, byteBits_eq,
    List.cons_append, List.nil_append, List.append_nil, groups5_cons5, groups5_two]
  rw [letter_of_bits 7 6 5 4 3 s0 s0 s0 s0 s0 (s0 / 8) _ _ _ _ _ rfl rfl rfl rfl rfl (by omega),
    letter_of_bits 2 1 0 7 6 s0 s0 s0 s1 s1 (s0 % 8 * 4 + s1 / 64) _ _ _ _ _ rfl rfl rfl
      rfl rfl (by omega),
    letter_of_bits 5 4 3 2 1 s1 s1 s1 s1 s1 (s1 / 2 % 32) _ _ _ _ _ rfl rfl rfl rfl rfl
      (by omega),
    letter_of_bits 0 7 6 5 4 s1 s2 s2 s2 s2 (s1 % 2 * 16 + s2 / 16) _ _ _ _ _ rfl rfl rfl
      rfl rfl (by omega),
    letter_of_bits 3 2 1 0 7 s2 s2 s2 s2 s3 (s2 % 16 * 2 + s3 / 128) _ _ _ _ _ rfl rfl rfl
      rfl rfl (by omega),
    letter_of_bits 6 5 4 3 2 s3 s3 s3 s3 s3 (s3 / 4 % 32) _ _ _ _ _ rfl rfl rfl rfl rfl
      (by omega),
    letter_of_bits_pad3 1 0 s3 s3 (s3 % 4 * 8) _ _ rfl rfl (by omega)]

/-- `EncodeToString` without padding is unpadded upper-case standard base 32. -/
theorem b32Encode_eq_base32Std : ∀ (n : Nat) (bin : List Nat), bin.length ≤ n →
    (∀ b ∈ bin, b < 256) → b32Encode bin = base32Std bin := by
  intro n
  induction n with
  | zero =>
    intro bin h _
    have : bin = [] := List.length_eq_zero.1 (by omega)
    subst this; rfl
  | succ n ih =>
    intro bin h hb
    rcases bin with _ | ⟨s0, _ | ⟨s1, _ | ⟨s2, _ | ⟨s3, _ | ⟨s4, t⟩⟩⟩⟩⟩
    · rfl
    · have h0 : s0 < 256 := hb s0 (by simp)
      rw [b32Encode_short _ (by simp), encodeBlocks_eq _ hb, base32Std_one s0 h0]
      simp [blocksArith, EncodedLen]
    · have h0 : s0 < 256 := hb s0 (by simp)
      have h1 : s1 < 256 := hb s1 (by simp)
      rw [b32Encode_short _ (by simp), encodeBlocks_eq _ hb, base32Std_two s0 s1 h0 h1]
      simp [blocksArith, EncodedLen]
    · have h0 : s0 < 256 := hb s0 (by simp)
      have h1 : s1 < 256 := hb s1 (by simp)
      have h2 : s2 < 256 := hb s2 (by simp)
      rw [b32Encode_short _ (by simp), encodeBlocks_eq _ hb, base32Std_three s0 s1 s2 h0 h1 h2]
      simp [blocksArith, EncodedLen]
    · have h0 : s0 < 256 := hb s0 (by simp)
      have h1 : s1 < 256 := hb s1 (by simp)
      have h2 : s2 < 256 := hb s2 (by simp)
      have h3 : s3 < 256 := hb s3 (by simp)
      rw [b32Encode_short _ (by simp), encodeBlocks_eq _ hb,
        base32Std_four s0 s1 s2 s3 h0 h1 h2 h3]
      simp [blocksArith, EncodedLen]
    · have h0 : s0 < 256 := hb s0 (by simp)
      have h1 : s1 < 256 := hb s1 (by simp)
      have h2 : s2 < 256 := hb s2 (by simp)
      have h3 : s3 < 256 := hb s3 (by simp)
      have h4 : s4 < 256 := hb s4 (by simp)
      have hs : ∀ b ∈ [s0, s1, s2, s3, s4], b < 256 := by
        intro b hb
        simp only [List.mem_cons, List.mem_singleton, List.not_mem_nil, or_false] at hb
        rcases hb with rfl | rfl | rfl | rfl | rfl <;> assumption
      simp only [List.length_cons] at h
      rw [b32Encode_cons5, base32Std_cons5 s0 s1 s2 s3 s4 t h0 h1 h2 h3 h4, encodeBlocks_eq _ hs,
        ih t (by omega) (fun b hbt => hb b (by simp [hbt]))]
      rfl

/-- C4: ToStrKey v p is the unpadded upper-case standard base-32 encoding of v, p and the two
bytes of c = crc16 (v, p), low byte first; it has ceil (8 * (len p + 3) / 5) characters. -/
theorem ToStrKey_is_base32 (v : Nat) (p : List Nat) (hv : v < 256) (hp : ∀ b ∈ p, b < 256) :
    ToStrKey v p = base32Std ((v :: p) ++ [crc16 (v :: p) % 256, crc16 (v :: p) / 256]) ∧
    (ToStrKey v p).length = (8 * (p.length + 3) + 4) / 5 := by
  have hc := crc16_lt (v :: p)
  have hhi : (crc16 (v :: p) >>> 8) % 256 = crc16 (v :: p) / 256 := by
    rw [Nat.shiftRight_eq_div_pow]; omega
  rw [ToStrKey_eq_encode, hhi]
  constructor
  · apply b32Encode_eq_base32Std _ _ (le_refl _)
    intro b hb
    rcases List.mem_append.1 hb with hb | hb
    · rcases List.mem_cons.1 hb with rfl | hb
      · exact hv
      · exact hp b hb
    · simp only [List.mem_cons, List.mem_singleton, List.not_mem_nil, or_false] at hb
      rcases hb with rfl | rfl <;> omega
  · rw [b32Encode_length _ _ (le_refl _)]
    simp only [List.length_append, List.length_cons, List.length_nil, EncodedLen]
    omega

/-- Witness for C4: the public-key version byte over 32 zero bytes. -/
theorem ToStrKey_is_base32_witness :
    (48 < 256) ∧ (∀ b ∈ List.replicate 32 0, b < 256) ∧
    ToStrKey 48 (List.replicate 32 0)
      = base32Std ((48 :: List.replicate 32 0) ++
          [crc16 (48 :: List.replicate 32 0) % 256, crc16 (48 :: List.replicate 32 0) / 256]) ∧
    (ToStrKey 48 (List.replicate 32 0)).length = (8 * ((List.replicate 32 0).length + 3) + 4) / 5 :=
  ⟨by decide, by decide, ToStrKey_is_base32 48 (List.replicate 32 0) (by decide) (by decide)⟩

/-! ### Asset codes: scanning a rendering -/

theorem hexDigit_facts (n : Nat) (h : n < 16) :
    isHexDigit (hexDigit n) = true ∧ hexVal (hexDigit n) = n ∧ hexDigit n ≠ 13 ∧
      hexDigit n ≠ 10 ∧ ∀ rest, spaceLen (hexDigit n :: rest) = 0 := by
  have hcases : n = 0 ∨ n = 1 ∨ n = 2 ∨ n = 3 ∨ n = 4 ∨ n = 5 ∨ n = 6 ∨ n = 7 ∨ n = 8 ∨ n = 9 ∨
      n = 10 ∨ n = 11 ∨ n = 12 ∨ n = 13 ∨ n = 14 ∨ n = 15 := by omega
  rcases hcases with h | h | h | h | h | h | h | h | h | h | h | h | h | h | h | h <;> subst h <;>
    exact ⟨by decide, by decide, by decide, by decide, fun _ => rfl⟩

theorem skipSpace_hexDigit (n : Nat) (h : n < 16) (fuel : Nat) (rest : List Nat) :
    skipSpace (fuel + 1) (hexDigit n :: rest) = some (hexDigit n :: rest) := by
  obtain ⟨_, _, h13, h10, hsp⟩ := hexDigit_facts n h
  simp [skipSpace, h13, h10, hsp rest]

theorem fscanfHex2_render (x : Nat) (hx : x < 256) (rest : List Nat) :
    fscanfHex2 (hexDigit (x / 16) :: hexDigit (x % 16) :: rest) = some (x, rest) := by
  obtain ⟨a1, a2, _, _, _⟩ := hexDigit_facts (x / 16) (by omega)
  obtain ⟨b1, b2, _, _, _⟩ := hexDigit_facts (x % 16) (by omega)
  unfold fscanfHex2
  rw [List.length_cons, skipSpace_hexDigit _ (by omega)]
  simp only [a1, b1, if_true, a2, b2]
  congr 2
  omega

/-- One round of the scan loop consumes the rendering of one byte. -/
theorem scanLoop_renderByte (x : Nat) (hx : x < 256) (fuel i : Nat) (rest out : List Nat) :
    scanLoop (fuel + 1) i (renderByte x ++ rest) out = scanLoop fuel (i + 1) rest (out.set i x) := by
  unfold renderByte
  split
  · simp only [List.cons_append, List.nil_append]
    rw [scanLoop]
    simp only [show ¬ ((92 : Nat) ≤ 32 ∨ 92 ≥ 127) by decide, if_false, ne_eq, not_true_eq_false,
      fscanfHex2_render x hx rest]
  · rename_i h1
    split
    · rename_i h2
      simp only [List.cons_append, List.nil_append]
      have : x ≠ 120 := by omega
      simp [scanLoop, this]
    · rename_i h2
      simp only [List.cons_append, List.nil_append]
      have h3 : ¬ (x ≤ 32 ∨ x ≥ 127) := by omega
      have h4 : x ≠ 92 := by omega
      simp only [scanLoop, h3, h4, if_false, ne_eq, not_false_eq_true, if_true]

theorem scanLoop_nil (fuel i : Nat) (out : List Nat) :
    scanLoop fuel i [] out = .ok (i, [], out) := by
  cases fuel <;> rfl

/-- The buffer after storing the bytes `l` from index `pre.length` on. -/
theorem scanLoop_render : ∀ (l : List Nat) (fuel : Nat) (pre : List Nat) (k : Nat),
    (∀ x ∈ l, x < 256) → l.length ≤ fuel → l.length ≤ k →
    scanLoop fuel pre.length ((l.map renderByte).flatten) (pre ++ List.replicate k 0)
      = .ok (pre.length + l.length, [], pre ++ l ++ List.replicate (k - l.length) 0) := by
  intro l
  induction l with
  | nil =>
    intro fuel pre k _ _ _
    simp [scanLoop_nil]
  | cons x t ih =>
    intro fuel pre k hb hf hk
    simp only [List.length_cons] at hf hk
    obtain ⟨f, rfl⟩ : ∃ f, fuel = f + 1 := ⟨fuel - 1, by omega⟩
    obtain ⟨k', rfl⟩ : ∃ k', k = k' + 1 := ⟨k - 1, by omega⟩
    simp only [List.map_cons, List.flatten_cons]
    rw [scanLoop_renderByte x (hb x (by simp))]
    have hset : (pre ++ List.replicate (k' + 1) 0).set pre.length x
        = (pre ++ [x]) ++ List.replicate k' 0 := by
      rw [List.replicate_succ, List.set_append_right _ _ (le_refl _)]
      simp
    have hlen : pre.length + 1 = (pre ++ [x]).length := by simp
    rw [hset, hlen, ih f (pre ++ [x]) k' (fun y hy => hb y (List.mem_cons_of_mem _ hy))
      (by omega) (by omega)]
    simp only [List.length_append, List.length_cons, List.length_nil, List.append_assoc,
      List.singleton_append, Nat.add_sub_add_right]
    congr 2
    omega

theorem trimLen_le (bs : List Nat) : ∀ n, trimLen bs n ≤ n := by
  intro n
  induction n with
  | zero => simp [trimLen]
  | succ n ih => unfold trimLen; split <;> omega

/-- Everything from the trimmed length on is zero. -/
theorem trimLen_zeros (bs : List Nat) : ∀ n, n ≤ bs.length →
    bs.take n = bs.take (trimLen bs n) ++ List.replicate (n - trimLen bs n) 0 := by
  intro n
  induction n with
  | zero => intro _; simp [trimLen]
  | succ n ih =>
    intro hn
    unfold trimLen
    split
    · rename_i hz
      have hle := trimLen_le bs n
      have hget : bs[n]? = some 0 := by
        rw [List.getD_eq_getElem _ _ (by omega)] at hz
        rw [List.getElem?_eq_getElem (by omega), hz]
      rw [List.take_succ, hget, ih (by omega)]
      simp only [Option.toList, List.append_assoc]
      congr 1
      rw [show n + 1 - trimLen bs n = (n - trimLen bs n) + 1 by omega, List.replicate_succ']
    · simp


theorem take_trim_zeros (b : List Nat) (n : Nat) (hn0 : trimLen b b.length ≤ n)
    (hn : n ≤ b.length) : b.take n ++ List.replicate (b.length - n) 0 = b := by
  have hz := trimLen_zeros b b.length (le_refl _)
  rw [List.take_length] at hz
  have hl0 : (b.take (trimLen b b.length)).length = trimLen b b.length := by
    rw [List.length_take]; have := trimLen_le b b.length; omega
  have hdrop : b.drop n = List.replicate (b.length - n) 0 := by
    conv_lhs => rw [hz]
    rw [List.drop_append_eq_append_drop, hl0, List.drop_of_length_le (by rw [hl0]; exact hn0),
      List.nil_append, List.drop_replicate]
    congr 1; omega
  rw [← hdrop, List.take_append_drop]

/-- Scanning the rendering of an asset code of 4 or 12 bytes gives the code back. -/
theorem scan_render (b : List Nat) (hb : ∀ x ∈ b, x < 256) (hl : b.length = 4 ∨ b.length = 12) :
    ScanAssetCode (RenderAssetCode b) = .ok b := by
  have hle := trimLen_le b b.length
  unfold RenderAssetCode ScanAssetCode
  simp only
  generalize hn : (if b.length > 4 ∧ trimLen b b.length ≤ 4 then 5 else trimLen b b.length) = n
  have hn1 : trimLen b b.length ≤ n := by rw [← hn]; split <;> omega
  have hn2 : n ≤ b.length := by rw [← hn]; split <;> omega
  have hlen : (b.take n).length = n := by rw [List.length_take]; omega
  have hrun := scanLoop_render (b.take n) 12 [] 12 (fun x hx => hb x (List.mem_of_mem_take hx))
    (by rw [hlen]; omega) (by rw [hlen]; omega)
  simp only [List.length_nil, List.nil_append, Nat.zero_add, hlen] at hrun
  rw [hrun]
  simp only [List.length_nil, gt_iff_lt, Nat.lt_irrefl, if_false]
  rcases hl with hl | hl
  · have h4 : n ≤ 4 := by omega
    rw [if_pos h4, List.take_append_eq_append_take, hlen, List.take_of_length_le (by rw [hlen]; exact h4),
      List.take_replicate]
    have := take_trim_zeros b n hn1 hn2
    rw [hl] at this
    rw [show min (4 - n) (12 - n) = 4 - n by omega]
    exact congrArg Except.ok this
  · have h5 : ¬ n ≤ 4 := by
      rw [← hn]; split <;> omega
    rw [if_neg h5]
    have := take_trim_zeros b n hn1 hn2
    rw [hl] at this
    exact congrArg Except.ok this

/-- C6: for every asset code b of 4 or of 12 bytes, ScanAssetCode (RenderAssetCode b) succeeds
and returns exactly b, whatever the bytes (interior zeros, all zero, short prefix in 12 bytes). -/
theorem ScanAssetCode_RenderAssetCode (b : List Nat) (hb : ∀ x ∈ b, x < 256)
    (hl : b.length = 4 ∨ b.length = 12) :
    ScanAssetCode (RenderAssetCode b) = .ok b :=
  scan_render b hb hl

/-- Witness for C6: a 12-byte code with an interior zero and a non-zero prefix of 3 bytes. -/
theorem ScanAssetCode_RenderAssetCode_witness :
    (∀ x ∈ [85, 0, 255, 0, 0, 0, 0, 0, 0, 0, 0, 0], x < 256) ∧
    ([85, 0, 255, 0, 0, 0, 0, 0, 0, 0, 0, 0].length = 4 ∨
      [85, 0, 255, 0, 0, 0, 0, 0, 0, 0, 0, 0].length = 12) ∧
    ScanAssetCode (RenderAssetCode [85, 0, 255, 0, 0, 0, 0, 0, 0, 0, 0, 0])
      = .ok [85, 0, 255, 0, 0, 0, 0, 0, 0, 0, 0, 0] :=
  ⟨by decide, by decide,
    ScanAssetCode_RenderAssetCode [85, 0, 255, 0, 0, 0, 0, 0, 0, 0, 0, 0] (by decide) (by decide)⟩

/-- Counterexample to C7 as stated: the text `\\a` scans to the code `a` and renders as `a`. -/
theorem render_scan_counterexample :
    ScanAssetCode [92, 97] = .ok [97, 0, 0, 0] ∧ RenderAssetCode [97, 0, 0, 0] ≠ [92, 97] := by
  decide

/-! ### Asset codes: what the scanner returns -/

theorem skipSpace_suffix : ∀ (fuel : Nat) (inp out : List Nat),
    skipSpace fuel inp = some out → ∀ c ∈ out, c ∈ inp := by
  intro fuel
  induction fuel with
  | zero =>
    intro inp out h
    simp only [skipSpace, Option.some.injEq] at h
    subst h
    exact fun c hc => hc
  | succ f ih =>
    intro inp out h
    cases inp with
    | nil =>
      simp only [skipSpace, Option.some.injEq] at h
      subst h
      exact fun c hc => hc
    | cons a rest =>
      unfold skipSpace at h
      split at h
      · exact fun c hc => List.mem_cons_of_mem _ (ih rest out h c hc)
      · split at h
        · exact absurd h (by simp)
        · split at h
          · simp only [Option.some.injEq] at h
            subst h
            exact fun c hc => hc
          · exact fun c hc => List.mem_of_mem_drop (ih _ out h c hc)

theorem hexVal_lt (d : Nat) (h : isHexDigit d = true) : hexVal d < 16 := by
  unfold isHexDigit at h
  simp only [Bool.or_eq_true, Bool.and_eq_true, decide_eq_true_eq] at h
  unfold hexVal
  split
  · omega
  · split <;> omega

theorem fscanfHex2_spec (inp rest : List Nat) (v : Nat) (h : fscanfHex2 inp = some (v, rest)) :
    v < 256 ∧ ∀ c ∈ rest, c ∈ inp := by
  unfold fscanfHex2 at h
  split at h
  · exact absurd h (by simp)
  · exact absurd h (by simp)
  · rename_i d1 tl hsk
    have hsub := skipSpace_suffix _ _ _ hsk
    split at h
    · rename_i hd1
      have h1 := hexVal_lt d1 hd1
      split at h
      · rename_i d2 tl2
        split at h
        · rename_i hd2
          have h2 := hexVal_lt d2 hd2
          simp only [Option.some.injEq, Prod.mk.injEq] at h
          obtain ⟨rfl, rfl⟩ := h
          exact ⟨by omega, fun c hc => hsub c (by simp [hc])⟩
        · simp only [Option.some.injEq, Prod.mk.injEq] at h
          obtain ⟨rfl, rfl⟩ := h
          exact ⟨by omega, fun c hc => hsub c (List.mem_cons_of_mem _ hc)⟩
      · simp only [Option.some.injEq, Prod.mk.injEq] at h
        obtain ⟨rfl, rfl⟩ := h
        exact ⟨by omega, fun c hc => absurd hc (List.not_mem_nil c)⟩
    · exact absurd h (by simp)

theorem set_lt (out : List Nat) (i v : Nat) (hv : v < 256) (ho : ∀ x ∈ out, x < 256) :
    ∀ x ∈ out.set i v, x < 256 := by
  intro x hx
  rcases List.mem_or_eq_of_mem_set hx with h | h
  · exact ho x h
  · rw [h]; exact hv

/-- The scan loop keeps the buffer at its length and stores only bytes. -/
theorem scanLoop_shape : ∀ (fuel i : Nat) (ss out : List Nat) (i2 : Nat) (ss2 out2 : List Nat),
    scanLoop fuel i ss out = .ok (i2, ss2, out2) → (∀ c ∈ ss, c < 256) →
    (∀ x ∈ out, x < 256) → out2.length = out.length ∧ ∀ x ∈ out2, x < 256 := by
  intro fuel
  induction fuel with
  | zero =>
    intro i ss out i2 ss2 out2 h _ ho
    simp only [scanLoop, Except.ok.injEq, Prod.mk.injEq] at h
    obtain ⟨_, _, rfl⟩ := h
    exact ⟨rfl, ho⟩
  | succ f ih =>
    intro i ss out i2 ss2 out2 h hs ho
    cases ss with
    | nil =>
      simp only [scanLoop, Except.ok.injEq, Prod.mk.injEq] at h
      obtain ⟨_, _, rfl⟩ := h
      exact ⟨rfl, ho⟩
    | cons r tl =>
      have hr : r < 256 := hs r (by simp)
      have htl : ∀ c ∈ tl, c < 256 := fun c hc => hs c (List.mem_cons_of_mem _ hc)
      unfold scanLoop at h
      split at h
      · exact absurd h (by simp)
      · split at h
        · obtain ⟨q1, q2⟩ := ih _ _ _ _ _ _ h htl (set_lt out i r hr ho)
          exact ⟨by rw [q1, List.length_set], q2⟩
        · split at h
          · exact absurd h (by simp)
          · rename_i r2 tl2
            have hr2 : r2 < 256 := htl r2 (by simp)
            have htl2 : ∀ c ∈ tl2, c < 256 := fun c hc => htl c (List.mem_cons_of_mem _ hc)
            split at h
            · obtain ⟨q1, q2⟩ := ih _ _ _ _ _ _ h htl2 (set_lt out i r2 hr2 ho)
              exact ⟨by rw [q1, List.length_set], q2⟩
            · split at h
              · exact absurd h (by simp)
              · rename_i v ss3 hsc
                obtain ⟨hv, hsub⟩ := fscanfHex2_spec _ _ _ hsc
                obtain ⟨q1, q2⟩ := ih _ _ _ _ _ _ h (fun c hc => htl2 c (hsub c hc))
                  (set_lt out i v hv ho)
                exact ⟨by rw [q1, List.length_set], q2⟩

/-- An accepted text yields 4 or 12 bytes. -/
theorem ScanAssetCode_shape (t bs : List Nat) (ht : ∀ c ∈ t, c < 256)
    (h : ScanAssetCode t = .ok bs) : (bs.length = 4 ∨ bs.length = 12) ∧ ∀ x ∈ bs, x < 256 := by
  unfold ScanAssetCode at h
  split at h
  · exact absurd h (by simp)
  · rename_i i ss out hrun
    have hz : ∀ x ∈ List.replicate 12 0, x < 256 := by
      intro x hx; rw [(List.mem_replicate.1 hx).2]; norm_num
    obtain ⟨q1, q2⟩ := scanLoop_shape _ _ _ _ _ _ _ hrun ht hz
    rw [List.length_replicate] at q1
    split at h
    · exact absurd h (by simp)
    · split at h
      · simp only [Except.ok.injEq] at h
        subst h
        exact ⟨Or.inl (by rw [List.length_take, q1]; rfl), fun x hx => q2 x (List.mem_of_mem_take hx)⟩
      · simp only [Except.ok.injEq] at h
        subst h
        exact ⟨Or.inr q1, q2⟩

/-- C7 (amended): a text is the rendering of an asset code of 4 or 12 bytes exactly when
ScanAssetCode accepts it and rendering the scanned bytes reproduces it; so the round trip from
text to bytes to text holds on the renderings, and on no other text. -/
theorem RenderAssetCode_ScanAssetCode (t : List Nat) (ht : ∀ c ∈ t, c < 256) :
    (∃ b : List Nat, (∀ x ∈ b, x < 256) ∧ (b.length = 4 ∨ b.length = 12) ∧
      t = RenderAssetCode b) ↔
    ∃ bs, ScanAssetCode t = .ok bs ∧ RenderAssetCode bs = t := by
  constructor
  · rintro ⟨b, hb, hl, rfl⟩
    exact ⟨b, scan_render b hb hl, rfl⟩
  · rintro ⟨bs, hs, hr⟩
    obtain ⟨hl, hb⟩ := ScanAssetCode_shape t bs ht hs
    exact ⟨bs, hb, hl, hr.symm⟩

/-- Witness for C7 (amended): the text `USD`. -/
theorem RenderAssetCode_ScanAssetCode_witness :
    (∀ c ∈ [85, 83, 68], c < 256) ∧
    ((∃ b : List Nat, (∀ x ∈ b, x < 256) ∧ (b.length = 4 ∨ b.length = 12) ∧
      [85, 83, 68] = RenderAssetCode b) ↔
    ∃ bs, ScanAssetCode [85, 83, 68] = .ok bs ∧ RenderAssetCode bs = [85, 83, 68]) :=
  ⟨by decide, RenderAssetCode_ScanAssetCode [85, 83, 68] (by decide)⟩

/-! ### The text scanner -/

/-- Counterexample to C8 as stated: with `tx.operations.len` = 2 and entries only for
`tx.operations[0]`, the scan returns normally; the fields of `tx.operations[1]` keep their zero
values. -/
theorem XdrScan_Marshal_missing_counterexample :
    XdrScan.Marshal scanDecimal scanDecimal 5 scenarioKvs "" scenarioTx
      = .ok ([("tx.operations.len", " 2")],
          .struct [("tx", .struct [("fee", .scanner 100),
            ("operations", .vec 100
              [.struct [("amount", .scanner 5), ("dest", .pointer 9)],
               .struct [("amount", .scanner 0), ("dest", .pointer 0)]]
              (.struct [("amount", .scanner 0), ("dest", .pointer 0)]))])]) := by
  rfl

/-- C8 (amended): when the path of a scalar field is not a key of the map, XdrScan.Marshal
returns normally and leaves both the field and the map as they were. -/
theorem XdrScan_Marshal_missing_scalar (scan sscan : String → Option Nat) (fuel : Nat)
    (kvs : Kvs) (name : String) (v : Nat) (h : kvGet kvs name = none) :
    XdrScan.Marshal scan sscan (fuel + 1) kvs name (.scanner v) = .ok (kvs, .scanner v) ∧
    XdrScan.Marshal scan sscan (fuel + 1) kvs name (.pointer v) = .ok (kvs, .pointer v) := by
  constructor
  · simp only [XdrScan.Marshal, h]
  · simp only [XdrScan.Marshal, h]

/-- Witness for C8 (amended): the amount of `tx.operations[1]` in the scenario. -/
theorem XdrScan_Marshal_missing_scalar_witness :
    kvGet scenarioKvs "tx.operations[1].amount" = none ∧
    XdrScan.Marshal scanDecimal scanDecimal (0 + 1) scenarioKvs "tx.operations[1].amount"
      (.scanner 0) = .ok (scenarioKvs, .scanner 0) ∧
    XdrScan.Marshal scanDecimal scanDecimal (0 + 1) scenarioKvs "tx.operations[1].amount"
      (.pointer 0) = .ok (scenarioKvs, .pointer 0) :=
  ⟨by decide, XdrScan_Marshal_missing_scalar scanDecimal scanDecimal 0 scenarioKvs
    "tx.operations[1].amount" 0 (by decide)⟩

/-- C9 on the code: after marshalling an optional at path `o`, the key `o.present` that was read
is still in the map; after marshalling an array size at path `v`, the key `v.len` is. -/
theorem XdrScan_Marshal_keeps_suffix_keys :
    XdrScan.Marshal scanDecimal scanDecimal 2 [("o.present", "true"), ("o", "7")] "o"
        (.ptr none (.scanner 0))
      = .ok ([("o.present", "true")], .ptr (some (.scanner 7)) (.scanner 0)) ∧
    XdrScan.Marshal scanDecimal scanDecimal 1 [("v.len", "2")] "v" (.size 0 100)
      = .ok ([("v.len", "2")], .size 2 100) := by
  constructor <;> rfl

/-! ### Base 64: decoding an encoding -/

theorem and_63 (x : Nat) : x &&& 0x3F = x % 64 := by
  have := Nat.and_pow_two_sub_one_eq_mod x 6
  simpa using this

theorem b64Val_eq (s0 s1 s2 : Nat) (h1 : s1 < 256) (h2 : s2 < 256) :
    b64Val s0 s1 s2 = 65536 * s0 + 256 * s1 + s2 := by
  unfold b64Val
  simp only [Nat.shiftLeft_eq]
  rw [or_eq_add_of_shape 16 s0 (s1 * 2 ^ 8) (s0 * 2 ^ 16) (by ring) (by omega),
    or_eq_add_of_shape 8 (256 * s0 + s1) s2 _ (by ring) (by omega)]
  omega

theorem b64Bytes_eq (d0 d1 d2 d3 : Nat) (h1 : d1 < 64) (h2 : d2 < 64) (h3 : d3 < 64) :
    b64Bytes d0 d1 d2 d3
      = [((262144 * d0 + 4096 * d1 + 64 * d2 + d3) / 65536) % 256,
         ((262144 * d0 + 4096 * d1 + 64 * d2 + d3) / 256) % 256,
         (262144 * d0 + 4096 * d1 + 64 * d2 + d3) % 256] := by
  unfold b64Bytes
  simp only [Nat.shiftLeft_eq, Nat.shiftRight_eq_div_pow]
  have e : (d0 * 2 ^ 18 ||| d1 * 2 ^ 12 ||| d2 * 2 ^ 6 ||| d3)
      = 262144 * d0 + 4096 * d1 + 64 * d2 + d3 := by
    rw [or_eq_add_of_shape 18 d0 (d1 * 2 ^ 12) (d0 * 2 ^ 18) (by ring) (by omega),
      or_eq_add_of_shape 12 (64 * d0 + d1) (d2 * 2 ^ 6) _ (by ring) (by omega),
      or_eq_add_of_shape 6 (4096 * d0 + 64 * d1 + d2) d3 _ (by ring) (by omega)]
    omega
  rw [e]

theorem b64DecodeMap_b64Char (v : Nat) :
    b64DecodeMap (b64Char v) = v % 64 ∧ b64Char v ≠ 10 ∧ b64Char v ≠ 13 := by
  have h : ∀ w, w < 64 → b64DecodeMap (encodeStd64.getD w 0) = w ∧ encodeStd64.getD w 0 ≠ 10 ∧
      encodeStd64.getD w 0 ≠ 13 := by decide
  unfold b64Char
  rw [and_63]
  exact h _ (Nat.mod_lt _ (by norm_num))

theorem b64DecodeMap_pad : b64DecodeMap 61 = 0xFF := by decide

/-- The characters the encoder writes contain no line break. -/
theorem b64Encode_no_newline : ∀ (n : Nat) (bs : List Nat), bs.length ≤ n →
    stripNewlines (b64Encode bs) = b64Encode bs := by
  intro n
  induction n with
  | zero =>
    intro bs h
    have : bs = [] := List.length_eq_zero.1 (by omega)
    subst this; rfl
  | succ n ih =>
    intro bs h
    have h10 : ∀ v, b64Char v ≠ 10 := fun v => (b64DecodeMap_b64Char v).2.1
    have h13 : ∀ v, b64Char v ≠ 13 := fun v => (b64DecodeMap_b64Char v).2.2
    have hk : ∀ v, (!(b64Char v == 13 || b64Char v == 10)) = true := by
      intro v
      simp [h10, h13]
    rcases bs with _ | ⟨s0, _ | ⟨s1, _ | ⟨s2, t⟩⟩⟩
    · rfl
    · simp [b64Encode, stripNewlines, h10, h13]
    · simp [b64Encode, stripNewlines, h10, h13]
    · simp only [List.length_cons] at h
      have := ih t (by omega)
      unfold stripNewlines at this ⊢
      simp only [b64Encode, List.cons_append, List.nil_append, List.filter_cons, hk, if_true, this]

theorem b64_quantum3 (s0 s1 s2 : Nat) (h0 : s0 < 256) (h1 : s1 < 256) (h2 : s2 < 256) :
    b64Bytes ((b64Val s0 s1 s2 >>> 18) % 64) ((b64Val s0 s1 s2 >>> 12) % 64)
      ((b64Val s0 s1 s2 >>> 6) % 64) (b64Val s0 s1 s2 % 64) = [s0, s1, s2] := by
  rw [b64Bytes_eq _ _ _ _ (Nat.mod_lt _ (by norm_num)) (Nat.mod_lt _ (by norm_num))
    (Nat.mod_lt _ (by norm_num)), b64Val_eq s0 s1 s2 h1 h2]
  simp only [Nat.shiftRight_eq_div_pow, List.cons.injEq, and_true]
  omega

theorem b64_quantum2 (s0 s1 : Nat) (h0 : s0 < 256) (h1 : s1 < 256) :
    (b64Bytes ((b64Val s0 s1 0 >>> 18) % 64) ((b64Val s0 s1 0 >>> 12) % 64)
      ((b64Val s0 s1 0 >>> 6) % 64) 0).take 2 = [s0, s1] := by
  rw [b64Bytes_eq _ _ _ _ (Nat.mod_lt _ (by norm_num)) (Nat.mod_lt _ (by norm_num))
    (by norm_num), b64Val_eq s0 s1 0 h1 (by norm_num)]
  simp only [Nat.shiftRight_eq_div_pow, List.take_succ_cons, List.take_zero, List.cons.injEq,
    and_true]
  omega

theorem b64_quantum1 (s0 : Nat) (h0 : s0 < 256) :
    (b64Bytes ((b64Val s0 0 0 >>> 18) % 64) ((b64Val s0 0 0 >>> 12) % 64) 0 0).take 1 = [s0] := by
  rw [b64Bytes_eq _ _ _ _ (Nat.mod_lt _ (by norm_num)) (by norm_num) (by norm_num),
    b64Val_eq s0 0 0 (by norm_num) (by norm_num)]
  simp only [Nat.shiftRight_eq_div_pow, List.take_succ_cons, List.take_zero, List.cons.injEq,
    and_true]
  omega

theorem b64Encode_cons3 (s0 s1 s2 : Nat) (t : List Nat) :
    b64Encode (s0 :: s1 :: s2 :: t)
      = b64Char (b64Val s0 s1 s2 >>> 18) :: b64Char (b64Val s0 s1 s2 >>> 12) ::
        b64Char (b64Val s0 s1 s2 >>> 6) :: b64Char (b64Val s0 s1 s2) :: b64Encode t := rfl

/-! ### The binary codec: reading what was written -/

theorem beBytes_length (w v : Nat) : (beBytes w v).length = w := by
  induction w with
  | zero => rfl
  | succ w ih => simp [beBytes, ih]

theorem beBytes_lt (w v : Nat) : ∀ b ∈ beBytes w v, b < 256 := by
  induction w with
  | zero => intro b hb; simp [beBytes] at hb
  | succ w ih =>
    intro b hb
    simp only [beBytes, List.mem_cons] at hb
    rcases hb with rfl | hb
    · exact Nat.mod_lt _ (by norm_num)
    · exact ih b hb

theorem beValue_fold (w v acc : Nat) :
    (beBytes w v).foldl (fun a b => a * 256 + b) acc = acc * 256 ^ w + v % 256 ^ w := by
  induction w generalizing acc with
  | zero => simp [beBytes, Nat.mod_one]
  | succ w ih =>
    simp only [beBytes, List.foldl_cons]
    rw [ih, Nat.mod_pow_succ]
    ring

theorem beValue_beBytes (w v : Nat) (h : v < 256 ^ w) : beValue (beBytes w v) = v := by
  unfold beValue
  rw [beValue_fold, Nat.zero_mul, Nat.zero_add, Nat.mod_eq_of_lt h]

theorem readUint_beBytes (w v : Nat) (h : v < 256 ^ w) (rest : List Nat) :
    readUint w (beBytes w v ++ rest) = some (v, rest) := by
  unfold readUint
  have hl := beBytes_length w v
  rw [if_pos (by rw [List.length_append, hl]; omega),
    List.take_append_of_le_length (by rw [hl]), List.take_of_length_le (by rw [hl]),
    List.drop_append_of_le_length (by rw [hl]), List.drop_of_length_le (by rw [hl]),
    beValue_beBytes w v h]
  rfl

theorem readBytes_append (bs rest : List Nat) :
    readBytes bs.length (bs ++ padding bs.length ++ rest) = some (bs, rest) := by
  unfold readBytes
  have h1 : bs.length + (padding bs.length).length ≤ (bs ++ padding bs.length ++ rest).length := by
    simp only [List.length_append]; omega
  have h2 : ((bs ++ padding bs.length ++ rest).drop bs.length).take (padding bs.length).length
      = padding bs.length := by
    rw [List.append_assoc, List.drop_append_of_le_length (le_refl _), List.drop_length,
      List.nil_append, List.take_append_of_le_length (le_refl _), List.take_length]
  rw [if_pos ⟨h1, h2⟩]
  congr 1
  rw [List.append_assoc, List.take_append_of_le_length (le_refl _), List.take_length]
  congr 1
  rw [← List.length_append, ← List.append_assoc, List.drop_append_of_le_length (le_refl _),
    List.drop_length, List.nil_append]

theorem padding_lt (n : Nat) : ∀ b ∈ padding n, b < 256 := by
  intro b hb
  unfold padding at hb
  rw [(List.mem_replicate.1 hb).2]
  norm_num

theorem mem_append_lt (a b : List Nat) (ha : ∀ x ∈ a, x < 256) (hb : ∀ x ∈ b, x < 256) :
    ∀ x ∈ a ++ b, x < 256 := by
  intro x hx
  rcases List.mem_append.1 hx with h | h
  · exact ha x h
  · exact hb x h

/-- A chain of well-typed elements is written and read back element by element. -/
theorem chain_roundtrip (t : XdrType)
    (ih : ∀ d, wellTyped t d = true → ∃ bs, xdrEncode t d = some bs ∧ (∀ b ∈ bs, b < 256) ∧
      ∀ rest, xdrDecode t none (bs ++ rest) = some (d, rest)) :
    ∀ d : XdrData, d.all (wellTyped t) = true →
      ∃ bs, encodeChain (xdrEncode t) d = some bs ∧ (∀ b ∈ bs, b < 256) ∧
        ∀ rest, decodeChain (xdrDecode t none) d.length (bs ++ rest) = some (d, rest) := by
  intro d
  induction d with
  | uint v => intro h; simp [XdrData.all] at h
  | bytes bs => intro h; simp [XdrData.all] at h
  | absent => intro h; simp [XdrData.all] at h
  | present d _ => intro h; simp [XdrData.all] at h
  | union tg x _ => intro h; simp [XdrData.all] at h
  | nil =>
    intro _
    exact ⟨[], rfl, by simp, fun rest => rfl⟩
  | cons a r _ ihr =>
    intro h
    simp only [XdrData.all, Bool.and_eq_true] at h
    obtain ⟨ba, ha1, ha2, ha3⟩ := ih a h.1
    obtain ⟨br, hr1, hr2, hr3⟩ := ihr h.2
    refine ⟨ba ++ br, ?_, mem_append_lt _ _ ha2 hr2, ?_⟩
    · simp only [encodeChain, ha1, hr1]
    · intro rest
      simp only [XdrData.length, decodeChain, List.append_assoc, ha3, hr3]

theorem wellTyped_array (n : Nat) (t : XdrType) (d : XdrData) :
    wellTyped (.array n t) d = (decide (d.length = n) && d.all (wellTyped t)) := by
  cases d <;> rfl

theorem wellTyped_varArray (bound : Nat) (t : XdrType) (d : XdrData) :
    wellTyped (.varArray bound t) d
      = (decide (d.length ≤ bound) && decide (d.length < 256 ^ 4) && d.all (wellTyped t)) := by
  cases d <;> rfl

theorem xdrEncode_array (n : Nat) (t : XdrType) (d : XdrData) :
    xdrEncode (.array n t) d = if d.length = n then encodeChain (xdrEncode t) d else none := by
  cases d <;> rfl

theorem xdrEncode_varArray (bound : Nat) (t : XdrType) (d : XdrData) :
    xdrEncode (.varArray bound t) d
      = if d.length ≤ bound ∧ d.length < 256 ^ 4 then
          (encodeChain (xdrEncode t) d).map (fun bs => beBytes 4 d.length ++ bs)
        else none := by
  cases d <;> rfl

theorem xdrDecode_array (n : Nat) (t : XdrType) (inp : List Nat) :
    xdrDecode (.array n t) none inp = decodeChain (xdrDecode t none) n inp := by
  rw [xdrDecode]

theorem xdrDecode_varArray (bound : Nat) (t : XdrType) (inp r : List Nat) (n : Nat)
    (h : readUint 4 inp = some (n, r)) :
    xdrDecode (.varArray bound t) none inp
      = if n ≤ bound then decodeChain (xdrDecode t none) n r else none := by
  rw [xdrDecode, h]

/-- For every type and every well-typed value: the Writer succeeds and writes bytes, and the
Reader reads the value back from them, leaving what follows unread. -/
theorem xdr_roundtrip : ∀ (T : XdrType) (d : XdrData), wellTyped T d = true →
    ∃ bs, xdrEncode T d = some bs ∧ (∀ b ∈ bs, b < 256) ∧
      (∀ rest, xdrDecode T none (bs ++ rest) = some (d, rest)) ∧
      (∀ tg x, d = .union tg x → tg < 256 ^ 4 ∧ ∃ body, bs = beBytes 4 tg ++ body ∧
        ∀ rest, xdrDecode T (some tg) (body ++ rest) = some (d, rest)) := by
  intro T
  induction T with
  | uint w =>
    intro d h
    cases d <;> simp [wellTyped] at h
    rename_i v
    refine ⟨beBytes w v, by simp [xdrEncode, h], beBytes_lt w v, ?_, by simp⟩
    intro rest
    simp [xdrDecode, readUint_beBytes w v h]
  | enum allowed =>
    intro d h
    cases d <;> simp [wellTyped] at h
    rename_i v
    refine ⟨beBytes 4 v, by simp [xdrEncode, h], beBytes_lt 4 v, ?_, by simp⟩
    intro rest
    simp [xdrDecode, readUint_beBytes 4 v h.2, h.1]
  | fixedBytes n =>
    intro d h
    cases d <;> simp [wellTyped] at h
    rename_i bs
    obtain ⟨hn, hb⟩ := h
    subst hn
    refine ⟨bs ++ padding bs.length, by simp [xdrEncode],
      mem_append_lt _ _ hb (padding_lt _), ?_, by simp⟩
    intro rest
    simp only [xdrDecode]
    rw [readBytes_append]
    rfl
  | varBytes bound =>
    intro d h
    cases d <;> simp [wellTyped] at h
    rename_i bs
    obtain ⟨⟨hn, h32⟩, hb⟩ := h
    refine ⟨beBytes 4 bs.length ++ bs ++ padding bs.length, by simp [xdrEncode, hn, h32],
      mem_append_lt _ _ (mem_append_lt _ _ (beBytes_lt _ _) hb) (padding_lt _), ?_, by simp⟩
    intro rest
    simp only [xdrDecode]
    rw [List.append_assoc, List.append_assoc, readUint_beBytes 4 bs.length h32]
    simp only [hn, if_true]
    rw [← List.append_assoc, readBytes_append]
    rfl
  | optional t ih =>
    intro d h
    cases d <;> simp [wellTyped] at h
    · refine ⟨beBytes 4 0, by simp [xdrEncode], beBytes_lt 4 0, ?_, by simp⟩
      intro rest
      simp [xdrDecode, readUint_beBytes 4 0 (by norm_num)]
    · rename_i x
      obtain ⟨bs, h1, h2, h3, _⟩ := ih x h
      refine ⟨beBytes 4 1 ++ bs, by simp [xdrEncode, h1],
        mem_append_lt _ _ (beBytes_lt _ _) h2, ?_, by simp⟩
      intro rest
      simp only [xdrDecode]
      rw [List.append_assoc, readUint_beBytes 4 1 (by norm_num)]
      simp [h3]
  | array n t ih =>
    intro d h
    rw [wellTyped_array] at h
    simp only [Bool.and_eq_true, decide_eq_true_eq] at h
    obtain ⟨hn, hall⟩ := h
    obtain ⟨bs, h1, h2, h3⟩ := chain_roundtrip t
      (fun x hx => by obtain ⟨b, q1, q2, q3, _⟩ := ih x hx; exact ⟨b, q1, q2, q3⟩) d hall
    refine ⟨bs, ?_, h2, ?_, ?_⟩
    · rw [xdrEncode_array, if_pos hn, h1]
    · intro rest
      rw [xdrDecode_array, ← hn, h3]
    · intro tg x hd
      subst hd
      simp [XdrData.all] at hall
  | varArray bound t ih =>
    intro d h
    rw [wellTyped_varArray] at h
    simp only [Bool.and_eq_true, decide_eq_true_eq] at h
    obtain ⟨⟨hn, h32⟩, hall⟩ := h
    obtain ⟨bs, h1, h2, h3⟩ := chain_roundtrip t
      (fun x hx => by obtain ⟨b, q1, q2, q3, _⟩ := ih x hx; exact ⟨b, q1, q2, q3⟩) d hall
    refine ⟨beBytes 4 d.length ++ bs, ?_, mem_append_lt _ _ (beBytes_lt _ _) h2, ?_, ?_⟩
    · rw [xdrEncode_varArray, if_pos ⟨hn, h32⟩, h1]
      rfl
    · intro rest
      rw [List.append_assoc, xdrDecode_varArray bound t _ _ _ (readUint_beBytes 4 d.length h32 _),
        if_pos hn]
      exact h3 rest
    · intro tg x hd
      subst hd
      simp [XdrData.all] at hall
  | void =>
    intro d h
    cases d <;> simp [wellTyped] at h
    exact ⟨[], by simp [xdrEncode], by simp, fun rest => by simp [xdrDecode], by simp⟩
  | field t rest iht ihr =>
    intro d h
    cases d <;> simp [wellTyped] at h
    rename_i a r
    obtain ⟨ba, ha1, ha2, ha3, _⟩ := iht a h.1
    obtain ⟨br, hr1, hr2, hr3, _⟩ := ihr r h.2
    refine ⟨ba ++ br, by simp [xdrEncode, ha1, hr1], mem_append_lt _ _ ha2 hr2, ?_, by simp⟩
    intro tl
    simp only [xdrDecode, List.append_assoc, ha3, hr3]
  | arm tag t others iht iho =>
    intro d h
    cases d <;> simp [wellTyped] at h
    rename_i tg x
    by_cases htag : tg = tag
    · subst htag
      simp only [if_true, Bool.and_eq_true, decide_eq_true_eq] at h
      obtain ⟨bs, h1, h2, h3, _⟩ := iht x h.2
      refine ⟨beBytes 4 tg ++ bs, by simp [xdrEncode, h.1, h1],
        mem_append_lt _ _ (beBytes_lt _ _) h2, ?_, ?_⟩
      · intro rest
        simp only [xdrDecode]
        rw [List.append_assoc, readUint_beBytes 4 tg h.1]
        simp [h3]
      · intro tg' x' hd
        simp only [XdrData.union.injEq] at hd
        obtain ⟨rfl, rfl⟩ := hd
        refine ⟨h.1, bs, rfl, ?_⟩
        intro rest
        simp [xdrDecode, h3]
    · simp only [htag, if_false] at h
      obtain ⟨bs, h1, h2, h3, h4⟩ := iho (.union tg x) h
      obtain ⟨h32, body, hbody, hdec⟩ := h4 tg x rfl
      refine ⟨bs, by simp [xdrEncode, htag, h1], h2, ?_, ?_⟩
      · intro rest
        simp only [xdrDecode]
        rw [hbody, List.append_assoc, readUint_beBytes 4 tg h32]
        simp only [htag, if_false]
        exact hdec rest
      · intro tg' x' hd
        simp only [XdrData.union.injEq] at hd
        obtain ⟨rfl, rfl⟩ := hd
        refine ⟨h32, body, hbody, ?_⟩
        intro rest
        simp only [xdrDecode, htag, if_false]
        exact hdec rest
  | noArm =>
    intro d h
    cases d <;> simp [wellTyped] at h

/-! ### The base64 round trip -/

/-- The stream decoder delivers the bytes that the encoder wrote, whatever text follows them. -/
theorem b64Stream_encode : ∀ (n : Nat) (bs : List Nat), bs.length ≤ n →
    (∀ b ∈ bs, b < 256) → ∀ rest : List Nat,
    ∃ more, b64Stream (b64Encode bs ++ rest) = bs ++ more := by
  intro n
  induction n with
  | zero =>
    intro bs h _ rest
    have : bs = [] := List.length_eq_zero.1 (by omega)
    subst this
    exact ⟨b64Stream rest, rfl⟩
  | succ n ih =>
    intro bs h hb rest
    have hm : ∀ x : Nat, ¬ (x % 64 = 255) := by intro x; omega
    rcases bs with _ | ⟨s0, _ | ⟨s1, _ | ⟨s2, t⟩⟩⟩
    · exact ⟨b64Stream rest, rfl⟩
    · have h0 : s0 < 256 := hb s0 (by simp)
      refine ⟨[], ?_⟩
      simp only [b64Encode, List.cons_append, List.nil_append, b64Stream, ne_eq,
        not_false_eq_true, and_self, if_true, b64DecodeMap_pad, not_true_eq_false, and_false,
        false_and, if_false, and_true, (b64DecodeMap_b64Char _).1, hm, List.append_nil]
      rw [b64_quantum1 s0 h0]
    · have h0 : s0 < 256 := hb s0 (by simp)
      have h1 : s1 < 256 := hb s1 (by simp)
      refine ⟨[], ?_⟩
      simp only [b64Encode, List.cons_append, List.nil_append, b64Stream, ne_eq,
        not_false_eq_true, and_self, if_true, b64DecodeMap_pad, not_true_eq_false, and_false,
        false_and, if_false, and_true, (b64DecodeMap_b64Char _).1, hm, List.append_nil]
      rw [b64_quantum2 s0 s1 h0 h1]
    · have h0 : s0 < 256 := hb s0 (by simp)
      have h1 : s1 < 256 := hb s1 (by simp)
      have h2 : s2 < 256 := hb s2 (by simp)
      simp only [List.length_cons] at h
      obtain ⟨more, hmore⟩ := ih t (by omega) (fun b hbt => hb b (by simp [hbt])) rest
      refine ⟨more, ?_⟩
      rw [b64Encode_cons3, List.cons_append, List.cons_append, List.cons_append,
        List.cons_append, b64Stream]
      simp only [ne_eq, not_false_eq_true, and_self, if_true, (b64DecodeMap_b64Char _).1, hm,
        hmore]
      rw [b64_quantum3 s0 s1 s2 h0 h1 h2]
      rfl

/-- The function `XdrFromBase64` undoes `XdrToBase64` on every well-typed value, also when more
text follows the encoding of the value. -/
theorem XdrFromBase64_XdrToBase64 (T : XdrType) (d : XdrData) (h : wellTyped T d = true) :
    ∃ s, XdrToBase64 T d = some s ∧ ∀ rest, XdrFromBase64 T (s ++ rest) = some d := by
  obtain ⟨bs, h1, h2, h3, _⟩ := xdr_roundtrip T d h
  refine ⟨b64Encode bs, by simp [XdrToBase64, h1], ?_⟩
  intro rest
  obtain ⟨more, hmore⟩ := b64Stream_encode _ bs (le_refl _) h2 (stripNewlines rest)
  have hs : stripNewlines (b64Encode bs ++ rest) = b64Encode bs ++ stripNewlines rest := by
    have := b64Encode_no_newline _ bs (le_refl _)
    unfold stripNewlines at this ⊢
    rw [List.filter_append, this]
  unfold XdrFromBase64
  rw [hs, hmore, h3 more]
  rfl

/-- C10: for every envelope whose fields respect their declared bounds and discriminants,
TxFromBase64 (TxToBase64 tx) returns no error and an envelope equal to tx: the XDR value that
comes back is the one that was written. The field Help of the Go struct is no XDR field, so it is
not written; it comes back nil, as in every new envelope, and the result is tx itself when the
Help of tx is nil. -/
theorem TxFromBase64_TxToBase64 (T : XdrType) (tx : TransactionEnvelope)
    (h : wellTyped T tx.envelope = true) :
    ∃ s, TxToBase64 T tx = some s ∧
      TxFromBase64 T s = some { envelope := tx.envelope, Help := none } ∧
      (tx.Help = none → TxFromBase64 T s = some tx) := by
  obtain ⟨s, h1, h2⟩ := XdrFromBase64_XdrToBase64 T tx.envelope h
  have h3 : TxFromBase64 T s = some { envelope := tx.envelope, Help := none } := by
    have := h2 []
    rw [List.append_nil] at this
    simp [TxFromBase64, this]
  refine ⟨s, h1, h3, ?_⟩
  intro hn
  rw [h3]
  cases tx
  simp_all

/-- The round trip of C10 on an envelope with one 32-bit field and no Help set. -/
theorem TxFromBase64_TxToBase64_witness :
    wellTyped (.field (.uint 4) .void) (TransactionEnvelope.mk (.cons (.uint 7) .nil) none).envelope
      = true ∧
    ∃ s, TxToBase64 (.field (.uint 4) .void) ⟨.cons (.uint 7) .nil, none⟩ = some s ∧
      TxFromBase64 (.field (.uint 4) .void) s
        = some { envelope := (TransactionEnvelope.mk (.cons (.uint 7) .nil) none).envelope,
                 Help := none } ∧
      ((TransactionEnvelope.mk (.cons (.uint 7) .nil) none).Help = none →
        TxFromBase64 (.field (.uint 4) .void) s = some ⟨.cons (.uint 7) .nil, none⟩) :=
  ⟨by decide,
    TxFromBase64_TxToBase64 (.field (.uint 4) .void) ⟨.cons (.uint 7) .nil, none⟩ (by decide)⟩

/-- The round trip on an example: the envelope with the one field 7 is written as `AAAABw==`; the
text is read back as that envelope, with a nil Help whatever the Help of the written envelope
was, and also when more text follows the value (here ` x`), which the reader never asks for. -/
theorem TxFromBase64_example :
    TxToBase64 (.field (.uint 4) .void) ⟨.cons (.uint 7) .nil, some ["tx.fee"]⟩
      = some [65, 65, 65, 65, 66, 119, 61, 61] ∧
    TxFromBase64 (.field (.uint 4) .void) [65, 65, 65, 65, 66, 119, 61, 61]
      = some ⟨.cons (.uint 7) .nil, none⟩ ∧
    TxFromBase64 (.field (.uint 4) .void) [65, 65, 65, 65, 66, 119, 61, 61, 32, 120]
      = some ⟨.cons (.uint 7) .nil, none⟩ := by
  decide

/-! ### First character and totality -/

theorem encodeBlocks_head (src : List Nat) :
    (encodeBlocks src).head? = some (src.getD 0 0 >>> 3) := rfl

theorem b32Encode_head (v a b : Nat) (rest : List Nat) :
    (b32Encode (v :: a :: b :: rest)).head? = some (encodeChar (v >>> 3)) := by
  rcases rest with _ | ⟨c, _ | ⟨d, t⟩⟩
  · rw [b32Encode_short _ (by simp)]
    simp [EncodedLen, encodeBlocks]
  · rw [b32Encode_short _ (by simp)]
    simp [EncodedLen, encodeBlocks]
  · rw [b32Encode_cons5]
    rfl

theorem ToStrKey_head (v : Nat) (p : List Nat) :
    (ToStrKey v p).head? = some (encodeChar (v >>> 3)) := by
  rw [ToStrKey_eq_encode]
  rcases p with _ | ⟨a, _ | ⟨b, t⟩⟩
  · exact b32Encode_head _ _ _ _
  · exact b32Encode_head _ _ _ _
  · exact b32Encode_head _ _ _ _

/-- C19: the first character of a strkey depends on the version byte alone; for every payload
`p` the result of `ToStrKey` starts with G for STRKEY_PUBKEY, M for STRKEY_MUXED, S for
STRKEY_PRIVKEY, T for STRKEY_PRE_AUTH_TX, X for STRKEY_HASH_X and P for STRKEY_SIGNED_PAYLOAD. -/
theorem ToStrKey_first_char (p : List Nat) :
    (∀ v q, (ToStrKey v p).head? = (ToStrKey v q).head?) ∧
    (ToStrKey STRKEY_PUBKEY p).head? = some 'G'.toNat ∧
    (ToStrKey STRKEY_MUXED p).head? = some 'M'.toNat ∧
    (ToStrKey STRKEY_PRIVKEY p).head? = some 'S'.toNat ∧
    (ToStrKey STRKEY_PRE_AUTH_TX p).head? = some 'T'.toNat ∧
    (ToStrKey STRKEY_HASH_X p).head? = some 'X'.toNat ∧
    (ToStrKey STRKEY_SIGNED_PAYLOAD p).head? = some 'P'.toNat := by
  refine ⟨fun v q => ?_, ?_, ?_, ?_, ?_, ?_, ?_⟩
  · rw [ToStrKey_head, ToStrKey_head]
  all_goals (rw [ToStrKey_head]; rfl)

theorem indexAt_eq (xs : List Nat) (i : Nat) (j : Int) (hj : j = (i : Int)) (h : i < xs.length) :
    indexAt xs j = some (xs.getD i 0) := by
  subst hj
  unfold indexAt
  rw [if_pos (Int.natCast_nonneg i), Int.toNat_natCast, List.getD_eq_getElem?_getD,
    List.getElem?_eq_getElem h]
  rfl

theorem sliceAt_eq (xs : List Nat) (lo hi : Nat) (a b : Int) (ha : a = (lo : Int))
    (hb : b = (hi : Int)) (h1 : lo ≤ hi) (h2 : hi ≤ xs.length) :
    sliceAt xs a b = some ((xs.take hi).drop lo) := by
  subst ha hb
  unfold sliceAt
  rw [if_pos ⟨Int.natCast_nonneg lo, by omega, by omega⟩, Int.toNat_natCast, Int.toNat_natCast]

theorem encodedLen_decodedLen (n : Nat) (h : ¬ (n % 8 = 1 ∨ n % 8 = 3 ∨ n % 8 = 6)) :
    EncodedLen (DecodedLen n) = n := by
  unfold EncodedLen DecodedLen
  obtain ⟨q, r, hn, hr⟩ : ∃ q r, n = 8 * q + r ∧ r < 8 := ⟨n / 8, n % 8, by omega, by omega⟩
  subst hn
  have hr5 : r = 0 ∨ r = 2 ∨ r = 4 ∨ r = 5 ∨ r = 7 := by omega
  rcases hr5 with rfl | rfl | rfl | rfl | rfl <;> omega

theorem decodedLen_mono (m n : Nat) (h : m ≤ n) : DecodedLen m ≤ DecodedLen n := by
  unfold DecodedLen
  omega

theorem b32Decode_bound (s bin : List Nat) (h : b32Decode s = some bin) :
    bin.length ≤ DecodedLen s.length ∧ ∀ b ∈ bin, b < 256 := by
  unfold b32Decode at h
  obtain ⟨i1, i2, _⟩ := decodeLoop_spec _ _ _ h
  exact ⟨Nat.le_trans i1 (decodedLen_mono _ _ (stripNewlines_length_le s)), i2⟩

theorem FromStrKey_version (s : List Nat) :
    FromStrKey s = ([], STRKEY_ERROR) ∨ (FromStrKey s).2 ≠ STRKEY_ERROR := by
  by_cases hv : (FromStrKey s).2 = STRKEY_ERROR
  · left
    unfold FromStrKey at hv ⊢
    simp only at hv ⊢
    split
    · rfl
    · split
      · rfl
      · split
        · rfl
        · split
          · rfl
          · rename_i bin hb hlen tl hpl
            split
            · rfl
            · split
              · rfl
              · split
                · rfl
                · exfalso
                  simp only [*, if_false, if_true] at hv
                  have hn : payloadLen STRKEY_ERROR = none := by decide
                  rw [hv, hn] at hpl
                  exact Option.noConfusion hpl
  · exact Or.inr hv

theorem FromStrKeyChecked_eq (inp : List Nat) : FromStrKeyChecked inp = some (FromStrKey inp) := by
  generalize hr : FromStrKey inp = r
  unfold FromStrKey at hr
  simp only at hr
  rw [FromStrKeyChecked.eq_1]
  by_cases hrem : inp.length % 8 = 1 ∨ inp.length % 8 = 3 ∨ inp.length % 8 = 6
  · rw [if_pos hrem] at hr ⊢
    rw [hr]
  rw [if_neg hrem] at hr ⊢
  cases hdec : b32Decode inp with
  | none =>
    rw [hdec] at hr
    exact congrArg some hr
  | some bin =>
    rw [hdec] at hr
    simp only at hr
    show (if bin.length > DecodedLen inp.length then none else _) = _
    obtain ⟨hle, _⟩ := b32Decode_bound _ _ hdec
    rw [if_neg (by omega)]
    by_cases hlen : bin.length ≠ DecodedLen inp.length ∨ bin.length < 3
    · rw [if_pos hlen] at hr ⊢
      rw [hr]
    rw [if_neg hlen] at hr ⊢
    have hn : bin.length = DecodedLen inp.length ∧ 3 ≤ bin.length := by omega
    have henc : EncodedLen bin.length = inp.length := by
      rw [hn.1]
      exact encodedLen_decodedLen _ hrem
    have hinp : 0 < inp.length := by
      rcases Nat.eq_zero_or_pos inp.length with h0 | h0
      · rw [h0] at henc
        unfold EncodedLen at henc
        omega
      · exact h0
    rw [indexAt_eq bin 0 0 rfl (by omega), Option.some_bind]
    cases hpl : payloadLen (bin.getD 0 0) with
    | none =>
      rw [hpl] at hr
      exact congrArg some hr
    | some targetlen =>
      rw [hpl] at hr
      simp only at hr
      show (if targetlen ≠ -1 ∧ targetlen ≠ (bin.length : Int) - 3 then _ else _) = _
      by_cases htl : targetlen ≠ -1 ∧ targetlen ≠ (bin.length : Int) - 3
      · rw [if_pos htl] at hr ⊢
        rw [hr]
      rw [if_neg htl] at hr ⊢
      rw [indexAt_eq bin (bin.length - 2) _ (by omega) (by omega),
        indexAt_eq bin (bin.length - 1) _ (by omega) (by omega),
        sliceAt_eq bin 0 (bin.length - 2) 0 ((bin.length : Int) - 2) rfl (by omega) (by omega)
          (by omega),
        sliceAt_eq bin 1 (bin.length - 2) 1 ((bin.length : Int) - 2) rfl (by omega) (by omega)
          (by omega)]
      simp only [Option.some_bind, List.drop_zero, Option.map_some']
      by_cases hcrc : bin.getD (bin.length - 2) 0 ||| (bin.getD (bin.length - 1) 0 <<< 8)
          ≠ crc16 (bin.take (bin.length - 2))
      · rw [if_pos hcrc] at hr ⊢
        rw [hr]
      rw [if_neg hcrc] at hr ⊢
      have hck : checkBuffer inp bin = b32Encode bin := by
        unfold checkBuffer
        rw [henc, Nat.sub_self]
        simp
      have hcl : (b32Encode bin).length = inp.length := by
        rw [b32Encode_length _ _ (Nat.le_refl _), henc]
      by_cases h5 : bin.length % 5 ≠ 0
      · rw [if_pos h5, if_neg (by omega), hck, hcl,
          indexAt_eq inp (inp.length - 1) _ (by omega) (by omega),
          indexAt_eq (b32Encode bin) (inp.length - 1) _ (by omega) (by omega)]
        simp only [Option.some_bind]
        by_cases hl : inp.getD (inp.length - 1) 0 ≠ (b32Encode bin).getD (inp.length - 1) 0
        · rw [if_pos ⟨h5, hl⟩] at hr
          rw [if_pos hl, hr]
        · rw [if_neg (fun h => hl h.2)] at hr
          rw [if_neg hl, hr]
      · rw [if_neg (fun h => h5 h.1)] at hr
        rw [if_neg h5, hr]

theorem crc_bytes_of_eq (lo hi c : Nat) (hlo : lo < 256) (hhi : hi < 256) (hc : c < 65536)
    (h : lo ||| (hi <<< 8) = c) : lo = c % 256 ∧ hi = c / 256 := by
  have e1 := or_shift8_mod lo hi hlo
  have e2 := or_shift8_div lo hi hlo hhi
  rw [h] at e1 e2
  rw [Nat.shiftRight_eq_div_pow] at e2
  refine ⟨e1.symm, ?_⟩
  omega

/-- C20: `FromStrKey` is total and returns no partial data. On every byte string, the empty and
the short ones included, no index or slice expression is out of range (the checked function
returns the same result); the result is `(nil, STRKEY_ERROR)` or carries a version byte other
than `STRKEY_ERROR`; and an input whose length is 1, 3 or 6 modulo 8, or that does not decode,
or decodes to fewer than 3 bytes, or whose last two decoded bytes are not the little-endian
CRC16 of the bytes before them, gives `(nil, STRKEY_ERROR)`. -/
theorem FromStrKey_total (inp : List Nat) :
    FromStrKeyChecked inp = some (FromStrKey inp) ∧
    (FromStrKey inp = ([], STRKEY_ERROR) ∨ (FromStrKey inp).2 ≠ STRKEY_ERROR) ∧
    (inp.length % 8 = 1 ∨ inp.length % 8 = 3 ∨ inp.length % 8 = 6 →
      FromStrKey inp = ([], STRKEY_ERROR)) ∧
    (b32Decode inp = none → FromStrKey inp = ([], STRKEY_ERROR)) ∧
    (∀ bin, b32Decode inp = some bin → bin.length < 3 → FromStrKey inp = ([], STRKEY_ERROR)) ∧
    (∀ bin, b32Decode inp = some bin →
      bin.drop (bin.length - 2) ≠
        [crc16 (bin.take (bin.length - 2)) % 256, crc16 (bin.take (bin.length - 2)) / 256] →
      FromStrKey inp = ([], STRKEY_ERROR)) := by
  refine ⟨FromStrKeyChecked_eq inp, FromStrKey_version inp, ?_, ?_, ?_, ?_⟩
  · intro h
    unfold FromStrKey
    simp only
    rw [if_pos h]
  · intro h
    unfold FromStrKey
    simp only
    split
    · rfl
    · rw [h]
  · intro bin h hlt
    unfold FromStrKey
    simp only
    split
    · rfl
    · rw [h]
      simp only
      rw [if_pos (Or.inr hlt)]
  · intro bin h hcrc
    rcases FromStrKey_version inp with he | hne
    · exact he
    · exfalso
      obtain ⟨bin1, tl, _, hdec, _, h3, _, _, hw, _, _, _⟩ :=
        FromStrKey_ok inp (FromStrKey inp).1 (FromStrKey inp).2 rfl hne
      rw [h] at hdec
      simp only [Option.some.injEq] at hdec
      subst hdec
      obtain ⟨_, hb⟩ := b32Decode_bound _ _ h
      have hlo : bin.getD (bin.length - 2) 0 < 256 := by
        rw [List.getD_eq_getElem _ _ (by omega)]
        exact hb _ (List.getElem_mem _)
      have hhi : bin.getD (bin.length - 1) 0 < 256 := by
        rw [List.getD_eq_getElem _ _ (by omega)]
        exact hb _ (List.getElem_mem _)
      obtain ⟨e1, e2⟩ := crc_bytes_of_eq _ _ _ hlo hhi (crc16_lt _) hw
      apply hcrc
      have hsplit := list_split_last_two bin (by omega)
      have hd : bin.drop (bin.length - 2)
          = [bin.getD (bin.length - 2) 0, bin.getD (bin.length - 1) 0] := by
        have := congrArg (List.drop (bin.length - 2)) hsplit
        rw [List.drop_append_of_le_length (by simp), List.drop_of_length_le (by simp)] at this
        simpa using this.symm
      rw [hd, ← e1, ← e2]

/-! ### Rendering of asset codes -/

theorem trimLen_spec (bs : List Nat) : ∀ n,
    (∀ i, trimLen bs n ≤ i → i < n → bs.getD i 0 = 0) ∧
    (0 < trimLen bs n → bs.getD (trimLen bs n - 1) 0 ≠ 0) := by
  intro n
  induction n with
  | zero =>
    refine ⟨fun i _ hi => absurd hi (Nat.not_lt_zero i), fun h => ?_⟩
    simp [trimLen] at h
  | succ n ih =>
    unfold trimLen
    split
    · rename_i hz
      refine ⟨fun i h1 h2 => ?_, ih.2⟩
      rcases Nat.lt_or_ge i n with hlt | hge
      · exact ih.1 i h1 hlt
      · have : i = n := by omega
        rw [this]
        exact hz
    · rename_i hz
      refine ⟨fun i h1 h2 => absurd h2 (by omega), fun _ => ?_⟩
      simpa using hz

/-- C13: `RenderAssetCode(bs)` renders exactly the first `n` bytes of `bs`, where `n` is the
length `t` of `bs` without its trailing zero bytes (every byte from `t` on is zero and the byte
before `t`, if any, is not), except that `n = 5` when `len(bs) > 4` and `t ≤ 4`; for a 4-byte
input the rendered bytes are the prefix up to the last non-zero byte. The bytes
`[0x55, 0x53, 0x44, 0]` render as the text USD. -/
theorem RenderAssetCode_prefix (bs : List Nat) :
    (∃ t, t ≤ bs.length ∧ (∀ i, t ≤ i → i < bs.length → bs.getD i 0 = 0) ∧
      (0 < t → bs.getD (t - 1) 0 ≠ 0) ∧
      RenderAssetCode bs
        = ((bs.take (if bs.length > 4 ∧ t ≤ 4 then 5 else t)).map renderByte).flatten ∧
      (bs.length = 4 → RenderAssetCode bs = ((bs.take t).map renderByte).flatten)) ∧
    RenderAssetCode [0x55, 0x53, 0x44, 0] = "USD".data.map Char.toNat := by
  refine ⟨⟨trimLen bs bs.length, trimLen_le bs _, (trimLen_spec bs _).1, (trimLen_spec bs _).2,
    rfl, fun h4 => ?_⟩, by decide⟩
  unfold RenderAssetCode
  simp only
  rw [if_neg (by omega)]

/-- C14 as stated fails at the space: `0x20` is no control byte, has no high bit and is neither
backslash nor colon, but `renderByte` writes it as the four characters `\x20`, not as itself. -/
theorem renderByte_space_counterexample :
    ¬ ((0x20 < 0x20 ∨ 0x20 = 0x7f) ∨ 0x20 ≥ 0x80) ∧ 0x20 ≠ '\\'.toNat ∧ 0x20 ≠ ':'.toNat ∧
    renderByte 0x20 = "\\x20".data.map Char.toNat ∧ renderByte 0x20 ≠ [0x20] ∧
    RenderAssetCode [65, 0x20, 66, 0] = "A\\x20B".data.map Char.toNat := by
  decide

theorem hexDigit_lowerHex : ∀ n, n < 16 → hexDigit n = lowerHex.getD n 0 := by
  decide

theorem renderByte_eq_escapeByte (b : Nat) (hb : b < 256) : renderByte b = escapeByte b := by
  unfold renderByte escapeByte
  rw [hexDigit_lowerHex _ (by omega), hexDigit_lowerHex _ (by omega)]
  have e1 : '\\'.toNat = 92 := by decide
  have e2 : 'x'.toNat = 120 := by decide
  have e3 : ':'.toNat = 58 := by decide
  rw [e1, e2, e3]
  by_cases h : b ≤ 32 ∨ b ≥ 127
  · rw [if_pos h, if_pos (show b ≤ 32 ∨ b = 127 ∨ b ≥ 128 by omega)]
  · rw [if_neg h, if_neg (show ¬ (b ≤ 32 ∨ b = 127 ∨ b ≥ 128) by omega)]

/-- C14, amended: every byte `b` that `RenderAssetCode` renders is written as a backslash, `x`
and two lower-case hexadecimal digits when `b` is a control byte or the space (`b ≤ 0x20` or
`b = 0x7f`) or has the high bit set; as a backslash followed by `b` when `b` is a backslash or a
colon; and as the single character `b` in every other case. -/
theorem RenderAssetCode_escapes (bs : List Nat) (hb : ∀ b ∈ bs, b < 256) :
    (∀ b ∈ bs, renderByte b = escapeByte b) ∧
    ∃ n, n ≤ bs.length ∧ RenderAssetCode bs = ((bs.take n).map escapeByte).flatten := by
  refine ⟨fun b h => renderByte_eq_escapeByte b (hb b h), ?_⟩
  have hle := trimLen_le bs bs.length
  refine ⟨if bs.length > 4 ∧ trimLen bs bs.length ≤ 4 then 5 else trimLen bs bs.length, ?_, ?_⟩
  · split <;> omega
  · unfold RenderAssetCode
    simp only
    congr 1
    apply List.map_congr_left
    intro b h
    exact renderByte_eq_escapeByte b (hb b (List.mem_of_mem_take h))

theorem RenderAssetCode_escapes_witness :
    (∀ b ∈ [92, 0x20, 58, 65], b < 256) ∧
    ((∀ b ∈ [92, 0x20, 58, 65], renderByte b = escapeByte b) ∧
    ∃ n, n ≤ [92, 0x20, 58, 65].length ∧
      RenderAssetCode [92, 0x20, 58, 65] = (([92, 0x20, 58, 65].take n).map escapeByte).flatten) :=
  ⟨by decide, RenderAssetCode_escapes [92, 0x20, 58, 65] (by decide)⟩

/-! ### Scanning of asset codes, token by token -/

theorem scanLoop_step (fuel i r : Nat) (ss out : List Nat) :
    scanLoop (fuel + 1) i (r :: ss) out =
      match scanRound r ss with
      | .error e => .error e
      | .ok (v, rest) => scanLoop fuel (i + 1) rest (out.set i v) := by
  unfold scanRound
  simp only [scanLoop]
  by_cases h1 : r ≤ 32 ∨ r ≥ 127
  · simp only [h1, if_true]
  · simp only [h1, if_false]
    by_cases h2 : r = 92
    · simp only [h2, ne_eq, not_true_eq_false, if_false]
      cases ss with
      | nil => rfl
      | cons r2 ss2 =>
        simp only
        by_cases h3 : r2 = 120
        · simp only [h3, ne_eq, not_true_eq_false, if_false]
          cases fscanfHex2 ss2 with
          | none => rfl
          | some p => rfl
        · simp only [h3, ne_eq, not_false_eq_true, if_true]
    · simp only [h2, ne_eq, not_false_eq_true, if_true]

theorem scanTokens_length : ∀ (fuel : Nat) (ss vs rest : List Nat),
    scanTokens fuel ss = .ok (vs, rest) → vs.length ≤ fuel ∧ (vs.length < fuel → rest = []) := by
  intro fuel
  induction fuel with
  | zero =>
    intro ss vs rest h
    simp only [scanTokens, Except.ok.injEq, Prod.mk.injEq] at h
    obtain ⟨rfl, _⟩ := h
    simp
  | succ f ih =>
    intro ss vs rest h
    cases ss with
    | nil =>
      simp only [scanTokens, Except.ok.injEq, Prod.mk.injEq] at h
      obtain ⟨rfl, rfl⟩ := h
      simp
    | cons r ss =>
      rw [scanTokens] at h
      cases hr : scanRound r ss with
      | error e => rw [hr] at h; exact Except.noConfusion h
      | ok p =>
        obtain ⟨v, rest1⟩ := p
        rw [hr] at h
        simp only at h
        cases ht : scanTokens f rest1 with
        | error e => rw [ht] at h; exact Except.noConfusion h
        | ok q =>
          obtain ⟨vs1, rest2⟩ := q
          rw [ht] at h
          simp only [Except.ok.injEq, Prod.mk.injEq] at h
          obtain ⟨rfl, rfl⟩ := h
          obtain ⟨h1, h2⟩ := ih _ _ _ ht
          simp only [List.length_cons]
          exact ⟨by omega, fun hlt => h2 (by omega)⟩

/-- The loop of `ScanAssetCode` stores the bytes of the tokens from index `pre.length` on. -/
theorem scanLoop_tokens : ∀ (fuel : Nat) (ss pre : List Nat) (k : Nat), fuel ≤ k →
    scanLoop fuel pre.length ss (pre ++ List.replicate k 0) =
      match scanTokens fuel ss with
      | .error e => .error e
      | .ok (vs, rest) =>
          .ok (pre.length + vs.length, rest, pre ++ vs ++ List.replicate (k - vs.length) 0) := by
  intro fuel
  induction fuel with
  | zero =>
    intro ss pre k _
    simp [scanLoop, scanTokens]
  | succ f ih =>
    intro ss pre k hk
    cases ss with
    | nil => simp [scanLoop, scanTokens]
    | cons r ss =>
      rw [scanLoop_step, scanTokens]
      cases hr : scanRound r ss with
      | error e => rfl
      | ok p =>
        obtain ⟨v, rest1⟩ := p
        simp only
        obtain ⟨k', rfl⟩ : ∃ k', k = k' + 1 := ⟨k - 1, by omega⟩
        have hset : (pre ++ List.replicate (k' + 1) 0).set pre.length v
            = (pre ++ [v]) ++ List.replicate k' 0 := by
          rw [List.replicate_succ, List.set_append_right _ _ (le_refl _)]
          simp
        have hlen : pre.length + 1 = (pre ++ [v]).length := by simp
        rw [hset, hlen, ih rest1 (pre ++ [v]) k' (by omega)]
        cases ht : scanTokens f rest1 with
        | error e => rfl
        | ok q =>
          obtain ⟨vs1, rest2⟩ := q
          simp only [List.length_append, List.length_cons, List.length_nil, List.append_assoc,
            List.singleton_append, Nat.add_sub_add_right]
          congr 2
          omega

/-- The function `ScanAssetCode` in terms of the tokens of its input. -/
theorem ScanAssetCode_tokens (input : List Nat) :
    ScanAssetCode input =
      match scanTokens 12 input with
      | .error e => .error e
      | .ok (vs, rest) =>
          if rest.length > 0 then .error .tooLong
          else .ok (vs ++ List.replicate ((if vs.length ≤ 4 then 4 else 12) - vs.length) 0) := by
  unfold ScanAssetCode
  have h := scanLoop_tokens 12 input [] 12 (le_refl _)
  simp only [List.length_nil, List.nil_append, Nat.zero_add] at h
  rw [h]
  cases ht : scanTokens 12 input with
  | error e => rfl
  | ok q =>
    obtain ⟨vs, rest⟩ := q
    simp only
    obtain ⟨hl, _⟩ := scanTokens_length _ _ _ _ ht
    by_cases hrest : rest.length > 0
    · rw [if_pos hrest, if_pos hrest]
    · rw [if_neg hrest, if_neg hrest]
      by_cases h4 : vs.length ≤ 4
      · rw [if_pos h4, if_pos h4]
        congr 1
        rw [List.take_append_eq_append_take, List.take_of_length_le h4, List.take_replicate]
        congr 2
        omega
      · rw [if_neg h4, if_neg h4]

/-- Inside a hexadecimal escape `fmt.Fscanf` skips white space before the digits, so the text
`\x 41`, which holds an unescaped space, is accepted and decodes to `A`. -/
theorem ScanAssetCode_space_example :
    (0x20 ∈ "\\x 41".data.map Char.toNat) ∧
    ScanAssetCode ("\\x 41".data.map Char.toNat) = .ok [0x41, 0, 0, 0] := by
  decide

theorem scanTokens_nil (n : Nat) : scanTokens n [] = .ok ([], []) := by
  cases n <;> rfl

/-- Reading `a + b` tokens is reading `a` tokens and then `b` more. -/
theorem scanTokens_add : ∀ (a b : Nat) (ss : List Nat),
    scanTokens (a + b) ss =
      match scanTokens a ss with
      | .error e => .error e
      | .ok (vs, rest) =>
          match scanTokens b rest with
          | .error e => .error e
          | .ok (ws, rest2) => .ok (vs ++ ws, rest2) := by
  intro a
  induction a with
  | zero =>
    intro b ss
    rw [Nat.zero_add]
    simp only [scanTokens]
    cases scanTokens b ss with
    | error e => rfl
    | ok q => rfl
  | succ a ih =>
    intro b ss
    rw [show a + 1 + b = (a + b) + 1 by omega]
    cases ss with
    | nil => simp only [scanTokens, scanTokens_nil, List.append_nil]
    | cons r ss =>
      simp only [scanTokens]
      cases hr : scanRound r ss with
      | error e => rfl
      | ok p =>
        obtain ⟨v, rest1⟩ := p
        simp only
        rw [ih b rest1]
        cases scanTokens a rest1 with
        | error e => rfl
        | ok q =>
          obtain ⟨vs1, rest2⟩ := q
          simp only
          cases scanTokens b rest2 with
          | error e => rfl
          | ok q2 => rfl

theorem scanTokens_bad (n r : Nat) (rest : List Nat) (h : r ≤ 0x20 ∨ r ≥ 0x7f) :
    scanTokens (n + 1) (r :: rest) = .error .invalidCharacter := by
  simp only [scanTokens, scanRound]
  rw [if_pos h]

/-- What `ScanAssetCode` does check, token by token: it rejects every input in which a byte
`≤ 0x20` or `≥ 0x7f` stands at the start of a token, that is where the scanner reads it after
some number `k` of complete tokens, and every input that holds more than 12 tokens; on every
accepted input it returns the decoded bytes followed by zero padding, 4 bytes in all when at most
4 bytes were decoded and 12 bytes otherwise. The bytes that a hexadecimal escape reads over are
part of its token and are not checked. -/
theorem ScanAssetCode_rejects (input : List Nat) :
    (∀ k vs r rest, scanTokens k input = .ok (vs, r :: rest) → (r ≤ 0x20 ∨ r ≥ 0x7f) →
      ∃ e, ScanAssetCode input = .error e) ∧
    (∀ vs r rest, scanTokens 12 input = .ok (vs, r :: rest) →
      ScanAssetCode input = .error .tooLong) ∧
    (∀ bs, ScanAssetCode input = .ok bs →
      ∃ vs, scanTokens 12 input = .ok (vs, []) ∧ vs.length ≤ 12 ∧
        (vs.length ≤ 4 → bs.length = 4) ∧ (4 < vs.length → bs.length = 12) ∧
        bs = vs ++ List.replicate (bs.length - vs.length) 0) := by
  have hlong : ∀ vs r rest, scanTokens 12 input = .ok (vs, r :: rest) →
      ScanAssetCode input = .error .tooLong := by
    intro vs r rest h
    rw [ScanAssetCode_tokens, h]
    simp
  refine ⟨?_, hlong, ?_⟩
  · intro k vs r rest h hbad
    rcases Nat.lt_or_ge k 12 with hk | hk
    · refine ⟨.invalidCharacter, ?_⟩
      have hsplit := scanTokens_add k (12 - k) input
      rw [show k + (12 - k) = 12 by omega, h] at hsplit
      simp only at hsplit
      obtain ⟨m, hm⟩ : ∃ m, 12 - k = m + 1 := ⟨12 - k - 1, by omega⟩
      rw [hm, scanTokens_bad m r rest hbad] at hsplit
      rw [ScanAssetCode_tokens, hsplit]
    · have hsplit := scanTokens_add 12 (k - 12) input
      rw [show 12 + (k - 12) = k by omega, h] at hsplit
      cases h12 : scanTokens 12 input with
      | error e => rw [h12] at hsplit; exact Except.noConfusion hsplit
      | ok q =>
        obtain ⟨vs1, rest1⟩ := q
        rw [h12] at hsplit
        simp only at hsplit
        cases rest1 with
        | nil =>
          rw [scanTokens_nil] at hsplit
          simp only [Except.ok.injEq, Prod.mk.injEq] at hsplit
          exact absurd hsplit.2 (by simp)
        | cons r1 rest2 => exact ⟨_, hlong _ _ _ h12⟩
  · intro bs h
    rw [ScanAssetCode_tokens] at h
    cases h12 : scanTokens 12 input with
    | error e => rw [h12] at h; exact Except.noConfusion h
    | ok q =>
      obtain ⟨vs, rest⟩ := q
      rw [h12] at h
      simp only at h
      obtain ⟨hl, _⟩ := scanTokens_length _ _ _ _ h12
      cases rest with
      | cons r1 rest2 => simp at h
      | nil =>
        simp only [List.length_nil, gt_iff_lt, Nat.lt_irrefl, if_false, Except.ok.injEq] at h
        refine ⟨vs, rfl, hl, ?_, ?_, ?_⟩
        · intro h4
          rw [← h, if_pos h4, List.length_append, List.length_replicate]
          omega
        · intro h4
          rw [← h, if_neg (by omega), List.length_append, List.length_replicate]
          omega
        · have hlen : bs.length = if vs.length ≤ 4 then 4 else 12 := by
            rw [← h, List.length_append, List.length_replicate]
            split <;> omega
          rw [hlen]
          exact h.symm

/-! ### Signature hints -/

theorem list_length_four (l : List Nat) (h : l.length = 4) :
    l = [l.getD 0 0, l.getD 1 0, l.getD 2 0, l.getD 3 0] := by
  rcases l with _ | ⟨a, _ | ⟨b, _ | ⟨c, _ | ⟨d, _ | ⟨e, t⟩⟩⟩⟩⟩ <;> simp at h ⊢

theorem signerHint_key (k : List Nat) (hk : k.length = 32) :
    signerHint k = some [k.getD 28 0, k.getD 29 0, k.getD 30 0, k.getD 31 0] := by
  unfold signerHint
  rw [if_neg (by omega), hk]
  have hl : (k.drop 28).length = 4 := by rw [List.length_drop]; omega
  have h4 := list_length_four _ hl
  have hg : ∀ i, i < 4 → (k.drop 28).getD i 0 = k.getD (28 + i) 0 := by
    intro i hi
    rw [List.getD_eq_getElem?_getD, List.getD_eq_getElem?_getD, List.getElem?_drop]
  rw [hg 0 (by omega), hg 1 (by omega), hg 2 (by omega), hg 3 (by omega)] at h4
  rw [show 32 - 4 = 28 by rfl, h4]

theorem payload_tail_length (pl : List Nat) :
    (pl.drop (pl.length - min 4 pl.length)).length = min 4 pl.length := by
  rw [List.length_drop]
  omega

/-- C12: the signature hint. For a `PublicKey` and for a `SignerKey` of type ed25519,
pre-auth-tx or hash-x, `Hint()` is the last 4 bytes of the 32-byte key or hash. For a
signed-payload `SignerKey` with key `k` and payload `pl`, and `t` the last `min(4, len(pl))`
bytes of `pl`: `Hint()[i] = k[28+i] XOR t[i]` for `i < len(t)` and `Hint()[i] = k[28+i]` for
`len(t) ≤ i < 4`; so the hint is the XOR of the key tail with `t` padded on the right with zeros
to 4 bytes. -/
theorem Hint_spec (k pl : List Nat) (hk : k.length = 32) :
    PublicKey.Hint (.ed25519 k) = some [k.getD 28 0, k.getD 29 0, k.getD 30 0, k.getD 31 0] ∧
    SignerKey.Hint (.ed25519 k) = some [k.getD 28 0, k.getD 29 0, k.getD 30 0, k.getD 31 0] ∧
    SignerKey.Hint (.preAuthTx k) = some [k.getD 28 0, k.getD 29 0, k.getD 30 0, k.getD 31 0] ∧
    SignerKey.Hint (.hashX k) = some [k.getD 28 0, k.getD 29 0, k.getD 30 0, k.getD 31 0] ∧
    ∃ h, SignerKey.Hint (.ed25519SignedPayload k pl) = some h ∧ h.length = 4 ∧
      (∀ i, i < min 4 pl.length →
        h.getD i 0 = k.getD (28 + i) 0 ^^^ (pl.drop (pl.length - min 4 pl.length)).getD i 0) ∧
      (∀ i, min 4 pl.length ≤ i → i < 4 → h.getD i 0 = k.getD (28 + i) 0) ∧
      h = List.zipWith (fun a b => a ^^^ b) (k.drop 28)
        (pl.drop (pl.length - min 4 pl.length) ++ List.replicate (4 - min 4 pl.length) 0) := by
  have hs := signerHint_key k hk
  refine ⟨hs, hs, hs, hs, ?_⟩
  have hd : k.drop 28 = [k.getD 28 0, k.getD 29 0, k.getD 30 0, k.getD 31 0] := by
    have := hs
    unfold signerHint at this
    rw [if_neg (by omega), hk] at this
    exact Option.some.inj this
  have htl := payload_tail_length pl
  have hpl : (if pl.length > 4 then pl.drop (pl.length - 4) else pl)
      = pl.drop (pl.length - min 4 pl.length) := by
    split
    · rw [Nat.min_eq_left (by omega)]
    · rw [Nat.min_eq_right (by omega), Nat.sub_self, List.drop_zero]
  simp only [SignerKey.Hint, hs, Option.map_some', hpl, hd]
  have hm : min 4 pl.length ≤ 4 := Nat.min_le_left _ _
  generalize pl.drop (pl.length - min 4 pl.length) = t at htl ⊢
  generalize min 4 pl.length = m at htl hm ⊢
  refine ⟨_, rfl, ?_⟩
  rcases t with _ | ⟨b0, _ | ⟨b1, _ | ⟨b2, _ | ⟨b3, _ | ⟨b4, t⟩⟩⟩⟩⟩
  · simp only [List.length_nil] at htl
    subst htl
    refine ⟨rfl, fun i hi => absurd hi (Nat.not_lt_zero i), fun i _ hi => ?_, ?_⟩
    · interval_cases i <;> rfl
    · simp [xorLoop, List.replicate]
  · simp only [List.length_cons, List.length_nil] at htl
    subst htl
    refine ⟨rfl, fun i hi => ?_, fun i h1 hi => ?_, ?_⟩
    · interval_cases i; rfl
    · interval_cases i <;> rfl
    · simp [xorLoop, List.replicate]
  · simp only [List.length_cons, List.length_nil] at htl
    subst htl
    refine ⟨rfl, fun i hi => ?_, fun i h1 hi => ?_, ?_⟩
    · interval_cases i <;> rfl
    · interval_cases i <;> rfl
    · simp [xorLoop, List.replicate]
  · simp only [List.length_cons, List.length_nil] at htl
    subst htl
    refine ⟨rfl, fun i hi => ?_, fun i h1 hi => ?_, ?_⟩
    · interval_cases i <;> rfl
    · interval_cases i; rfl
    · simp [xorLoop, List.replicate]
  · simp only [List.length_cons, List.length_nil] at htl
    subst htl
    refine ⟨rfl, fun i hi => ?_, fun i h1 hi => absurd hi (by omega), ?_⟩
    · interval_cases i <;> rfl
    · simp [xorLoop, List.replicate]
  · simp only [List.length_cons] at htl
    omega

theorem Hint_spec_witness :
    (List.range 32).length = 32 ∧
    (PublicKey.Hint (.ed25519 (List.range 32)) = some [(List.range 32).getD 28 0,
        (List.range 32).getD 29 0, (List.range 32).getD 30 0, (List.range 32).getD 31 0] ∧
    SignerKey.Hint (.ed25519 (List.range 32)) = some [(List.range 32).getD 28 0,
        (List.range 32).getD 29 0, (List.range 32).getD 30 0, (List.range 32).getD 31 0] ∧
    SignerKey.Hint (.preAuthTx (List.range 32)) = some [(List.range 32).getD 28 0,
        (List.range 32).getD 29 0, (List.range 32).getD 30 0, (List.range 32).getD 31 0] ∧
    SignerKey.Hint (.hashX (List.range 32)) = some [(List.range 32).getD 28 0,
        (List.range 32).getD 29 0, (List.range 32).getD 30 0, (List.range 32).getD 31 0] ∧
    ∃ h, SignerKey.Hint (.ed25519SignedPayload (List.range 32) [1, 2]) = some h ∧ h.length = 4 ∧
      (∀ i, i < min 4 [1, 2].length →
        h.getD i 0 = (List.range 32).getD (28 + i) 0
          ^^^ ([1, 2].drop ([1, 2].length - min 4 [1, 2].length)).getD i 0) ∧
      (∀ i, min 4 [1, 2].length ≤ i → i < 4 → h.getD i 0 = (List.range 32).getD (28 + i) 0) ∧
      h = List.zipWith (fun a b => a ^^^ b) ((List.range 32).drop 28)
        ([1, 2].drop ([1, 2].length - min 4 [1, 2].length)
          ++ List.replicate (4 - min 4 [1, 2].length) 0)) :=
  ⟨by decide, Hint_spec (List.range 32) [1, 2] (by decide)⟩

/-- The hint of a signed-payload signer on examples: a payload of 6 bytes contributes its last
4 bytes, a payload of 2 bytes changes the first 2 bytes of the key tail only. -/
theorem Hint_examples :
    SignerKey.Hint (.ed25519SignedPayload (List.range 32) [1, 2, 3, 4, 5, 6])
      = some [28 ^^^ 3, 29 ^^^ 4, 30 ^^^ 5, 31 ^^^ 6] ∧
    SignerKey.Hint (.ed25519SignedPayload (List.range 32) [1, 2]) = some [28 ^^^ 1, 29 ^^^ 2, 30, 31] := by
  decide

/-! ### Optional fields in the text scanner -/

theorem dropWhile_spaces (k : Nat) (w : List Char) (hw : w.head? ≠ some ' ') :
    (List.replicate k ' ' ++ w).dropWhile (fun c => c == ' ') = w := by
  induction k with
  | zero =>
    cases w with
    | nil => rfl
    | cons c t =>
      have hc : c ≠ ' ' := fun e => hw (by rw [e]; rfl)
      rw [List.replicate_zero, List.nil_append, List.dropWhile_cons_of_neg (by simpa using hc)]
  | succ k ih =>
    rw [List.replicate_succ, List.cons_append, List.dropWhile_cons]
    simpa using ih

theorem trimLeadingSpaces_spaces (k : Nat) (w : String) (hw : w.data.head? ≠ some ' ') :
    trimLeadingSpaces (String.mk (List.replicate k ' ' ++ w.data)) = w := by
  unfold trimLeadingSpaces
  rw [dropWhile_spaces k w.data hw]

/-- C16: for an optional field at path `name`, `XdrScan.Marshal` reads the map value of
`name.present` and ignores its leading spaces. A missing value, a blank value or `false` marks
the field absent, and the nested value is not scanned; `true` marks it present, and the nested
value is scanned; any other value makes the scan fail. -/
theorem XdrScan_Marshal_optional (scan sscan : String → Option Nat) (fuel : Nat) (kvs : Kvs)
    (name : String) (val : Option XdrVal) (zero : XdrVal) :
    (kvGet kvs (name ++ ".present") = none →
      XdrScan.Marshal scan sscan (fuel + 1) kvs name (.ptr val zero)
        = .ok (kvDelete kvs name, .ptr none zero)) ∧
    (∀ (k : Nat) (w : String),
      kvGet kvs (name ++ ".present") = some (String.mk (List.replicate k ' ' ++ w.data)) →
      w.data.head? ≠ some ' ' →
      ((w = "" ∨ w = "false") →
        XdrScan.Marshal scan sscan (fuel + 1) kvs name (.ptr val zero)
          = .ok (kvDelete kvs name, .ptr none zero)) ∧
      (w = "true" →
        XdrScan.Marshal scan sscan (fuel + 1) kvs name (.ptr val zero)
          = match XdrScan.Marshal scan sscan fuel kvs name (val.getD zero) with
            | .error e => .error e
            | .ok (kvs1, x) => .ok (kvDelete kvs1 name, .ptr (some x) zero)) ∧
      (w ≠ "" → w ≠ "false" → w ≠ "true" →
        ∃ e, XdrScan.Marshal scan sscan (fuel + 1) kvs name (.ptr val zero) = .error e)) := by
  constructor
  · intro h
    have hv : kvVal kvs (name ++ ".present") = "" := by
      unfold kvVal
      rw [h]
      rfl
    have ht : trimLeadingSpaces "" = "" := by decide
    simp only [XdrScan.Marshal, hv, ht, or_true, if_true]
  · intro k w h hw
    have hv : kvVal kvs (name ++ ".present") = String.mk (List.replicate k ' ' ++ w.data) := by
      unfold kvVal
      rw [h]
      rfl
    have ht := trimLeadingSpaces_spaces k w hw
    refine ⟨fun h1 => ?_, fun h1 => ?_, fun h1 h2 h3 => ?_⟩
    · simp only [XdrScan.Marshal, hv, ht]
      rw [if_pos (Or.symm h1)]
    · have hne : ¬ (w = "false" ∨ w = "") := by
        rw [h1]
        decide
      simp only [XdrScan.Marshal, hv, ht]
      rw [if_neg hne]
      rw [if_pos h1]
    · simp only [XdrScan.Marshal, hv, ht]
      rw [if_neg (fun h => h.elim h2 h1), if_neg h3]
      exact ⟨_, rfl⟩

/-- The optional field of C16 on examples: a missing key, `false` after spaces and a blank value
leave the field absent and the entry of the nested value unread; `true` after spaces scans the
nested value; `yes` and `true` followed by a space fail. -/
theorem XdrScan_Marshal_optional_examples :
    XdrScan.Marshal scanDecimal scanDecimal 2 [("o", "7")] "o" (.ptr none (.scanner 0))
      = .ok ([], .ptr none (.scanner 0)) ∧
    XdrScan.Marshal scanDecimal scanDecimal 2 [("o.present", "  false"), ("o", "7")] "o"
        (.ptr (some (.scanner 3)) (.scanner 0))
      = .ok ([("o.present", "  false")], .ptr none (.scanner 0)) ∧
    XdrScan.Marshal scanDecimal scanDecimal 2 [("o.present", "   "), ("o", "7")] "o"
        (.ptr none (.scanner 0))
      = .ok ([("o.present", "   ")], .ptr none (.scanner 0)) ∧
    XdrScan.Marshal scanDecimal scanDecimal 2 [("o.present", "  true"), ("o", "7")] "o"
        (.ptr none (.scanner 0))
      = .ok ([("o.present", "  true")], .ptr (some (.scanner 7)) (.scanner 0)) ∧
    XdrScan.Marshal scanDecimal scanDecimal 2 [("o.present", " yes"), ("o", "7")] "o"
        (.ptr none (.scanner 0))
      = .error "o.present ( yes) must be true or false" ∧
    XdrScan.Marshal scanDecimal scanDecimal 2 [("o.present", "true "), ("o", "7")] "o"
        (.ptr none (.scanner 0))
      = .error "o.present (true ) must be true or false" := by
  refine ⟨?_, ?_, ?_, ?_, ?_, ?_⟩ <;> rfl

/-! ### The key/value map of `txScan` -/

theorem splitLines_ne_nil (cs : List Char) : splitLines cs ≠ [] := by
  cases cs with
  | nil => simp [splitLines]
  | cons c cs =>
    unfold splitLines
    split
    · simp
    · split <;> simp

theorem splitLines_line (l rest : List Char) (hl : '\n' ∉ l) :
    splitLines (l ++ '\n' :: rest) = l :: splitLines rest := by
  induction l with
  | nil => simp [splitLines]
  | cons c l ih =>
    have hc : c ≠ '\n' := fun e => hl (by rw [e]; exact List.mem_cons_self _ _)
    have hl2 : '\n' ∉ l := fun h => hl (List.mem_cons_of_mem _ h)
    rw [List.cons_append, splitLines, if_neg hc, ih hl2]

theorem splitLines_last (l : List Char) (hl : '\n' ∉ l) : splitLines l = [l] := by
  induction l with
  | nil => rfl
  | cons c l ih =>
    have hc : c ≠ '\n' := fun e => hl (by rw [e]; exact List.mem_cons_self _ _)
    have hl2 : '\n' ∉ l := fun h => hl (List.mem_cons_of_mem _ h)
    rw [splitLines, if_neg hc, ih hl2]

theorem intercalate_cons_cons (sep l l2 : List Char) (ls : List (List Char)) :
    List.intercalate sep (l :: l2 :: ls) = l ++ sep ++ List.intercalate sep (l2 :: ls) := by
  simp [List.intercalate, List.intersperse]

theorem splitLines_intercalate : ∀ (lines : List (List Char)), lines ≠ [] →
    (∀ l ∈ lines, '\n' ∉ l) → splitLines (List.intercalate ['\n'] lines) = lines := by
  intro lines
  induction lines with
  | nil => intro h; exact absurd rfl h
  | cons l ls ih =>
    intro _ hl
    cases ls with
    | nil =>
      have : List.intercalate ['\n'] [l] = l := by simp [List.intercalate, List.intersperse]
      rw [this]
      exact splitLines_last l (hl l (List.mem_cons_self _ _))
    | cons l2 ls =>
      rw [intercalate_cons_cons, List.append_assoc, List.singleton_append,
        splitLines_line l _ (hl l (List.mem_cons_self _ _)),
        ih (by simp) (fun x hx => hl x (List.mem_cons_of_mem _ hx))]

theorem splitColon_none (l : List Char) : splitColon l = none ↔ ':' ∉ l := by
  induction l with
  | nil => simp [splitColon]
  | cons c l ih =>
    unfold splitColon
    by_cases hc : c = ':'
    · simp [hc]
    · rw [if_neg hc]
      simp only [Option.map_eq_none', ih, List.mem_cons, not_or]
      exact ⟨fun h => ⟨fun e => hc e.symm, h⟩, fun h => h.2⟩

theorem splitColon_append (k v : List Char) (hk : ':' ∉ k) :
    splitColon (k ++ ':' :: v) = some (k, v) := by
  induction k with
  | nil => simp [splitColon]
  | cons c k ih =>
    have hc : c ≠ ':' := fun e => hk (by rw [e]; exact List.mem_cons_self _ _)
    have hk2 : ':' ∉ k := fun h => hk (List.mem_cons_of_mem _ h)
    rw [List.cons_append, splitColon, if_neg hc, ih hk2]
    rfl

theorem splitColon_some : ∀ (l k v : List Char), splitColon l = some (k, v) →
    l = k ++ ':' :: v ∧ ':' ∉ k := by
  intro l
  induction l with
  | nil => intro k v h; simp [splitColon] at h
  | cons c l ih =>
    intro k v h
    unfold splitColon at h
    by_cases hc : c = ':'
    · rw [if_pos hc] at h
      simp only [Option.some.injEq, Prod.mk.injEq] at h
      obtain ⟨rfl, rfl⟩ := h
      simp [hc]
    · rw [if_neg hc] at h
      cases hs : splitColon l with
      | none => rw [hs] at h; simp at h
      | some p =>
        obtain ⟨k1, v1⟩ := p
        rw [hs] at h
        simp only [Option.map_some', Option.some.injEq, Prod.mk.injEq] at h
        obtain ⟨rfl, rfl⟩ := h
        obtain ⟨e, hk⟩ := ih _ _ hs
        refine ⟨by rw [e]; rfl, ?_⟩
        simp only [List.mem_cons, not_or]
        exact ⟨fun e => hc e.symm, hk⟩

theorem kvGet_kvDelete (kvs : Kvs) (k key : String) (h : k ≠ key) :
    kvGet (kvDelete kvs k) key = kvGet kvs key := by
  unfold kvGet kvDelete
  induction kvs with
  | nil => rfl
  | cons e t ih =>
    by_cases h1 : e.1 = k
    · have h2 : ¬ e.1 = key := fun e2 => h (h1.symm.trans e2)
      simp only [List.filter_cons, h1, bne_self_eq_false, Bool.false_eq_true, if_false,
        List.find?_cons]
      have h3 : (k == key) = false := by simpa using h
      rw [h3]
      simpa using ih
    · have h3 : (e.1 != k) = true := by simpa using h1
      simp only [List.filter_cons, h3, if_true, List.find?_cons]
      cases hk : e.1 == key with
      | true => rfl
      | false => simpa using ih

theorem kvGet_kvSet (kvs : Kvs) (k v key : String) :
    kvGet (kvSet kvs k v) key = if k = key then some v else kvGet kvs key := by
  by_cases h : k = key
  · rw [if_pos h]
    unfold kvSet kvGet
    simp [h]
  · rw [if_neg h, ← kvGet_kvDelete kvs k key h]
    unfold kvSet kvGet
    have h3 : (k == key) = false := by simpa using h
    simp [List.find?_cons, h3]

theorem colon_split_unique (k k1 v v1 : List Char) (hk : ':' ∉ k) (hk1 : ':' ∉ k1)
    (h : k ++ ':' :: v = k1 ++ ':' :: v1) : k = k1 ∧ v = v1 := by
  have e1 := splitColon_append k v hk
  rw [h, splitColon_append k1 v1 hk1] at e1
  simp only [Option.some.injEq, Prod.mk.injEq] at e1
  exact ⟨e1.1.symm, e1.2.symm⟩

theorem append_singleton_split (ls pre post : List (List Char)) (l x : List Char)
    (h : ls ++ [l] = pre ++ x :: post) :
    (post = [] ∧ x = l ∧ ls = pre) ∨ ∃ post1, post = post1 ++ [l] ∧ ls = pre ++ x :: post1 := by
  rcases List.eq_nil_or_concat post with hp | ⟨post1, y, hp⟩
  · left
    subst hp
    have h2 : ls ++ [l] = pre ++ [x] := h
    obtain ⟨e1, e2⟩ := List.append_inj' h2 rfl
    exact ⟨rfl, (List.singleton_inj.mp e2).symm, e1⟩
  · right
    rw [List.concat_eq_append] at hp
    subst hp
    have h2 : ls ++ [l] = (pre ++ x :: post1) ++ [y] := by
      rw [h]
      simp
    obtain ⟨e1, e2⟩ := List.append_inj' h2 rfl
    have e3 := List.singleton_inj.mp e2
    subst e3
    exact ⟨post1, rfl, e1⟩

theorem txScanLine_none (kvs : Kvs) (l : List Char) (h : splitColon l = none) :
    txScanLine kvs l = kvs := by
  unfold txScanLine
  rw [h]

theorem txScanLine_some (kvs : Kvs) (l k v : List Char) (h : splitColon l = some (k, v)) :
    txScanLine kvs l = kvSet kvs (String.mk k) (String.mk v) := by
  unfold txScanLine
  rw [h]

/-- The entries of the map built from a list of lines: the key `k` has the value `v` exactly when
some line is `k:v` with no colon in `k` and no later line starts with `k:`. -/
theorem txScanLine_fold (lines : List (List Char)) : ∀ (k v : List Char),
    kvGet (lines.foldl txScanLine []) (String.mk k) = some (String.mk v) ↔
      ':' ∉ k ∧ ∃ pre post, lines = pre ++ (k ++ ':' :: v) :: post ∧
        ∀ l ∈ post, ∀ w, l ≠ k ++ ':' :: w := by
  induction lines using List.reverseRecOn with
  | nil =>
    intro k v
    constructor
    · intro h
      simp [kvGet] at h
    · rintro ⟨_, pre, post, h, _⟩
      exact absurd h (by simp)
  | append_singleton ls l ih =>
    intro k v
    rw [List.foldl_append, List.foldl_cons, List.foldl_nil]
    have hstep : (':' ∉ k ∧ ∃ pre post, ls ++ [l] = pre ++ (k ++ ':' :: v) :: post ∧
        ∀ x ∈ post, ∀ w, x ≠ k ++ ':' :: w) ↔
        ':' ∉ k ∧ (l = k ++ ':' :: v ∨ ((∀ w, l ≠ k ++ ':' :: w) ∧
          ∃ pre post, ls = pre ++ (k ++ ':' :: v) :: post ∧
            ∀ x ∈ post, ∀ w, x ≠ k ++ ':' :: w)) := by
      constructor
      · rintro ⟨hk, pre, post, h, hp⟩
        refine ⟨hk, ?_⟩
        rcases append_singleton_split _ _ _ _ _ h with ⟨_, hx, _⟩ | ⟨post1, e1, e2⟩
        · exact Or.inl hx.symm
        · right
          subst e1
          exact ⟨hp l (by simp), pre, post1, e2, fun x hx => hp x (by simp [hx])⟩
      · rintro ⟨hk, h | ⟨hl, pre, post, h, hp⟩⟩
        · exact ⟨hk, ls, [], by rw [h], fun x hx => absurd hx (List.not_mem_nil x)⟩
        · refine ⟨hk, pre, post ++ [l], by rw [h]; simp, fun x hx => ?_⟩
          rcases List.mem_append.mp hx with h1 | h1
          · exact hp x h1
          · rw [List.mem_singleton.mp h1]
            exact hl
    rw [hstep]
    cases hs : splitColon l with
    | none =>
      have hno := (splitColon_none l).mp hs
      have hl : ∀ w, l ≠ k ++ ':' :: w := fun w e => hno (by rw [e]; simp)
      rw [txScanLine_none _ _ hs, ih k v]
      constructor
      · rintro ⟨hk, h⟩
        exact ⟨hk, Or.inr ⟨hl, h⟩⟩
      · rintro ⟨hk, h | ⟨_, h⟩⟩
        · exact absurd h (hl v)
        · exact ⟨hk, h⟩
    | some p =>
      obtain ⟨k1, v1⟩ := p
      obtain ⟨el, hk1⟩ := splitColon_some _ _ _ hs
      rw [txScanLine_some _ _ _ _ hs, kvGet_kvSet]
      by_cases hkk : k1 = k
      · subst hkk
        rw [if_pos rfl]
        constructor
        · intro h
          have hv : v1 = v := by
            exact congrArg String.data (Option.some.inj h)
          subst hv
          exact ⟨hk1, Or.inl el⟩
        · rintro ⟨hk, h | ⟨hl, _⟩⟩
          · rw [el] at h
            obtain ⟨_, hv⟩ := colon_split_unique _ _ _ _ hk1 hk1 h
            rw [hv]
          · exact absurd el (hl v1)
      · have hne : ¬ (String.mk k1 = String.mk k) := fun e => hkk (congrArg String.data e)
        rw [if_neg hne, ih k v]
        constructor
        · rintro ⟨hk, h⟩
          refine ⟨hk, Or.inr ⟨fun w e => ?_, h⟩⟩
          rw [el] at e
          exact hkk (colon_split_unique _ _ _ _ hk1 hk e).1
        · rintro ⟨hk, h | ⟨_, h⟩⟩
          · rw [el] at h
            exact absurd (colon_split_unique _ _ _ _ hk1 hk h).1 hkk
          · exact ⟨hk, h⟩

/-- C17: the key/value map that `txScan` builds from the input text made of the lines `lines`
joined by newlines. The key `k` is mapped to `v` exactly when some line is `k`, a colon and `v`
with no colon in `k` (so the line is split at its first colon, and `v` is everything after it,
further colons included) and no later line has the same key (the last one wins); a line without
a colon contributes nothing and the map has no other entries. -/
theorem txScanKvs_spec (lines : List (List Char)) (hl : ∀ l ∈ lines, '\n' ∉ l)
    (k v : List Char) :
    kvGet (txScanKvs (String.mk (List.intercalate ['\n'] lines))) (String.mk k)
        = some (String.mk v) ↔
      ':' ∉ k ∧ ∃ pre post, lines = pre ++ (k ++ ':' :: v) :: post ∧
        ∀ l ∈ post, ∀ w, l ≠ k ++ ':' :: w := by
  unfold txScanKvs
  by_cases hne : lines = []
  · subst hne
    constructor
    · intro h
      have e : List.foldl txScanLine []
          (splitLines (String.mk (List.intercalate ['\n'] [])).data) = [] := by decide
      rw [e] at h
      simp [kvGet] at h
    · rintro ⟨_, pre, post, h, _⟩
      exact absurd h (by simp)
  · rw [splitLines_intercalate lines hne hl]
    exact txScanLine_fold lines k v

theorem txScanKvs_spec_witness :
    (∀ l ∈ ["a: 1".data, "b:2:3".data, "no colon".data, "a:9".data, []], '\n' ∉ l) ∧
    (kvGet (txScanKvs (String.mk (List.intercalate ['\n']
          ["a: 1".data, "b:2:3".data, "no colon".data, "a:9".data, []]))) (String.mk "b".data)
        = some (String.mk "2:3".data) ↔
      ':' ∉ "b".data ∧ ∃ pre post,
        ["a: 1".data, "b:2:3".data, "no colon".data, "a:9".data, []]
          = pre ++ ("b".data ++ ':' :: "2:3".data) :: post ∧
        ∀ l ∈ post, ∀ w, l ≠ "b".data ++ ':' :: w) :=
  ⟨by decide, txScanKvs_spec _ (by decide) _ _⟩

/-- The map of C17 on an example: the second `a` line wins, the value of `b` keeps its colon, the
line without a colon and the empty last line add nothing. -/
theorem txScanKvs_example :
    txScanKvs "a: 1\nb:2:3\nno colon\na:9\n" = [("a", "9"), ("b", "2:3")] := by
  decide

/-! ### Scanning an asset -/

theorem lastIndexByte_none (bs : List Nat) (c : Nat) (h : c ∉ bs) : lastIndexByte bs c = none := by
  unfold lastIndexByte
  have hr : c ∉ bs.reverse := fun hm => h (List.mem_reverse.mp hm)
  have hi := List.indexOf_eq_length.mpr hr
  rw [hi, List.length_reverse, if_neg (Nat.lt_irrefl _)]

/-- C18 on the code: `Asset.Scan` never compares the token with `native`. Every token without a
colon that is at most 12 bytes long sets the asset to native and returns no error; only a
colon-free token of more than 12 bytes is rejected. -/
theorem Asset_Scan_colon_free (scanPoolID : List Nat → Option (List Nat)) (bs : List Nat)
    (h : ':'.toNat ∉ bs) :
    (bs.length ≤ 12 → Asset.Scan scanPoolID bs = .ok .native) ∧
    (bs.length > 12 → Asset.Scan scanPoolID bs = .error .notAnAsset) := by
  have hl := lastIndexByte_none bs 58 h
  constructor
  · intro h12
    unfold Asset.Scan
    rw [hl]
    simp only
    rw [if_neg (by omega)]
  · intro h12
    unfold Asset.Scan
    rw [hl]
    simp only
    rw [if_pos h12]

theorem Asset_Scan_colon_free_witness :
    ':'.toNat ∉ "USD".data.map Char.toNat ∧
    (("USD".data.map Char.toNat).length ≤ 12 →
      Asset.Scan (fun _ => none) ("USD".data.map Char.toNat) = .ok .native) ∧
    (("USD".data.map Char.toNat).length > 12 →
      Asset.Scan (fun _ => none) ("USD".data.map Char.toNat) = .error .notAnAsset) :=
  ⟨by decide, Asset_Scan_colon_free (fun _ => none) ("USD".data.map Char.toNat) (by decide)⟩

/-- The tokens `USD` and the empty token are not the text `native` and hold no colon, and
`Asset.Scan` sets the asset to native for both, as it does for `native`. -/
theorem Asset_Scan_examples :
    "USD".data.map Char.toNat ≠ nativeText ∧
    Asset.Scan (fun _ => none) ("USD".data.map Char.toNat) = .ok .native ∧
    Asset.Scan (fun _ => none) [] = .ok .native ∧
    Asset.Scan (fun _ => none) nativeText = .ok .native ∧
    Asset.Scan (fun _ => none) ("ABCDEFGHIJKLM".data.map Char.toNat) = .error .notAnAsset := by
  decide
/-! ### The recursive walker -/

/-- The ancestors stay unpruned when `fn` answers false on one more aggregate. -/
theorem unpruned_append (p : XdrNode → Bool) (anc : List XdrNode) (a : XdrNode) :
    (anc ++ [a]).all (fun a => !p a) = (anc.all (fun a => !p a) && !p a) := by
  simp [List.all_append]

mutual
/-- Below a pruned aggregate nothing passes the filter. -/
theorem preorder_pruned (p : XdrNode → Bool) : ∀ (val : XdrNode) (anc : List XdrNode),
    anc.all (fun a => !p a) = false →
    (preorder anc val).filter (fun x => x.1.all (fun a => !p a)) = []
  | .scalar v, anc, h => by
    rw [preorder, List.filter_cons, h]
    rfl
  | .aggregate v cs, anc, h => by
    rw [preorder, List.filter_cons, h]
    simp only [Bool.false_eq_true, if_false]
    exact preorder_children_pruned p cs (anc ++ [.aggregate v cs])
      (by rw [unpruned_append, h]; rfl)
/-- The same for a list of siblings. -/
theorem preorder_children_pruned (p : XdrNode → Bool) : ∀ (cs : List XdrNode)
    (anc : List XdrNode), anc.all (fun a => !p a) = false →
    (preorder.children anc cs).filter (fun x => x.1.all (fun a => !p a)) = []
  | [], anc, h => by
    rw [preorder.children]
    rfl
  | c :: cs, anc, h => by
    rw [preorder.children, List.filter_append, preorder_pruned p c anc h,
      preorder_children_pruned p cs anc h]
    rfl
end

mutual
/-- The run of `forEachXdr.Marshal` on a value whose ancestors are not pruned, for a function
`fn` that answers `p`: `fn` is applied along the unpruned part of the pre-order listing. -/
theorem Marshal_fold {σ : Type} (fn : XdrNode → σ → Bool × σ) (p : XdrNode → Bool)
    (hfn : ∀ val s, (fn val s).1 = p val) : ∀ (val : XdrNode) (anc : List XdrNode) (s : σ),
    anc.all (fun a => !p a) = true →
    forEachXdr.Marshal fn val s
      = (((preorder anc val).filter (fun x => x.1.all (fun a => !p a))).map (fun x => x.2)).foldl
          (fun s val => (fn val s).2) s
  | .scalar v, anc, s, h => by
    rw [forEachXdr.Marshal, preorder, List.filter_cons, h]
    rfl
  | .aggregate v cs, anc, s, h => by
    rw [forEachXdr.Marshal, preorder, List.filter_cons, h, hfn]
    simp only [if_true, List.map_cons, List.foldl_cons]
    cases hp : p (.aggregate v cs) with
    | false =>
      simp only [Bool.not_false, if_true]
      rw [Marshal_children_fold fn p hfn cs (anc ++ [XdrNode.aggregate v cs]) _
        (by rw [unpruned_append, h, hp]; rfl)]
    | true =>
      simp only [Bool.not_true, Bool.false_eq_true, if_false]
      rw [preorder_children_pruned p cs (anc ++ [XdrNode.aggregate v cs])
        (by rw [unpruned_append, h, hp]; rfl)]
      rfl
/-- The same for a list of siblings. -/
theorem Marshal_children_fold {σ : Type} (fn : XdrNode → σ → Bool × σ) (p : XdrNode → Bool)
    (hfn : ∀ val s, (fn val s).1 = p val) : ∀ (cs : List XdrNode) (anc : List XdrNode) (s : σ),
    anc.all (fun a => !p a) = true →
    forEachXdr.Marshal.children fn cs s
      = (((preorder.children anc cs).filter (fun x => x.1.all (fun a => !p a))).map
          (fun x => x.2)).foldl (fun s val => (fn val s).2) s
  | [], anc, s, h => by
    rw [forEachXdr.Marshal.children, preorder.children]
    rfl
  | c :: cs, anc, s, h => by
    rw [forEachXdr.Marshal.children, preorder.children, Marshal_fold fn p hfn c anc s h,
      Marshal_children_fold fn p hfn cs anc _ h, List.filter_append, List.map_append,
      List.foldl_append]
end

theorem foldl_record (p : XdrNode → Bool) (l log : List XdrNode) :
    l.foldl (fun s val => (recordCall p val s).2) log = log ++ l := by
  induction l generalizing log with
  | nil => simp
  | cons a t ih =>
    rw [List.foldl_cons, ih]
    simp [recordCall]

/-- One step of `flatWalk` on an entry that is passed over. -/
theorem flatWalk_skip {σ : Type} (fn : XdrNode → σ → Bool × σ) (anc : List XdrNode)
    (val : XdrNode) (rest : List (List XdrNode × XdrNode)) (d : Nat) (s : σ)
    (h : d < anc.length) :
    flatWalk fn ((anc, val) :: rest) (some d) s = flatWalk fn rest (some d) s := by
  rw [flatWalk]
  simp [h]

/-- One step of `flatWalk` on an entry that is not passed over. -/
theorem flatWalk_call {σ : Type} (fn : XdrNode → σ → Bool × σ) (anc : List XdrNode)
    (val : XdrNode) (rest : List (List XdrNode × XdrNode)) (skip : Option Nat) (s : σ)
    (h : ∀ d, skip = some d → anc.length ≤ d) :
    flatWalk fn ((anc, val) :: rest) skip s
      = flatWalk fn rest (if (fn val s).1 then some anc.length else none) (fn val s).2 := by
  rw [flatWalk]
  cases skip with
  | none => simp
  | some d =>
    have := h d rfl
    simp [Nat.not_lt.2 this]

mutual
/-- The flat walk passes over the whole listing of a value that lies inside a pruned value. -/
theorem flatWalk_pruned {σ : Type} (fn : XdrNode → σ → Bool × σ) : ∀ (val : XdrNode)
    (anc : List XdrNode) (d : Nat) (rest : List (List XdrNode × XdrNode)) (s : σ),
    d < anc.length →
    flatWalk fn (preorder anc val ++ rest) (some d) s = flatWalk fn rest (some d) s
  | .scalar v, anc, d, rest, s, h => by
    rw [preorder, List.singleton_append, flatWalk_skip fn anc _ rest d s h]
  | .aggregate v cs, anc, d, rest, s, h => by
    rw [preorder, List.cons_append, flatWalk_skip fn anc _ _ d s h]
    exact flatWalk_children_pruned fn cs (anc ++ [XdrNode.aggregate v cs]) d rest s
      (by rw [List.length_append, List.length_singleton]; omega)
/-- The same for a list of siblings. -/
theorem flatWalk_children_pruned {σ : Type} (fn : XdrNode → σ → Bool × σ) :
    ∀ (cs : List XdrNode) (anc : List XdrNode) (d : Nat)
    (rest : List (List XdrNode × XdrNode)) (s : σ), d < anc.length →
    flatWalk fn (preorder.children anc cs ++ rest) (some d) s = flatWalk fn rest (some d) s
  | [], anc, d, rest, s, h => by
    rw [preorder.children, List.nil_append]
  | c :: cs, anc, d, rest, s, h => by
    rw [preorder.children, List.append_assoc, flatWalk_pruned fn c anc d _ s h,
      flatWalk_children_pruned fn cs anc d rest s h]
end

mutual
/-- The flat walk over the listing of a value that is not passed over does what
`forEachXdr.Marshal` does on the value, whatever state `fn` keeps; what it passes over
afterwards lies deeper than the value. -/
theorem flatWalk_Marshal {σ : Type} (fn : XdrNode → σ → Bool × σ) : ∀ (val : XdrNode)
    (anc : List XdrNode) (skip : Option Nat) (rest : List (List XdrNode × XdrNode)) (s : σ),
    (∀ d, skip = some d → anc.length ≤ d) →
    ∃ skip1 : Option Nat, (∀ d, skip1 = some d → anc.length ≤ d) ∧
      flatWalk fn (preorder anc val ++ rest) skip s
        = flatWalk fn rest skip1 (forEachXdr.Marshal fn val s)
  | .scalar v, anc, skip, rest, s, h => by
    refine ⟨if (fn (.scalar v) s).1 then some anc.length else none, ?_, ?_⟩
    · intro d hd
      split at hd
      · cases hd; exact le_refl _
      · cases hd
    · rw [preorder, List.singleton_append, flatWalk_call fn anc _ rest skip s h,
        forEachXdr.Marshal]
  | .aggregate v cs, anc, skip, rest, s, h => by
    rw [preorder, List.cons_append, flatWalk_call fn anc _ _ skip s h, forEachXdr.Marshal]
    cases hb : (fn (.aggregate v cs) s).1 with
    | true =>
      refine ⟨some anc.length, ?_, ?_⟩
      · intro d hd
        cases hd; exact le_refl _
      · simp only [if_true, Bool.not_true, Bool.false_eq_true, if_false]
        exact flatWalk_children_pruned fn cs (anc ++ [XdrNode.aggregate v cs]) anc.length rest _
          (by rw [List.length_append, List.length_singleton]; omega)
    | false =>
      obtain ⟨skip1, h1, h2⟩ := flatWalk_children_Marshal fn cs
        (anc ++ [XdrNode.aggregate v cs]) none rest (fn (.aggregate v cs) s).2
        (fun d hd => by cases hd)
      refine ⟨skip1, ?_, ?_⟩
      · intro d hd
        have := h1 d hd
        rw [List.length_append, List.length_singleton] at this
        omega
      · simp only [Bool.false_eq_true, if_false, Bool.not_false, if_true]
        exact h2
/-- The same for a list of siblings. -/
theorem flatWalk_children_Marshal {σ : Type} (fn : XdrNode → σ → Bool × σ) :
    ∀ (cs : List XdrNode) (anc : List XdrNode) (skip : Option Nat)
    (rest : List (List XdrNode × XdrNode)) (s : σ),
    (∀ d, skip = some d → anc.length ≤ d) →
    ∃ skip1 : Option Nat, (∀ d, skip1 = some d → anc.length ≤ d) ∧
      flatWalk fn (preorder.children anc cs ++ rest) skip s
        = flatWalk fn rest skip1 (forEachXdr.Marshal.children fn cs s)
  | [], anc, skip, rest, s, h => by
    refine ⟨skip, h, ?_⟩
    rw [preorder.children, List.nil_append, forEachXdr.Marshal.children]
  | c :: cs, anc, skip, rest, s, h => by
    obtain ⟨skip1, h1, h2⟩ := flatWalk_Marshal fn c anc skip (preorder.children anc cs ++ rest)
      s h
    obtain ⟨skip2, h3, h4⟩ := flatWalk_children_Marshal fn cs anc skip1 rest
      (forEachXdr.Marshal fn c s) h1
    refine ⟨skip2, h3, ?_⟩
    rw [preorder.children, List.append_assoc, h2, h4, forEachXdr.Marshal.children]
end

/-- The flat walk at its end returns the state. -/
theorem flatWalk_nil {σ : Type} (fn : XdrNode → σ → Bool × σ) (skip : Option Nat) (s : σ) :
    flatWalk fn [] skip s = s := by
  rw [flatWalk]

/-- C11: `ForEachXdr(t, fn)` calls `fn` on the values nested inside `t` in depth-first pre-order,
children in declaration order and `t` itself left out, no nested value twice, and it
descends into a nested aggregate exactly when `fn` returned false for it. For every `fn`,
whatever state it keeps and whatever its answers depend on, the run of `ForEachXdr` is the walk
through the pre-order listing of everything inside `t` that calls `fn` on an entry unless the
entry lies inside the value of the last call and that call returned true (`flatWalk`); so `fn` is
never called on anything inside a value for which it returned true, and it is called on every
other nested value. When the answers of `fn` are a function `p` of the value, the values `fn` is
applied to, one after the other, are those of the listing that have no aggregate around them
(inside `t`) on which `p` is true, and for the `fn` that records its calls the record is that
list. -/
theorem ForEachXdr_preorder {σ : Type} (fn : XdrNode → σ → Bool × σ) (t : XdrNode) (s : σ) :
    ForEachXdr t fn s = flatWalk fn (nestedValues t) none s ∧
    (∀ p : XdrNode → Bool, (∀ val s, (fn val s).1 = p val) →
      ForEachXdr t fn s
        = (((nestedValues t).filter (fun x => x.1.all (fun a => !p a))).map (fun x => x.2)).foldl
            (fun s val => (fn val s).2) s) ∧
    (∀ p : XdrNode → Bool, ForEachXdr t (recordCall p) []
      = ((nestedValues t).filter (fun x => x.1.all (fun a => !p a))).map (fun x => x.2)) := by
  cases t with
  | scalar v => exact ⟨(flatWalk_nil fn none s).symm, fun _ _ => rfl, fun _ => rfl⟩
  | aggregate v cs =>
    refine ⟨?_, ?_, ?_⟩
    · obtain ⟨skip1, _, h2⟩ := flatWalk_children_Marshal fn cs [] none [] s
        (fun d hd => by cases hd)
      rw [List.append_nil, flatWalk_nil] at h2
      rw [ForEachXdr, nestedValues, h2]
    · intro p hfn
      rw [ForEachXdr, nestedValues, Marshal_children_fold fn p hfn cs [] s rfl]
    · intro p
      rw [ForEachXdr, nestedValues,
        Marshal_children_fold (recordCall p) p (fun _ _ => rfl) cs [] [] rfl, foldl_record,
        List.nil_append]

/-- The walker of C11 on an example: `fn` answers true on the aggregate 4, so the value 5 inside
it is not visited; the aggregate 2 is entered, its children 3 and 4 are visited before its
sibling 6, and the root 0 is not visited. -/
theorem ForEachXdr_example :
    ForEachXdr walkTree (recordCall pruneFour) []
    = [.scalar 1, .aggregate 2 [.scalar 3, .aggregate 4 [.scalar 5]], .scalar 3,
        .aggregate 4 [.scalar 5], .scalar 6] := by
  rfl

/-- The walker with a `fn` that keeps state: `pruneSecond` answers true on its second call, which
is on the aggregate 2, so the values 3, 4 and 5 inside it are not visited. -/
theorem ForEachXdr_stateful_example :
    (ForEachXdr walkTree pruneSecond (0, [])).2
    = [.scalar 1, .aggregate 2 [.scalar 3, .aggregate 4 [.scalar 5]], .scalar 6] := by
  rfl

/-! ### The characters of a strkey -/

theorem mem_encodeStd (c : Nat) : c ∈ encodeStd ↔ (65 ≤ c ∧ c ≤ 90) ∨ (50 ≤ c ∧ c ≤ 55) := by
  unfold encodeStd
  simp only [List.mem_cons, List.mem_singleton, List.not_mem_nil, or_false]
  omega

theorem IsStrKeyChar_iff (c : Nat) :
    IsStrKeyChar c = true ↔ (65 ≤ c ∧ c ≤ 90) ∨ (48 ≤ c ∧ c ≤ 57) := by
  unfold IsStrKeyChar
  simp only [Bool.or_eq_true, Bool.and_eq_true, decide_eq_true_eq]

/-- A text that `FromStrKey` accepts is made of characters of the base-32 alphabet. -/
theorem FromStrKey_alphabet (s : List Nat) (c : Nat) (hc : c ∈ s) (hn : c ∉ encodeStd) :
    FromStrKey s = ([], STRKEY_ERROR) := by
  rcases FromStrKey_version s with he | hne
  · exact he
  · exfalso
    obtain ⟨bin, tl, hrem, hdec, hlen, _, _, _, _, hlast, _, _⟩ :=
      FromStrKey_ok s (FromStrKey s).1 (FromStrKey s).2 rfl hne
    obtain ⟨henc, _⟩ := b32Decode_canonical s bin hdec hlen hrem hlast
    rw [← henc] at hc
    exact hn (b32Encode_mem _ bin (Nat.le_refl _) c hc)

/-- C21 on the code: `IsStrKeyChar` is true on the base-32 alphabet `A`-`Z`, `2`-`7` and also on
the digits `0`, `1`, `8` and `9`, which are no characters of a strkey: `ToStrKey` never emits
them and `FromStrKey` rejects every text that holds one. Every character of every output of
`ToStrKey` does satisfy `IsStrKeyChar`. -/
theorem IsStrKeyChar_digits :
    (∀ c, IsStrKeyChar c = true ↔
      (c ∈ encodeStd ∨ c = '0'.toNat ∨ c = '1'.toNat ∨ c = '8'.toNat ∨ c = '9'.toNat)) ∧
    (∀ c ∈ ['0'.toNat, '1'.toNat, '8'.toNat, '9'.toNat],
      IsStrKeyChar c = true ∧ c ∉ encodeStd ∧ (∀ v p, c ∉ ToStrKey v p) ∧
      ∀ s, c ∈ s → FromStrKey s = ([], STRKEY_ERROR)) ∧
    (∀ v p, ∀ c ∈ ToStrKey v p, IsStrKeyChar c = true) := by
  have e0 : '0'.toNat = 48 := by decide
  have e1 : '1'.toNat = 49 := by decide
  have e8 : '8'.toNat = 56 := by decide
  have e9 : '9'.toNat = 57 := by decide
  have hmem : ∀ v p, ∀ c ∈ ToStrKey v p, c ∈ encodeStd := by
    intro v p c hc
    rw [ToStrKey_eq_encode] at hc
    exact b32Encode_mem _ _ (Nat.le_refl _) c hc
  refine ⟨fun c => ?_, fun c hc => ?_, fun v p c hc => ?_⟩
  · rw [IsStrKeyChar_iff, mem_encodeStd, e0, e1, e8, e9]
    omega
  · have hcases : c = 48 ∨ c = 49 ∨ c = 56 ∨ c = 57 := by
      rw [e0, e1, e8, e9] at hc
      simpa using hc
    have hn : c ∉ encodeStd := by
      rw [mem_encodeStd]
      omega
    refine ⟨(IsStrKeyChar_iff c).mpr (by omega), hn, fun v p h => hn (hmem v p c h),
      fun s hs => FromStrKey_alphabet s c hs hn⟩
  · have := (mem_encodeStd c).mp (hmem v p c hc)
    exact (IsStrKeyChar_iff c).mpr (by omega)

/-- The strkey `PAAQEA4HUY` of the signed payload 1, 2, 3, and the same text with its second
character replaced by `0`: `IsStrKeyChar` holds for every character of both, `FromStrKey` accepts
the first and rejects the second. -/
theorem IsStrKeyChar_example :
    (textBytes "PAAQEA4HUY").all IsStrKeyChar = true ∧
    (textBytes "P0AQEA4HUY").all IsStrKeyChar = true ∧
    FromStrKey (textBytes "PAAQEA4HUY") = ([1, 2, 3], STRKEY_SIGNED_PAYLOAD) ∧
    FromStrKey (textBytes "P0AQEA4HUY") = ([], STRKEY_ERROR) := by
  decide

/-! ### The text of an asset -/

theorem spaceLen_printable (c : Nat) (rest : List Nat) (hc : 32 < c ∧ c < 127) :
    spaceLen (c :: rest) = 0 := by
  unfold spaceLen
  split <;> first | omega | (split <;> omega) | (simp_all; done) | (simp_all; omega)

theorem runeLen_ascii (c : Nat) (rest : List Nat) (hc : c < 128) : runeLen (c :: rest) = 1 := by
  unfold runeLen
  simp only
  rw [if_neg (by omega), if_neg (by omega), if_neg (by omega)]

theorem tokenLoop_printable : ∀ (l : List Nat) (fuel : Nat), l.length ≤ fuel →
    (∀ c ∈ l, 32 < c ∧ c < 127) → tokenLoop fuel l = l := by
  intro l
  induction l with
  | nil => intro fuel _ _; cases fuel <;> rfl
  | cons c t ih =>
    intro fuel hf hp
    obtain ⟨f, rfl⟩ : ∃ f, fuel = f + 1 := ⟨fuel - 1, by simp at hf; omega⟩
    have hc := hp c (List.mem_cons_self _ _)
    unfold tokenLoop
    rw [if_neg (by rw [spaceLen_printable c t hc]; simp), if_neg (by omega),
      runeLen_ascii c t (by omega)]
    simp only [List.take_succ_cons, List.take_zero, List.drop_succ_cons, List.drop_zero,
      List.singleton_append]
    rw [ih f (by simp at hf; omega) (fun x hx => hp x (List.mem_cons_of_mem _ hx))]

theorem skipAllSpace_printable (l : List Nat) (fuel : Nat) (hp : ∀ c ∈ l, 32 < c ∧ c < 127) :
    skipAllSpace fuel l = l := by
  cases fuel with
  | zero => rfl
  | succ f =>
    unfold skipAllSpace
    cases l with
    | nil => simp [spaceLen]
    | cons c t => rw [if_pos (spaceLen_printable c t (hp c (List.mem_cons_self _ _)))]

theorem readToken_printable (l : List Nat) (hp : ∀ c ∈ l, 32 < c ∧ c < 127) :
    readToken l = l := by
  unfold readToken
  rw [skipAllSpace_printable l _ hp, tokenLoop_printable l _ (Nat.le_refl _) hp]

theorem renderByte_printable (b : Nat) (hb : b < 256) : ∀ c ∈ renderByte b, 32 < c ∧ c < 127 := by
  intro c hc
  unfold renderByte at hc
  split at hc
  · have h1 : hexDigit (b / 16) = 48 + b / 16 ∨ hexDigit (b / 16) = 87 + b / 16 := by
      unfold hexDigit
      split <;> simp
    have h2 : hexDigit (b % 16) = 48 + b % 16 ∨ hexDigit (b % 16) = 87 + b % 16 := by
      unfold hexDigit
      split <;> simp
    simp only [List.mem_cons, List.mem_singleton, List.not_mem_nil, or_false] at hc
    omega
  · split at hc
    · simp only [List.mem_cons, List.mem_singleton, List.not_mem_nil, or_false] at hc
      omega
    · simp only [List.mem_singleton] at hc
      omega

theorem RenderAssetCode_printable (code : List Nat) (hb : ∀ b ∈ code, b < 256) :
    ∀ c ∈ RenderAssetCode code, 32 < c ∧ c < 127 := by
  intro c hc
  unfold RenderAssetCode at hc
  simp only [List.mem_flatten, List.mem_map] at hc
  obtain ⟨l, ⟨b, hbm, rfl⟩, hcl⟩ := hc
  exact renderByte_printable b (hb b (List.mem_of_mem_take hbm)) c hcl

theorem ToStrKey_chars (v : Nat) (p : List Nat) :
    ∀ c ∈ ToStrKey v p, (32 < c ∧ c < 127) ∧ c ≠ 58 ∧ IsStrKeyChar c = true := by
  intro c hc
  rw [ToStrKey_eq_encode] at hc
  have h := (mem_encodeStd c).mp (b32Encode_mem _ _ (Nat.le_refl _) c hc)
  exact ⟨by omega, by omega, (IsStrKeyChar_iff c).mpr (by omega)⟩

theorem lastIndexByte_append (a b : List Nat) (c : Nat) (hb : c ∉ b) :
    lastIndexByte (a ++ c :: b) c = some a.length := by
  unfold lastIndexByte
  have hr : (a ++ c :: b).reverse = b.reverse ++ c :: a.reverse := by simp
  have hi : (a ++ c :: b).reverse.indexOf c = b.length := by
    rw [hr, List.indexOf_append_of_not_mem (fun h => hb (List.mem_reverse.mp h)),
      List.indexOf_cons_self, List.length_reverse]
    rfl
  rw [hi]
  simp only [List.length_append, List.length_cons]
  rw [if_pos (by omega)]
  congr 1
  omega

theorem copyBytes_full (key : List Nat) (hk : key.length = 32) :
    copyBytes (List.replicate 32 0) key = key := by
  unfold copyBytes
  rw [List.length_replicate, List.take_of_length_le (by omega),
    List.drop_of_length_le (by simp; omega), List.append_nil]

theorem PublicKey_Scan_String (key : List Nat) (hk : key.length = 32) (hb : ∀ b ∈ key, b < 256) :
    PublicKey.Scan (PublicKey.String (.ed25519 key)) = some (.ed25519 key) := by
  unfold PublicKey.Scan PublicKey.String
  have hch := ToStrKey_chars (STRKEY_PUBKEY ||| STRKEY_ALG_ED25519) key
  rw [skipAllSpace_printable _ _ (fun c hc => (hch c hc).1),
    List.takeWhile_eq_self_iff.mpr (fun c hc => (hch c hc).2.2)]
  unfold PublicKey.UnmarshalText
  rw [FromStrKey_ToStrKey_of_payloadLen _ key 32 hb (by decide) (Or.inr (by rw [hk]; rfl))]
  simp only [if_true]
  rw [copyBytes_full key hk]

/-- The text of a credit asset is one token, its last colon is the separator, and scanning it
gives back code and issuer. -/
theorem Asset_Scan_credit (scanPoolID : List Nat → Option (List Nat)) (code key : List Nat)
    (hl : code.length = 4 ∨ code.length = 12) (hcb : ∀ b ∈ code, b < 256)
    (hk : key.length = 32) (hkb : ∀ b ∈ key, b < 256) :
    readToken (RenderAssetCode code ++ [58] ++ PublicKey.String (.ed25519 key))
      = RenderAssetCode code ++ 58 :: PublicKey.String (.ed25519 key) ∧
    lastIndexByte (RenderAssetCode code ++ 58 :: PublicKey.String (.ed25519 key)) 58
      = some (RenderAssetCode code).length ∧
    Asset.Scan scanPoolID (RenderAssetCode code ++ 58 :: PublicKey.String (.ed25519 key))
      = if code.length ≤ 4 then .ok (.creditAlphanum4 code (.ed25519 key))
        else .ok (.creditAlphanum12 code (.ed25519 key)) := by
  have hch := ToStrKey_chars (STRKEY_PUBKEY ||| STRKEY_ALG_ED25519) key
  have hK : PublicKey.String (.ed25519 key) = ToStrKey (STRKEY_PUBKEY ||| STRKEY_ALG_ED25519) key :=
    rfl
  have hlast : lastIndexByte (RenderAssetCode code ++ 58 :: PublicKey.String (.ed25519 key)) 58
      = some (RenderAssetCode code).length := by
    apply lastIndexByte_append
    rw [hK]
    intro h
    exact (hch 58 h).2.1 rfl
  refine ⟨?_, hlast, ?_⟩
  · rw [List.append_assoc, List.singleton_append]
    apply readToken_printable
    intro c hc
    rcases List.mem_append.mp hc with h | h
    · exact RenderAssetCode_printable code hcb c h
    · rcases List.mem_cons.mp h with h | h
      · rw [h]
        omega
      · rw [hK] at h
        exact (hch c h).1
  · unfold Asset.Scan
    rw [hlast]
    simp only
    have hdrop : (RenderAssetCode code ++ 58 :: PublicKey.String (.ed25519 key)).drop
        ((RenderAssetCode code).length + 1) = PublicKey.String (.ed25519 key) := by
      rw [List.drop_append_eq_append_drop, List.drop_of_length_le (by omega)]
      simp
    have htake : (RenderAssetCode code ++ 58 :: PublicKey.String (.ed25519 key)).take
        (RenderAssetCode code).length = RenderAssetCode code := by
      rw [List.take_append_eq_append_take, List.take_of_length_le (by omega)]
      simp
    have hlp : PublicKey.String (.ed25519 key) ≠ [108, 112] := by
      intro h
      rw [hK] at h
      have := (hch 108 (by rw [h]; simp)).2.2
      exact absurd this (by decide)
    rw [hdrop, htake, if_neg hlp]
    simp only
    rw [PublicKey_Scan_String key hk hkb]
    simp only
    rw [scan_render code hcb hl]

/-- C22: the text round trip of an asset. For every asset `a` that is native, or credit-alphanum4
or credit-alphanum12 with an ed25519 issuer and any code bytes (colons and backslashes
included), scanning the text `a.String()` with `Asset.Scan` succeeds and gives an asset equal to
`a`; the text of a credit asset is read as one token, and the separator found in it is its last
colon, the one after the rendered code. -/
theorem Asset_Scan_String (scanPoolID : List Nat → Option (List Nat)) (a : Asset)
    (ha : a.wellFormed) :
    Asset.ScanText scanPoolID a.String = .ok a ∧
    ∀ code issuer, a = .creditAlphanum4 code issuer ∨ a = .creditAlphanum12 code issuer →
      readToken a.String = RenderAssetCode code ++ 58 :: issuer.String ∧
      58 ∉ issuer.String ∧
      lastIndexByte (readToken a.String) 58 = some (RenderAssetCode code).length := by
  cases a with
  | native =>
    refine ⟨?_, fun code issuer h => ?_⟩
    · have ht : readToken nativeText = nativeText := by decide
      unfold Asset.ScanText Asset.String
      rw [ht]
      unfold Asset.Scan
      rw [lastIndexByte_none nativeText 58 (by decide)]
      rfl
    · rcases h with h | h <;> exact Asset.noConfusion h
  | creditAlphanum4 code issuer =>
    cases issuer with
    | other t => exact absurd ha (by simp [Asset.wellFormed])
    | ed25519 key =>
      obtain ⟨hl, hcb, hk, hkb⟩ := ha
      obtain ⟨h1, h2, h3⟩ := Asset_Scan_credit scanPoolID code key (Or.inl hl) hcb hk hkb
      have hno : 58 ∉ PublicKey.String (.ed25519 key) := fun h =>
        (ToStrKey_chars (STRKEY_PUBKEY ||| STRKEY_ALG_ED25519) key 58 h).2.1 rfl
      constructor
      · unfold Asset.ScanText Asset.String
        rw [h1, h3, if_pos (by omega)]
      · intro code2 issuer2 h
        rcases h with h | h
        · obtain ⟨rfl, rfl⟩ := Asset.creditAlphanum4.inj h
          unfold Asset.String
          rw [h1]
          exact ⟨rfl, hno, h2⟩
        · exact Asset.noConfusion h
  | creditAlphanum12 code issuer =>
    cases issuer with
    | other t => exact absurd ha (by simp [Asset.wellFormed])
    | ed25519 key =>
      obtain ⟨hl, hcb, hk, hkb⟩ := ha
      obtain ⟨h1, h2, h3⟩ := Asset_Scan_credit scanPoolID code key (Or.inr hl) hcb hk hkb
      have hno : 58 ∉ PublicKey.String (.ed25519 key) := fun h =>
        (ToStrKey_chars (STRKEY_PUBKEY ||| STRKEY_ALG_ED25519) key 58 h).2.1 rfl
      constructor
      · unfold Asset.ScanText Asset.String
        rw [h1, h3, if_neg (by omega)]
      · intro code2 issuer2 h
        rcases h with h | h
        · exact Asset.noConfusion h
        · obtain ⟨rfl, rfl⟩ := Asset.creditAlphanum12.inj h
          unfold Asset.String
          rw [h1]
          exact ⟨rfl, hno, h2⟩

theorem Asset_Scan_String_witness :
    Asset.wellFormed (.creditAlphanum4 [58, 92, 0x20, 0] (.ed25519 (List.replicate 32 7))) ∧
    (Asset.ScanText (fun _ => none)
        (Asset.String (.creditAlphanum4 [58, 92, 0x20, 0] (.ed25519 (List.replicate 32 7))))
      = .ok (.creditAlphanum4 [58, 92, 0x20, 0] (.ed25519 (List.replicate 32 7))) ∧
    ∀ code issuer,
      Asset.creditAlphanum4 [58, 92, 0x20, 0] (.ed25519 (List.replicate 32 7))
          = .creditAlphanum4 code issuer ∨
        Asset.creditAlphanum4 [58, 92, 0x20, 0] (.ed25519 (List.replicate 32 7))
          = .creditAlphanum12 code issuer →
      readToken (Asset.String
          (.creditAlphanum4 [58, 92, 0x20, 0] (.ed25519 (List.replicate 32 7))))
        = RenderAssetCode code ++ 58 :: issuer.String ∧
      58 ∉ issuer.String ∧
      lastIndexByte (readToken (Asset.String
          (.creditAlphanum4 [58, 92, 0x20, 0] (.ed25519 (List.replicate 32 7))))) 58
        = some (RenderAssetCode code).length) :=
  ⟨⟨rfl, by decide, rfl, by decide⟩,
    Asset_Scan_String (fun _ => none)
      (.creditAlphanum4 [58, 92, 0x20, 0] (.ed25519 (List.replicate 32 7)))
      ⟨rfl, by decide, rfl, by decide⟩⟩

/-- The round trip of C22 on texts: the code `:\` followed by a space and a zero byte renders as
`\:\\\x20`, and the text of the 12-byte code `USD` keeps a fifth byte `\x00` that tells it from
the 4-byte code. -/
theorem Asset_String_examples :
    RenderAssetCode [58, 92, 0x20, 0] = textBytes "\\:\\\\\\x20" ∧
    RenderAssetCode [85, 83, 68, 0, 0, 0, 0, 0, 0, 0, 0, 0] = textBytes "USD\\x00\\x00" ∧
    ScanAssetCode (textBytes "USD\\x00\\x00") = .ok [85, 83, 68, 0, 0, 0, 0, 0, 0, 0, 0, 0] ∧
    Asset.ScanText (fun _ => none) (Asset.String .native) = .ok .native := by
  decide

/-! ### Parsing a signer key -/

/-- C23 on the code: `SignerKey.UnmarshalText` ends in a panic exactly when `FromStrKey` decodes
the text with version `STRKEY_SIGNED_PAYLOAD` and the payload fails XDR decoding. The deferred
function recovers the panic of the decoder and sets `err`, but then calls `panic(i)` again, so
no error is returned; on every other text the call returns `nil` or
`StrKeyError("Invalid signer key string")`. -/
theorem SignerKey_UnmarshalText_panic_iff (s : List Nat) :
    (SignerKey.UnmarshalText s = .panic ↔
      ((FromStrKey s).2 = STRKEY_SIGNED_PAYLOAD ∧
        xdrDecode signedPayloadType none (FromStrKey s).1 = none)) ∧
    (SignerKey.UnmarshalText s ≠ .panic →
      (∃ pk, SignerKey.UnmarshalText s = .ok pk) ∨
        SignerKey.UnmarshalText s = .error "Invalid signer key string") ∧
    (∀ isXdrError err, (deferredRecover (some isXdrError) err).2 = true) := by
  refine ⟨?_, ?_, fun _ _ => rfl⟩
  · unfold SignerKey.UnmarshalText
    by_cases h1 : (FromStrKey s).2 = STRKEY_PUBKEY ||| STRKEY_ALG_ED25519
    · rw [if_pos h1, h1]
      simp only [reduceCtorEq, false_iff, not_and]
      intro h
      exact absurd h (by decide)
    rw [if_neg h1]
    by_cases h2 : (FromStrKey s).2 = STRKEY_PRE_AUTH_TX
    · rw [if_pos h2, h2]
      simp only [reduceCtorEq, false_iff, not_and]
      intro h
      exact absurd h (by decide)
    rw [if_neg h2]
    by_cases h3 : (FromStrKey s).2 = STRKEY_HASH_X
    · rw [if_pos h3, h3]
      simp only [reduceCtorEq, false_iff, not_and]
      intro h
      exact absurd h (by decide)
    rw [if_neg h3]
    by_cases h4 : (FromStrKey s).2 = STRKEY_SIGNED_PAYLOAD
    · rw [if_pos h4]
      cases hd : xdrDecode signedPayloadType none (FromStrKey s).1 with
      | none => simp [deferredRecover, h4]
      | some p => simp [deferredRecover]
    · rw [if_neg h4]
      simp only [reduceCtorEq, false_iff, not_and]
      intro h
      exact absurd h h4
  · intro _
    unfold SignerKey.UnmarshalText
    by_cases h1 : (FromStrKey s).2 = STRKEY_PUBKEY ||| STRKEY_ALG_ED25519
    · rw [if_pos h1]
      exact Or.inl ⟨_, rfl⟩
    rw [if_neg h1]
    by_cases h2 : (FromStrKey s).2 = STRKEY_PRE_AUTH_TX
    · rw [if_pos h2]
      exact Or.inl ⟨_, rfl⟩
    rw [if_neg h2]
    by_cases h3 : (FromStrKey s).2 = STRKEY_HASH_X
    · rw [if_pos h3]
      exact Or.inl ⟨_, rfl⟩
    rw [if_neg h3]
    by_cases h4 : (FromStrKey s).2 = STRKEY_SIGNED_PAYLOAD
    · rw [if_pos h4]
      rename_i hp
      cases hd : xdrDecode signedPayloadType none (FromStrKey s).1 with
      | none =>
        exfalso
        apply hp
        unfold SignerKey.UnmarshalText
        rw [if_neg h1, if_neg h2, if_neg h3, if_pos h4, hd]
        rfl
      | some p => exact Or.inl ⟨_, rfl⟩
    · rw [if_neg h4]
      exact Or.inr rfl

/-- The failing input of C23: the strkey of version `STRKEY_SIGNED_PAYLOAD` with an empty
payload is the text `PCP76`; `FromStrKey` decodes it, the XDR decoder fails on the empty payload
and `SignerKey.UnmarshalText` ends in a panic. -/
theorem SignerKey_UnmarshalText_empty_payload :
    ToStrKey STRKEY_SIGNED_PAYLOAD [] = textBytes "PCP76" ∧
    FromStrKey (textBytes "PCP76") = ([], STRKEY_SIGNED_PAYLOAD) ∧
    xdrDecode signedPayloadType none [] = none ∧
    SignerKey.UnmarshalText (textBytes "PCP76") = .panic := by
  decide

/-! ### White space inside a hexadecimal escape -/

/-- A hexadecimal digit is a printable character and no white space. -/
theorem isHexDigit_printable (d : Nat) (h : isHexDigit d = true) : 32 < d ∧ d < 127 := by
  unfold isHexDigit at h
  simp only [Bool.or_eq_true, Bool.and_eq_true, decide_eq_true_eq] at h
  omega

/-- The method `SkipSpace` of `fmt.Fscanf` reads over a run of spaces up to the digit. -/
theorem skipSpace_spaces (d : Nat) (rest : List Nat) (hd : isHexDigit d = true) :
    ∀ (k fuel : Nat), k ≤ fuel →
      skipSpace fuel (List.replicate k 32 ++ d :: rest) = some (d :: rest) := by
  have hp := isHexDigit_printable d hd
  have h0 : spaceLen (d :: rest) = 0 := spaceLen_printable d rest hp
  intro k
  induction k with
  | zero =>
    intro fuel _
    cases fuel with
    | zero => rfl
    | succ f =>
      rw [List.replicate_zero, List.nil_append, skipSpace, if_neg (by omega), if_neg (by omega),
        if_pos h0]
  | succ k ih =>
    intro fuel hf
    obtain ⟨f, rfl⟩ : ∃ f, fuel = f + 1 := ⟨fuel - 1, by omega⟩
    have h1 : spaceLen (32 :: (List.replicate k 32 ++ d :: rest)) = 1 := by
      unfold spaceLen
      split <;> simp_all
    rw [List.replicate_succ, List.cons_append, skipSpace, if_neg (by omega), if_neg (by omega),
      if_neg (by omega), h1, List.drop_succ_cons, List.drop_zero]
    exact ih f (by omega)

/-- The call `fmt.Fscanf(ss, "%02x", &out[i])` on spaces followed by two hexadecimal digits
reads the byte that the digits spell. -/
theorem fscanfHex2_spaces (k d1 d2 : Nat) (h1 : isHexDigit d1 = true)
    (h2 : isHexDigit d2 = true) :
    fscanfHex2 (List.replicate k 32 ++ [d1, d2]) = some (16 * hexVal d1 + hexVal d2, []) := by
  unfold fscanfHex2
  rw [skipSpace_spaces d1 [d2] h1 k _ (by simp)]
  simp only [h1, h2, if_true]

/-- C15 on the code: `ScanAssetCode` does not reject every input that contains an unescaped byte
`≤ 0x20`. The range test `r <= 32 || r >= 127` is applied to the byte read at the start of a round
only, and after `\x` the call `fmt.Fscanf(ss, "%02x", &out[i])` skips white space before it reads
the digits: a backslash, `x`, any number `k ≥ 1` of spaces and two hexadecimal digits is an input
that contains the unescaped byte `0x20`, and it is accepted as the one byte that the digits
spell, padded with zeros to 4 bytes. -/
theorem ScanAssetCode_accepts_space (k d1 d2 : Nat) (hk : 1 ≤ k) (h1 : isHexDigit d1 = true)
    (h2 : isHexDigit d2 = true) :
    0x20 ∈ [92, 120] ++ List.replicate k 32 ++ [d1, d2] ∧
    ScanAssetCode ([92, 120] ++ List.replicate k 32 ++ [d1, d2])
      = .ok [16 * hexVal d1 + hexVal d2, 0, 0, 0] := by
  constructor
  · obtain ⟨j, rfl⟩ : ∃ j, k = j + 1 := ⟨k - 1, by omega⟩
    simp [List.replicate_succ]
  · rw [ScanAssetCode_tokens]
    have ht : scanTokens 12 ([92, 120] ++ List.replicate k 32 ++ [d1, d2])
        = .ok ([16 * hexVal d1 + hexVal d2], []) := by
      have hr : scanRound 92 (120 :: (List.replicate k 32 ++ [d1, d2]))
          = .ok (16 * hexVal d1 + hexVal d2, []) := by
        simp [scanRound, fscanfHex2_spaces k d1 d2 h1 h2]
      rw [List.append_assoc, List.cons_append, List.cons_append, List.nil_append, scanTokens, hr]
      simp only
      rw [scanTokens_nil]
    rw [ht]
    rfl

/-- The text `\x 41`, which holds an unescaped space, is accepted and decodes to `A`. -/
theorem ScanAssetCode_accepts_space_witness :
    1 ≤ 1 ∧ isHexDigit 52 = true ∧ isHexDigit 49 = true ∧
    (0x20 ∈ [92, 120] ++ List.replicate 1 32 ++ [52, 49] ∧
      ScanAssetCode ([92, 120] ++ List.replicate 1 32 ++ [52, 49])
        = .ok [16 * hexVal 52 + hexVal 49, 0, 0, 0]) :=
  ⟨by decide, by decide, by decide,
    ScanAssetCode_accepts_space 1 52 49 (by decide) (by decide) (by decide)⟩

end Stc
